import Mathlib

/-!
# Verification of the treyspace-sdk clustering and traversal engine

Shallow embedding of the clustering routes (`sdk/routes/health.js`), the
graph normalizer (`consolidateLabelsIntoShapes`), the MCP traversal handlers
(multi-hop BFS, flow paths, session management) and the traversal-cache
signature, together with proofs and refutations of the specification claims.

JS numbers are modelled as exact rationals (`ℚ`); JS string truthiness
(`a || b`) is modelled by `jsOr`; JS `Map` lookup (later insertions win) is
modelled by `jsMapFind`.  Comparisons that the source performs on square
roots (`Math.hypot`, cosine against a threshold) are embedded as the
equivalent square-free rational comparisons; bridge lemmas relate them to
the real-valued originals.
-/

set_option maxRecDepth 8000

namespace Treyspace

/-- A canvas element, carrying exactly the fields the clustering and
traversal code reads (`externalId`, internal `id`, `kind`, bounding box,
`text`, container and connector bindings, `version`/`updated` counters and
the three cluster-membership fields). -/
structure Element where
  externalId : String
  id : String
  kind : String
  x : ℚ := 0
  y : ℚ := 0
  w : ℚ := 0
  h : ℚ := 0
  text : String := ""
  containerId : String := ""
  startBindingId : String := ""
  endBindingId : String := ""
  updated : Nat := 0
  version : Nat := 0
  semanticClusterId : String := ""
  distanceClusterId : String := ""
  relationalClusterId : String := ""
deriving Repr, DecidableEq

/-- JS string truthiness fallback `a || b` (empty string is falsy). -/
def jsOr (a b : String) : String := if a = "" then b else a

/-- JS `Map` built by inserting key/value pairs in list order: a lookup
returns the value of the LAST pair whose key matches. -/
def jsMapFind {α : Type} (l : List (String × α)) (k : String) : Option α :=
  (l.reverse.find? (fun p => p.1 = k)).map (·.2)

/-- `String(el.kind || el.type || "").toLowerCase()` (single `kind` field). -/
def normalizeKind (el : Element) : String := el.kind.toLower

/-- `isConnector` from the server bootstrap: lower-cased kind is `arrow` or
`line`. -/
def isConnector (el : Element) : Bool :=
  normalizeKind el = "arrow" || normalizeKind el = "line"

/-- `String(label.externalId || label.id || "")`: the key under which a label
is recorded as assigned. -/
def labelKey (l : Element) : String := jsOr l.externalId l.id

/-- `mergeText` from `consolidateLabelsIntoShapes`: concatenate the two
trimmed texts unless one already contains the other. -/
def mergeText (a b : String) : String :=
  let aStr := a.trim
  let bStr := b.trim
  if aStr = "" && bStr = "" then ""
  else if aStr = "" then bStr
  else if bStr = "" then aStr
  else if bStr.data <:+: aStr.data then aStr
  else if aStr.data <:+: bStr.data then bStr
  else (aStr ++ " " ++ bStr).trim

/-- Update the LAST element of `l` satisfying `p` (JS `Map` lookups return
the object inserted last for a duplicated key, and the update mutates that
object in place). -/
def updateLastBy (l : List Element) (p : Element → Bool) (f : Element → Element) :
    List Element :=
  (go l.reverse).reverse
where
  go : List Element → List Element
    | [] => []
    | x :: xs => if p x then f x :: xs else x :: go xs

/-- One iteration of the label loop in `consolidateLabelsIntoShapes`: try to
absorb `label` into the shape named by its explicit container reference
(external id first, then internal id).  Returns the updated shape list and
whether the label was absorbed. -/
def applyLabel (shapes : List Element) (label : Element) : List Element × Bool :=
  let text := label.text.trim
  if text = "" then (shapes, false)
  else
    let ck := label.containerId
    if ck = "" then (shapes, false)
    else if shapes.any (fun s => s.externalId = ck) then
      (updateLastBy shapes (fun s => s.externalId = ck)
        (fun s => { s with text := mergeText s.text text }), true)
    else if shapes.any (fun s => s.id = ck) then
      (updateLastBy shapes (fun s => s.id = ck)
        (fun s => { s with text := mergeText s.text text }), true)
    else (shapes, false)

/-- `consolidateLabelsIntoShapes` (graph normalizer): split elements into
text labels and shapes, absorb each nonempty-text label into the shape its
explicit container reference names, and keep the unabsorbed labels. -/
def consolidateLabelsIntoShapes (els : List Element) : List Element :=
  let labels := els.filter (fun e => normalizeKind e = "text")
  let shapes := els.filter (fun e => ¬ normalizeKind e = "text")
  let step := labels.foldl
    (fun (acc : List Element × List String) label =>
      let r := applyLabel acc.1 label
      (r.1, if r.2 then acc.2 ++ [labelKey label] else acc.2))
    (shapes, [])
  step.1 ++ labels.filter (fun l => ¬ step.2.contains (labelKey l))

/-! ## Characterization of `consolidateLabelsIntoShapes` (claim C9) -/

/-- The shape sublist the normalizer works on. -/
def shapesOf (els : List Element) : List Element :=
  els.filter (fun e => ¬ normalizeKind e = "text")

/-- The text-label sublist the normalizer works on. -/
def labelsOf (els : List Element) : List Element :=
  els.filter (fun e => normalizeKind e = "text")

/-- Whether a label gets absorbed by some shape: nonempty trimmed text, a
nonempty explicit container reference, and a shape matching that reference
by external id or by internal id.  (No geometric test appears here.) -/
def labelAbsorbable (shapes : List Element) (l : Element) : Bool :=
  !(l.text.trim = "") && !(l.containerId = "") &&
    (shapes.any (fun s => s.externalId = l.containerId) ||
     shapes.any (fun s => s.id = l.containerId))

/-- The external id of the shape a label is absorbed into, if any: the last
shape whose external id matches the container reference, else the last shape
whose internal id matches (JS `Map` lookups return the last insertion). -/
def labelTargetExt (shapes : List Element) (l : Element) : Option String :=
  if l.text.trim = "" then none
  else if l.containerId = "" then none
  else if shapes.any (fun s => s.externalId = l.containerId) then
    (shapes.reverse.find? (fun s => s.externalId = l.containerId)).map (·.externalId)
  else if shapes.any (fun s => s.id = l.containerId) then
    (shapes.reverse.find? (fun s => s.id = l.containerId)).map (·.externalId)
  else none

lemma updateLastBy.go_eq_map (p : Element → Bool) (f : Element → Element)
    (l : List Element) (h : l.countP p ≤ 1) :
    updateLastBy.go p f l = l.map (fun x => if p x then f x else x) := by
  induction l with
  | nil => rfl
  | cons x xs ih =>
    rw [List.countP_cons] at h
    by_cases hx : p x
    · simp only [hx, if_true] at h
      simp only [hx, if_pos, updateLastBy.go, List.map_cons]
      have hxs : xs.countP p = 0 := by omega
      have hmap : ∀ a ∈ xs, (fun x => if p x then f x else x) a = id a := by
        rw [List.countP_eq_zero] at hxs
        intro a ha
        simp [hxs a ha]
      simp [hx, List.map_congr_left hmap]
    · simp only [updateLastBy.go, hx, List.map_cons, if_neg]
      rw [ih (by omega)]
      simp [hx]

lemma updateLastBy_eq_map (l : List Element) (p : Element → Bool)
    (f : Element → Element) (h : l.countP p ≤ 1) :
    updateLastBy l p f = l.map (fun x => if p x then f x else x) := by
  unfold updateLastBy
  rw [updateLastBy.go_eq_map p f l.reverse (by rwa [List.countP_reverse])]
  rw [List.map_reverse, List.reverse_reverse]

/-- Write access to a shape's text only, keyed by the original shape. -/
def textUpd (g : Element → String) (s : Element) : Element := { s with text := g s }

lemma mem_of_countP_le_one {l : List Element} {p : Element → Bool}
    (hle : l.countP p ≤ 1) {a b : Element} (ha : a ∈ l) (hb : b ∈ l)
    (hpa : p a) (hpb : p b) : a = b := by
  by_contra hne
  have h2 : 2 ≤ l.countP p := by
    obtain ⟨l₁, l₂, rfl⟩ := List.append_of_mem ha
    rcases List.mem_append.mp hb with hb1 | hb2
    · obtain ⟨m₁, m₂, rfl⟩ := List.append_of_mem hb1
      simp only [List.countP_append, List.countP_cons, hpa, hpb, if_true]
      omega
    · rcases List.mem_cons.mp hb2 with rfl | hb3
      · exact absurd rfl hne
      · obtain ⟨m₁, m₂, rfl⟩ := List.append_of_mem hb3
        simp only [List.countP_append, List.countP_cons, hpa, hpb, if_true]
        omega
  omega

lemma countP_le_one_of_nodup_map {l : List Element} {f : Element → String}
    (h : (l.map f).Nodup) (k : String) :
    l.countP (fun s => f s = k) ≤ 1 := by
  have h1 : l.countP (fun s => f s = k) = (l.map f).countP (fun v => v = k) := by
    rw [List.countP_map]
    rfl
  have h2 : (l.map f).countP (fun v => v = k) = (l.map f).count k := by
    rw [List.count]
    apply List.countP_congr
    intro v _
    by_cases hv : v = k <;> simp [hv]
  rw [h1, h2]
  exact List.nodup_iff_count_le_one.mp h k

lemma applyLabel_map (shapes₀ : List Element) (g : Element → String) (l : Element)
    (hext : (shapes₀.map (·.externalId)).Nodup)
    (hint : (shapes₀.map (·.id)).Nodup) :
    applyLabel (shapes₀.map (textUpd g)) l =
      (shapes₀.map (textUpd (fun s =>
         if labelTargetExt shapes₀ l = some s.externalId
         then mergeText (g s) l.text.trim else g s)),
       labelAbsorbable shapes₀ l) := by
  have hPe : ((shapes₀.map (textUpd g)).any (fun s => s.externalId = l.containerId))
      = shapes₀.any (fun s => s.externalId = l.containerId) := by
    rw [List.any_map]; rfl
  have hPi : ((shapes₀.map (textUpd g)).any (fun s => s.id = l.containerId))
      = shapes₀.any (fun s => s.id = l.containerId) := by
    rw [List.any_map]; rfl
  by_cases h1 : l.text.trim = ""
  · have ht : labelTargetExt shapes₀ l = none := by rw [labelTargetExt, if_pos h1]
    have ha : labelAbsorbable shapes₀ l = false := by simp [labelAbsorbable, h1]
    rw [ht, ha]
    simp only [applyLabel]
    rw [if_pos h1]
    simp only [Prod.mk.injEq]
    refine ⟨?_, trivial⟩
    apply List.map_congr_left
    intro s _
    simp only [textUpd]
    rw [if_neg (by simp)]
  · by_cases h2 : l.containerId = ""
    · have ht : labelTargetExt shapes₀ l = none := by
        rw [labelTargetExt, if_neg h1, if_pos h2]
      have ha : labelAbsorbable shapes₀ l = false := by simp [labelAbsorbable, h2]
      rw [ht, ha]
      simp only [applyLabel]
      rw [if_neg h1, if_pos h2]
      simp only [Prod.mk.injEq]
      refine ⟨?_, trivial⟩
      apply List.map_congr_left
      intro s _
      simp only [textUpd]
      rw [if_neg (by simp)]
    · by_cases h3 : shapes₀.any (fun s => s.externalId = l.containerId)
      · -- external-id branch: the last shape whose externalId matches absorbs
        have hfind : ∃ m', shapes₀.reverse.find? (fun s => s.externalId = l.containerId)
            = some m' := by
          have hrev : shapes₀.reverse.any (fun s => s.externalId = l.containerId) := by
            rw [List.any_reverse]; exact h3
          obtain ⟨m', hm'1, hm'2⟩ := List.any_eq_true.mp hrev
          cases hfo : shapes₀.reverse.find? (fun s => s.externalId = l.containerId) with
          | none => exact absurd hm'2 (by simpa using List.find?_eq_none.mp hfo m' hm'1)
          | some v => exact ⟨v, rfl⟩
        obtain ⟨m', hm'⟩ := hfind
        have hm'p : m'.externalId = l.containerId := by
          simpa using List.find?_some hm'
        have ht : labelTargetExt shapes₀ l = some m'.externalId := by
          rw [labelTargetExt, if_neg h1, if_neg h2, if_pos h3, hm']
          rfl
        have ha : labelAbsorbable shapes₀ l = true := by
          simp [labelAbsorbable, h1, h2, h3]
        rw [ht, ha]
        simp only [applyLabel]
        rw [if_neg h1, if_neg h2, hPe, if_pos h3]
        simp only [Prod.mk.injEq]
        refine ⟨?_, trivial⟩
        rw [updateLastBy_eq_map _ _ _ (by
          rw [List.countP_map]
          exact countP_le_one_of_nodup_map hext l.containerId)]
        rw [List.map_map]
        apply List.map_congr_left
        intro s hs
        simp only [Function.comp, textUpd]
        by_cases hcond : s.externalId = l.containerId
        · rw [if_pos (by simpa using hcond), if_pos (by rw [Option.some_inj, hm'p, hcond])]
        · rw [if_neg (by simpa using hcond), if_neg (by
            rw [Option.some_inj, hm'p]
            exact fun hc => hcond hc.symm)]
      · by_cases h4 : shapes₀.any (fun s => s.id = l.containerId)
        · -- internal-id branch
          have hfind : ∃ m', shapes₀.reverse.find? (fun s => s.id = l.containerId)
              = some m' := by
            have hrev : shapes₀.reverse.any (fun s => s.id = l.containerId) := by
              rw [List.any_reverse]; exact h4
            obtain ⟨m', hm'1, hm'2⟩ := List.any_eq_true.mp hrev
            cases hfo : shapes₀.reverse.find? (fun s => s.id = l.containerId) with
            | none => exact absurd hm'2 (by simpa using List.find?_eq_none.mp hfo m' hm'1)
            | some v => exact ⟨v, rfl⟩
          obtain ⟨m', hm'⟩ := hfind
          have hm'p : m'.id = l.containerId := by
            simpa using List.find?_some hm'
          have hm'mem : m' ∈ shapes₀ :=
            List.mem_reverse.mp (List.mem_of_find?_eq_some hm')
          have ht : labelTargetExt shapes₀ l = some m'.externalId := by
            rw [labelTargetExt, if_neg h1, if_neg h2, if_neg h3, if_pos h4, hm']
            rfl
          have ha : labelAbsorbable shapes₀ l = true := by
            simp [labelAbsorbable, h1, h2, h4]
          rw [ht, ha]
          simp only [applyLabel]
          rw [if_neg h1, if_neg h2, hPe, if_neg h3, hPi, if_pos h4]
          simp only [Prod.mk.injEq]
          refine ⟨?_, trivial⟩
          rw [updateLastBy_eq_map _ _ _ (by
            rw [List.countP_map]
            exact countP_le_one_of_nodup_map hint l.containerId)]
          rw [List.map_map]
          apply List.map_congr_left
          intro s hs
          simp only [Function.comp, textUpd]
          by_cases hcond : s.id = l.containerId
          · have hsm : s = m' := by
              refine mem_of_countP_le_one
                (p := fun s => s.id = l.containerId)
                (countP_le_one_of_nodup_map hint l.containerId) hs hm'mem ?_ ?_
              · simpa using hcond
              · simpa using hm'p
            rw [if_pos (by simpa using hcond), if_pos (by rw [Option.some_inj, hsm])]
          · rw [if_neg (by simpa using hcond), if_neg (by
              rw [Option.some_inj]
              intro hc
              have hsm : s = m' := by
                refine mem_of_countP_le_one
                  (p := fun s => s.externalId = m'.externalId)
                  (countP_le_one_of_nodup_map hext m'.externalId) hs hm'mem ?_ ?_
                · simpa using hc.symm
                · simp
              exact hcond (by rw [hsm, hm'p]))]
        · have ht : labelTargetExt shapes₀ l = none := by
            rw [labelTargetExt, if_neg h1, if_neg h2, if_neg h3, if_neg h4]
          have ha : labelAbsorbable shapes₀ l = false := by
            have h3f := eq_false_of_ne_true h3
            have h4f := eq_false_of_ne_true h4
            simp [labelAbsorbable, h3f, h4f]
          rw [ht, ha]
          simp only [applyLabel]
          rw [if_neg h1, if_neg h2, hPe, if_neg h3, hPi, if_neg h4]
          simp only [Prod.mk.injEq]
          refine ⟨?_, trivial⟩
          apply List.map_congr_left
          intro s _
          simp only [textUpd]
          rw [if_neg (by simp)]

lemma consolidate_fold (shapes₀ : List Element)
    (hext : (shapes₀.map (·.externalId)).Nodup)
    (hint : (shapes₀.map (·.id)).Nodup) :
    ∀ (ls : List Element) (g : Element → String) (acc : List String),
    ls.foldl (fun (acc : List Element × List String) label =>
        let r := applyLabel acc.1 label
        (r.1, if r.2 then acc.2 ++ [labelKey label] else acc.2))
      (shapes₀.map (textUpd g), acc) =
    (shapes₀.map (textUpd (fun s =>
        (ls.filter (fun l => labelTargetExt shapes₀ l = some s.externalId)).foldl
          (fun t l => mergeText t l.text.trim) (g s))),
     acc ++ (ls.filter (fun l => labelAbsorbable shapes₀ l)).map labelKey) := by
  intro ls
  induction ls with
  | nil =>
    intro g acc
    simp
  | cons l ls ih =>
    intro g acc
    rw [List.foldl_cons]
    show ls.foldl _ ((applyLabel (shapes₀.map (textUpd g)) l).1,
      if (applyLabel (shapes₀.map (textUpd g)) l).2
      then acc ++ [labelKey l] else acc) = _
    rw [applyLabel_map shapes₀ g l hext hint]
    rw [ih (fun s =>
      if labelTargetExt shapes₀ l = some s.externalId
      then mergeText (g s) l.text.trim else g s)
      (if labelAbsorbable shapes₀ l then acc ++ [labelKey l] else acc)]
    simp only [Prod.mk.injEq]
    constructor
    · apply List.map_congr_left
      intro s _
      simp only [textUpd, List.filter_cons]
      by_cases hcond : labelTargetExt shapes₀ l = some s.externalId
      · simp [hcond]
      · simp [hcond]
    · simp only [List.filter_cons]
      by_cases habs : labelAbsorbable shapes₀ l
      · simp [habs]
      · simp [habs]

lemma textUpd_self (s : Element) : textUpd (fun s => s.text) s = s := rfl

/-- C9 (amended): in `consolidateLabelsIntoShapes`, a containing shape is
located ONLY by the label's explicit container reference (matched against
shape external ids, then internal ids); the label's text is merged into that
shape's text via `mergeText` (in label order), and the label is dropped from
the working element set exactly when it was absorbed this way.  No
bounding-box-center containment test is performed. -/
theorem C9_consolidate_labels_by_container_reference_only (els : List Element)
    (hne : ∀ e ∈ els, e.externalId ≠ "")
    (hext : (els.map (·.externalId)).Nodup)
    (hint : (els.map (·.id)).Nodup) :
    consolidateLabelsIntoShapes els =
      (shapesOf els).map (textUpd (fun s =>
        ((labelsOf els).filter
            (fun l => labelTargetExt (shapesOf els) l = some s.externalId)).foldl
          (fun t l => mergeText t l.text.trim) s.text))
      ++ (labelsOf els).filter (fun l => ¬ labelAbsorbable (shapesOf els) l) := by
  have hexts : ((shapesOf els).map (·.externalId)).Nodup :=
    List.Nodup.sublist ((List.filter_sublist els).map _) hext
  have hints : ((shapesOf els).map (·.id)).Nodup :=
    List.Nodup.sublist ((List.filter_sublist els).map _) hint
  have hextl : ((labelsOf els).map (·.externalId)).Nodup :=
    List.Nodup.sublist ((List.filter_sublist els).map _) hext
  simp only [consolidateLabelsIntoShapes]
  have hshapes : els.filter (fun e => ¬ normalizeKind e = "text")
      = (shapesOf els).map (textUpd (fun s => s.text)) := by
    rw [show textUpd (fun s => s.text) = id from funext textUpd_self, List.map_id]
    rfl
  rw [hshapes, consolidate_fold (shapesOf els) hexts hints _ (fun s => s.text) []]
  rw [List.nil_append]
  congr 1
  apply List.filter_congr
  intro l hl
  have hl' : l ∈ labelsOf els := hl
  have hiff : ((((labelsOf els).filter
        (fun x => labelAbsorbable (shapesOf els) x)).map labelKey).contains (labelKey l)
        = true)
      ↔ labelAbsorbable (shapesOf els) l = true := by
    constructor
    · intro h
      have hmem : labelKey l ∈
          ((labelsOf els).filter (fun x => labelAbsorbable (shapesOf els) x)).map labelKey := by
        simpa using h
      obtain ⟨l2, hl2f, hkeq⟩ := List.mem_map.mp hmem
      obtain ⟨hl2mem, hl2abs⟩ := List.mem_filter.mp hl2f
      have hkl : labelKey l = l.externalId := by
        unfold labelKey jsOr
        rw [if_neg (hne l (List.mem_of_mem_filter hl))]
      have hkl2 : labelKey l2 = l2.externalId := by
        unfold labelKey jsOr
        rw [if_neg (hne l2 (List.mem_of_mem_filter hl2mem))]
      have hsame : l2 = l := by
        refine mem_of_countP_le_one
          (p := fun e => e.externalId = l.externalId)
          (countP_le_one_of_nodup_map hextl l.externalId) hl2mem hl' ?_ ?_
        · simp only [decide_eq_true_eq]
          rw [← hkl2, hkeq, hkl]
        · simp
      rw [hsame] at hl2abs
      simpa using hl2abs
    · intro h
      have hmem : labelKey l ∈
          ((labelsOf els).filter (fun x => labelAbsorbable (shapesOf els) x)).map labelKey :=
        List.mem_map_of_mem _ (List.mem_filter.mpr ⟨hl', by simpa using h⟩)
      simpa using hmem
  show (decide ¬((((labelsOf els).filter
        (fun l => labelAbsorbable (shapesOf els) l)).map labelKey).contains (labelKey l)
        = true))
      = decide ¬(labelAbsorbable (shapesOf els) l = true)
  simp only [hiff]

/-- C9 counterexample: the claim as stated requires a label whose
bounding-box center falls inside a shape's bounding box to be merged into
that shape and dropped; the code does no geometric test, so a centred label
with no explicit container reference is left untouched (shape text unmerged,
label retained). -/
theorem C9_counterexample_center_containment_ignored :
    -- the label's center (50, 45) lies inside the shape's bounding box
    -- [0,100] × [0,100], the label has text and no container reference …
    (let s : Element := { externalId := "s1", id := "i1", kind := "rectangle",
                          x := 0, y := 0, w := 100, h := 100, text := "Box" }
     let l : Element := { externalId := "t1", id := "i2", kind := "text",
                          x := 40, y := 40, w := 20, h := 10, text := "Hello" }
     s.x ≤ l.x + l.w / 2 ∧ l.x + l.w / 2 ≤ s.x + s.w ∧
     s.y ≤ l.y + l.h / 2 ∧ l.y + l.h / 2 ≤ s.y + s.h ∧
     l.text ≠ "" ∧ l.containerId = "" ∧
     -- … yet the normalizer keeps both elements unchanged: the label is not
     -- dropped and the shape's text is not merged.
     consolidateLabelsIntoShapes [s, l] = [s, l]) := by
  refine ⟨?_, ?_, ?_, ?_, ?_, rfl, ?_⟩
  · with_unfolding_all decide
  · with_unfolding_all decide
  · with_unfolding_all decide
  · with_unfolding_all decide
  · with_unfolding_all decide
  · with_unfolding_all rfl

/-- Concrete board for the C9 witness: one shape, one label naming it as
container, one free-standing label. -/
def w9els : List Element :=
  [ { externalId := "s1", id := "i1", kind := "rectangle", text := "Box" },
    { externalId := "t1", id := "i2", kind := "text", text := "Lbl",
      containerId := "s1" },
    { externalId := "t2", id := "i3", kind := "text", text := "Free" } ]

/-- Witness for C9 (amended) at a concrete input. -/
theorem C9_witness :
    consolidateLabelsIntoShapes w9els =
      (shapesOf w9els).map (textUpd (fun s =>
        ((labelsOf w9els).filter
            (fun l => labelTargetExt (shapesOf w9els) l = some s.externalId)).foldl
          (fun t l => mergeText t l.text.trim) s.text))
      ++ (labelsOf w9els).filter (fun l => ¬ labelAbsorbable (shapesOf w9els) l) :=
  C9_consolidate_labels_by_container_reference_only w9els
    (by decide) (by decide) (by decide)

/-! ## Relational clustering (POST /api/clusters, health.js 409–578) -/

/-- Adjacency as the JS `Map<string, Set<string>>`: insertion-ordered
association list with unique keys and duplicate-free neighbor lists. -/
abbrev Adj := List (String × List String)

/-- `adjSet.get(k)` (missing key behaves as the empty set for traversal via
`adjSet.get(nodeId) || new Set()`). -/
def adjLookup (adj : Adj) (k : String) : List String :=
  match adj.find? (fun p => p.1 = k) with
  | some p => p.2
  | none => []

/-- `if (!adjSet.has(a)) adjSet.set(a, new Set()); adjSet.get(a).add(b)`. -/
def adjInsert (adj : Adj) (a b : String) : Adj :=
  if adj.any (fun p => p.1 = a) then
    adj.map (fun p => if p.1 = a then (p.1, if p.2.contains b then p.2 else p.2 ++ [b]) else p)
  else adj ++ [(a, [b])]

/-- `intToExt`: JS `Map` from internal id to external id over `allElements`. -/
def intToExtFind (allEls : List Element) (raw : String) : Option String :=
  jsMapFind (allEls.map (fun e => (jsOr e.id "", jsOr e.externalId ""))) raw

/-- `normalizeToExt`: resolve a raw binding id to an external id — itself if
it already names a merged element, else through the internal-id map, else
the empty string. -/
def normalizeToExt (merged allEls : List Element) (raw : String) : String :=
  if raw = "" then ""
  else if merged.any (fun el => el.externalId = raw) then raw
  else match intToExtFind allEls raw with
       | some ext => ext
       | none => ""

/-- `arrowMap`: connectors with both endpoints bound, dropping later
duplicates of the same `externalId || id` key (first insertion wins). -/
def arrowsOf (els : List Element) : List Element :=
  els.foldl (fun acc el =>
    if isConnector el ∧ ¬ el.startBindingId = "" ∧ ¬ el.endBindingId = "" ∧
       ¬ acc.any (fun a => jsOr a.externalId a.id = jsOr el.externalId el.id)
    then acc ++ [el] else acc) []

/-- Adjacency construction: for each arrow whose resolved endpoints both
exist among the merged elements and are distinct, connect them both ways. -/
def buildAdj (allEls merged : List Element) : Adj :=
  (arrowsOf allEls).foldl (fun adj conn =>
    let a := normalizeToExt merged allEls conn.startBindingId
    let b := normalizeToExt merged allEls conn.endBindingId
    if merged.any (fun el => el.externalId = a) ∧
       merged.any (fun el => el.externalId = b) ∧ ¬ a = b
    then adjInsert (adjInsert adj a b) b a
    else adj) []

/-- JS `Set` built by inserting the listed values in order. -/
def jsSetList (l : List String) : List String :=
  l.foldl (fun acc x => if acc.contains x then acc else acc ++ [x]) []

/-- `seedNodes`: every adjacency key and every listed neighbor. -/
def seedsOf (adj : Adj) : List String :=
  jsSetList (adj.flatMap (fun p => p.1 :: p.2))

/-- `elementsByExternalId.get` over the merged elements. -/
def byExtId (merged : List Element) (k : String) : Option Element :=
  jsMapFind (merged.map (fun el => (el.externalId, el))) k

/-- The member filter of the relational traversal: `nodeEl.kind !== "arrow"
&& nodeEl.kind !== "line"` (exact string comparison, no lower-casing). -/
def keepKind (e : Element) : Prop := ¬ e.kind = "arrow" ∧ ¬ e.kind = "line"

instance : DecidablePred keepKind := fun e => by unfold keepKind; infer_instance

/-- The `while (stack.length > 0)` traversal loop (health.js 537–560),
with explicit fuel.  The stack's head is the array's end (`pop`/`push`).
Returns (remaining stack, visited, component). -/
def relLoop (adj : Adj) (byId : String → Option Element) :
    Nat → List String → List String → List Element →
    List String × List String × List Element
  | 0, stack, vis, comp => (stack, vis, comp)
  | _ + 1, [], vis, comp => ([], vis, comp)
  | fuel + 1, nodeId :: rest, vis, comp =>
    if vis.contains nodeId then relLoop adj byId fuel rest vis comp
    else
      relLoop adj byId fuel
        (((adjLookup adj nodeId).filter
            (fun nb => ¬ (vis ++ [nodeId]).contains nb)).reverse ++ rest)
        (vis ++ [nodeId])
        (match byId nodeId with
         | some el => if keepKind el then comp ++ [el] else comp
         | none => comp)

/-- Fuel that provably outlasts the loop: every iteration pops one entry and
pushes at most `maxNbrs` entries, and pushes happen only on fresh visits. -/
def maxNbrs (adj : Adj) : Nat := (adj.map (fun p => p.2.length)).foldr max 0

def relFuel (adj : Adj) : Nat := 1 + (seedsOf adj).length * (maxNbrs adj + 1)

/-- One iteration of the outer seed loop: traverse from `elementId` if it is
unvisited and names a non-connector element; keep components of size ≥ 2. -/
def relOuterStep (adj : Adj) (byId : String → Option Element)
    (acc : List String × List (List Element)) (elementId : String) :
    List String × List (List Element) :=
  match byId elementId with
  | some startEl =>
    if ¬ acc.1.contains elementId ∧ keepKind startEl then
      (((relLoop adj byId (relFuel adj) [elementId] acc.1 []).2.1),
       if (relLoop adj byId (relFuel adj) [elementId] acc.1 []).2.2.length > 1
       then acc.2 ++ [(relLoop adj byId (relFuel adj) [elementId] acc.1 []).2.2]
       else acc.2)
    else acc
  | none => acc

/-- The outer seed loop (health.js 523–577): traverse from each unvisited
non-connector seed; components with two or more members become clusters. -/
def relationalClustersCalc (els : List Element) : List (List Element) :=
  let merged := consolidateLabelsIntoShapes els
  let adj := buildAdj els merged
  let byId := byExtId merged
  ((seedsOf adj).foldl (relOuterStep adj byId) ([], [])).2

/-! ### The C1 specification side: the connector-induced undirected graph -/

/-- The undirected edge relation of the claim: two ids are adjacent exactly
when some deduplicated connector with both endpoints bound resolves to them
as two valid, distinct, existing endpoints. -/
def relEdge (els : List Element) (x y : String) : Prop :=
  ∃ c ∈ arrowsOf els,
    (let merged := consolidateLabelsIntoShapes els
     let a := normalizeToExt merged els c.startBindingId
     let b := normalizeToExt merged els c.endBindingId
     merged.any (fun el => el.externalId = a) ∧
     merged.any (fun el => el.externalId = b) ∧ ¬ a = b ∧
     ((x = a ∧ y = b) ∨ (x = b ∧ y = a)))

/-- Nodes of the connector graph: ids incident to at least one edge. -/
def relGraphNode (els : List Element) (v : String) : Prop :=
  ∃ y, relEdge els v y

/-- Connectivity in the connector graph. -/
def relReach (els : List Element) (x y : String) : Prop :=
  Relation.ReflTransGen (relEdge els) x y

/-- The connected component of `v`, restricted to ids of existing
non-connector elements. -/
def relComponentNC (els : List Element) (v : String) : Set String :=
  {w | relReach els v w ∧
       ∃ e, byExtId (consolidateLabelsIntoShapes els) w = some e ∧ keepKind e}

/-! ### Adjacency-construction lemmas -/

lemma adjLookup_eq_of_find?_some {adj : Adj} {k : String} {p : String × List String}
    (h : adj.find? (fun q => q.1 = k) = some p) : adjLookup adj k = p.2 := by
  unfold adjLookup
  rw [h]

lemma adjLookup_eq_of_find?_none {adj : Adj} {k : String}
    (h : adj.find? (fun q => q.1 = k) = none) : adjLookup adj k = [] := by
  unfold adjLookup
  rw [h]

lemma adjLookup_adjInsert (adj : Adj) (a b x y : String) :
    y ∈ adjLookup (adjInsert adj a b) x ↔ (x = a ∧ y = b) ∨ y ∈ adjLookup adj x := by
  unfold adjInsert
  by_cases hk : adj.any (fun p => p.1 = a)
  · rw [if_pos hk]
    have hfm : (adj.map (fun p =>
        if p.1 = a then (p.1, if p.2.contains b then p.2 else p.2 ++ [b]) else p)).find?
          (fun p => p.1 = x)
        = (adj.find? (fun p => p.1 = x)).map (fun p =>
            if p.1 = a then (p.1, if p.2.contains b then p.2 else p.2 ++ [b]) else p) := by
      rw [List.find?_map]
      rw [show ((fun (p : String × List String) => decide (p.1 = x)) ∘ (fun p =>
          if p.1 = a then (p.1, if p.2.contains b then p.2 else p.2 ++ [b]) else p))
          = (fun (p : String × List String) => decide (p.1 = x)) from funext fun p => by
        by_cases hpa : p.1 = a <;> simp [Function.comp, hpa]]
    cases hfo : adj.find? (fun p => p.1 = x) with
    | none =>
      rw [adjLookup_eq_of_find?_none hfo,
          adjLookup_eq_of_find?_none (by rw [hfm, hfo]; rfl)]
      constructor
      · intro h
        exact absurd h (by simp)
      · rintro (⟨rfl, rfl⟩ | hy)
        · obtain ⟨p, hp, hpa⟩ := List.any_eq_true.mp hk
          have := List.find?_eq_none.mp hfo p hp
          simp only [decide_eq_true_eq] at this hpa
          exact absurd hpa this
        · exact absurd hy (by simp)
    | some p =>
      have hpx : p.1 = x := by simpa using List.find?_some hfo
      rw [adjLookup_eq_of_find?_some hfo,
          adjLookup_eq_of_find?_some (p := if p.1 = a then
            (p.1, if p.2.contains b then p.2 else p.2 ++ [b]) else p)
            (by rw [hfm, hfo]; rfl)]
      by_cases hpa : p.1 = a
      · rw [if_pos hpa]
        by_cases hcb : p.2.contains b
        · simp only [if_pos hcb]
          constructor
          · intro h
            exact Or.inr h
          · rintro (⟨rfl, rfl⟩ | hy)
            · simpa using hcb
            · exact hy
        · simp only [if_neg hcb, List.mem_append, List.mem_singleton]
          constructor
          · rintro (hy | rfl)
            · exact Or.inr hy
            · exact Or.inl ⟨by rw [← hpx, hpa], rfl⟩
          · rintro (⟨rfl, rfl⟩ | hy)
            · exact Or.inr rfl
            · exact Or.inl hy
      · rw [if_neg hpa]
        constructor
        · exact fun h => Or.inr h
        · rintro (⟨rfl, rfl⟩ | hy)
          · exact absurd hpx hpa
          · exact hy
  · rw [if_neg hk]
    cases hfo : adj.find? (fun p => p.1 = x) with
    | none =>
      have happ : (adj ++ [(a, [b])]).find? (fun p => p.1 = x)
          = [(a, [b])].find? (fun p => p.1 = x) := by
        rw [List.find?_append, hfo]
        rfl
      by_cases hxa : x = a
      · subst hxa
        have : ([((x : String), [b])].find? (fun p => p.1 = x)) = some (x, [b]) := by
          simp [List.find?_cons]
        rw [adjLookup_eq_of_find?_some (by rw [happ, this]),
            adjLookup_eq_of_find?_none hfo]
        simp
      · have : ([((a : String), [b])].find? (fun p => p.1 = x)) = none := by
          simp [List.find?_cons, Ne.symm hxa]
        rw [adjLookup_eq_of_find?_none (by rw [happ, this]),
            adjLookup_eq_of_find?_none hfo]
        simp [hxa]
    | some p =>
      have hpx : p.1 = x := by simpa using List.find?_some hfo
      have hpmem : p ∈ adj := List.mem_of_find?_eq_some hfo
      have happ : (adj ++ [(a, [b])]).find? (fun p => p.1 = x) = some p := by
        rw [List.find?_append, hfo]
        rfl
      rw [adjLookup_eq_of_find?_some happ, adjLookup_eq_of_find?_some hfo]
      constructor
      · exact fun h => Or.inr h
      · rintro (⟨rfl, rfl⟩ | hy)
        · exfalso
          apply (by simpa using hk : ¬ ∃ q ∈ adj, q.1 = x)
          exact ⟨p, hpmem, hpx⟩
        · exact hy

lemma adjLookup_nil (x : String) : adjLookup ([] : Adj) x = [] := rfl

/-- Central adjacency-correctness lemma: the built adjacency relates two ids
exactly when some qualifying connector induces the (undirected) edge. -/
lemma mem_buildAdj_iff (els : List Element) (x y : String) :
    y ∈ adjLookup (buildAdj els (consolidateLabelsIntoShapes els)) x ↔ relEdge els x y := by
  unfold buildAdj relEdge
  generalize consolidateLabelsIntoShapes els = merged
  have main : ∀ (cs : List Element) (A : Adj),
      (y ∈ adjLookup (cs.foldl (fun adj conn =>
        let a := normalizeToExt merged els conn.startBindingId
        let b := normalizeToExt merged els conn.endBindingId
        if merged.any (fun el => el.externalId = a) ∧
           merged.any (fun el => el.externalId = b) ∧ ¬ a = b
        then adjInsert (adjInsert adj a b) b a
        else adj) A) x) ↔
      (y ∈ adjLookup A x ∨ ∃ c ∈ cs,
        (let a := normalizeToExt merged els c.startBindingId
         let b := normalizeToExt merged els c.endBindingId
         merged.any (fun el => el.externalId = a) ∧
         merged.any (fun el => el.externalId = b) ∧ ¬ a = b ∧
         ((x = a ∧ y = b) ∨ (x = b ∧ y = a)))) := by
    intro cs
    induction cs with
    | nil => simp
    | cons c cs ih =>
      intro A
      rw [List.foldl_cons]
      by_cases hc : merged.any (fun el => el.externalId = normalizeToExt merged els c.startBindingId) ∧
          merged.any (fun el => el.externalId = normalizeToExt merged els c.endBindingId) ∧
          ¬ normalizeToExt merged els c.startBindingId = normalizeToExt merged els c.endBindingId
      · rw [show (if merged.any (fun el => el.externalId = normalizeToExt merged els c.startBindingId) ∧
            merged.any (fun el => el.externalId = normalizeToExt merged els c.endBindingId) ∧
            ¬ normalizeToExt merged els c.startBindingId = normalizeToExt merged els c.endBindingId
          then adjInsert (adjInsert A (normalizeToExt merged els c.startBindingId)
            (normalizeToExt merged els c.endBindingId))
            (normalizeToExt merged els c.endBindingId)
            (normalizeToExt merged els c.startBindingId)
          else A)
          = adjInsert (adjInsert A (normalizeToExt merged els c.startBindingId)
            (normalizeToExt merged els c.endBindingId))
            (normalizeToExt merged els c.endBindingId)
            (normalizeToExt merged els c.startBindingId) from if_pos hc]
        rw [ih]
        rw [adjLookup_adjInsert, adjLookup_adjInsert]
        constructor
        · rintro ((⟨rfl, rfl⟩ | (⟨rfl, rfl⟩ | hy)) | ⟨c', hc', hrest⟩)
          · exact Or.inr ⟨c, List.mem_cons_self c cs, ⟨hc.1, hc.2.1, hc.2.2, Or.inr ⟨rfl, rfl⟩⟩⟩
          · exact Or.inr ⟨c, List.mem_cons_self c cs, ⟨hc.1, hc.2.1, hc.2.2, Or.inl ⟨rfl, rfl⟩⟩⟩
          · exact Or.inl hy
          · exact Or.inr ⟨c', List.mem_cons_of_mem c hc', hrest⟩
        · rintro (hy | ⟨c', hc', hrest⟩)
          · exact Or.inl (Or.inr (Or.inr hy))
          · rcases List.mem_cons.mp hc' with rfl | hc'tail
            · rcases hrest.2.2.2 with ⟨rfl, rfl⟩ | ⟨rfl, rfl⟩
              · exact Or.inl (Or.inr (Or.inl ⟨rfl, rfl⟩))
              · exact Or.inl (Or.inl ⟨rfl, rfl⟩)
            · exact Or.inr ⟨c', hc'tail, hrest⟩
      · rw [show (if merged.any (fun el => el.externalId = normalizeToExt merged els c.startBindingId) ∧
            merged.any (fun el => el.externalId = normalizeToExt merged els c.endBindingId) ∧
            ¬ normalizeToExt merged els c.startBindingId = normalizeToExt merged els c.endBindingId
          then adjInsert (adjInsert A (normalizeToExt merged els c.startBindingId)
            (normalizeToExt merged els c.endBindingId))
            (normalizeToExt merged els c.endBindingId)
            (normalizeToExt merged els c.startBindingId)
          else A) = A from if_neg hc]
        rw [ih]
        constructor
        · rintro (hy | ⟨c', hc', hrest⟩)
          · exact Or.inl hy
          · exact Or.inr ⟨c', List.mem_cons_of_mem c hc', hrest⟩
        · rintro (hy | ⟨c', hc', hrest⟩)
          · exact Or.inl hy
          · rcases List.mem_cons.mp hc' with rfl | hc'tail
            · exact absurd ⟨hrest.1, hrest.2.1, hrest.2.2.1⟩ hc
            · exact Or.inr ⟨c', hc'tail, hrest⟩
  rw [main (arrowsOf els) []]
  simp [adjLookup_nil]

/-! ### Worklist correctness of `relLoop` -/

/-- One traversal step in the adjacency. -/
def adjRel (adj : Adj) (x y : String) : Prop := y ∈ adjLookup adj x

/-- Reachability in the adjacency. -/
def adjReach (adj : Adj) (x y : String) : Prop :=
  Relation.ReflTransGen (adjRel adj) x y

lemma relLoop_zero (adj : Adj) (byId : String → Option Element)
    (stack vis : List String) (comp : List Element) :
    relLoop adj byId 0 stack vis comp = (stack, vis, comp) := rfl

lemma relLoop_nil (adj : Adj) (byId : String → Option Element)
    (n : Nat) (vis : List String) (comp : List Element) :
    relLoop adj byId (n + 1) [] vis comp = ([], vis, comp) := rfl

lemma relLoop_visited (adj : Adj) (byId : String → Option Element)
    {n : Nat} {node : String} {rest vis : List String} {comp : List Element}
    (h : vis.contains node) :
    relLoop adj byId (n + 1) (node :: rest) vis comp
      = relLoop adj byId n rest vis comp := by
  rw [relLoop, if_pos h]

lemma relLoop_fresh (adj : Adj) (byId : String → Option Element)
    {n : Nat} {node : String} {rest vis : List String} {comp : List Element}
    (h : ¬ vis.contains node) :
    relLoop adj byId (n + 1) (node :: rest) vis comp
      = relLoop adj byId n
          (((adjLookup adj node).filter
              (fun nb => ¬ (vis ++ [node]).contains nb)).reverse ++ rest)
          (vis ++ [node])
          (match byId node with
           | some el => if keepKind el then comp ++ [el] else comp
           | none => comp) := by
  rw [relLoop, if_neg h]

lemma relLoop_vis_mono (adj : Adj) (byId : String → Option Element) :
    ∀ (fuel : Nat) (stack vis : List String) (comp : List Element),
    ∀ x ∈ vis, x ∈ (relLoop adj byId fuel stack vis comp).2.1 := by
  intro fuel
  induction fuel with
  | zero => intro stack vis comp x hx; simpa [relLoop_zero] using hx
  | succ n ih =>
    intro stack vis comp x hx
    match stack with
    | [] => simpa [relLoop_nil] using hx
    | node :: rest =>
      by_cases hv : vis.contains node
      · rw [relLoop_visited adj byId hv]
        exact ih rest vis comp x hx
      · rw [relLoop_fresh adj byId hv]
        exact ih _ _ _ x (by simp [hx])

lemma relLoop_stack_residual (adj : Adj) (byId : String → Option Element) :
    ∀ (fuel : Nat) (stack vis : List String) (comp : List Element),
    ∀ s ∈ stack,
      s ∈ (relLoop adj byId fuel stack vis comp).2.1 ∨
      s ∈ (relLoop adj byId fuel stack vis comp).1 := by
  intro fuel
  induction fuel with
  | zero => intro stack vis comp s hs; right; simpa [relLoop_zero] using hs
  | succ n ih =>
    intro stack vis comp s hs
    match stack with
    | [] => cases hs
    | node :: rest =>
      by_cases hv : vis.contains node
      · rw [relLoop_visited adj byId hv]
        rcases List.mem_cons.mp hs with rfl | hrest
        · exact Or.inl (relLoop_vis_mono adj byId n rest vis comp s (by simpa using hv))
        · exact ih rest vis comp s hrest
      · rw [relLoop_fresh adj byId hv]
        rcases List.mem_cons.mp hs with rfl | hrest
        · exact Or.inl (relLoop_vis_mono adj byId n _ _ _ s (by simp))
        · exact ih _ _ _ s (by simp [hrest])

lemma relLoop_vis_sound (adj : Adj) (byId : String → Option Element) :
    ∀ (fuel : Nat) (stack vis : List String) (comp : List Element),
    ∀ x ∈ (relLoop adj byId fuel stack vis comp).2.1,
      x ∈ vis ∨ ∃ s ∈ stack, adjReach adj s x := by
  intro fuel
  induction fuel with
  | zero => intro stack vis comp x hx; left; simpa [relLoop_zero] using hx
  | succ n ih =>
    intro stack vis comp x hx
    match stack with
    | [] => left; simpa [relLoop_nil] using hx
    | node :: rest =>
      by_cases hv : vis.contains node
      · rw [relLoop_visited adj byId hv] at hx
        rcases ih rest vis comp x hx with h | ⟨s, hsmem, hreach⟩
        · exact Or.inl h
        · exact Or.inr ⟨s, List.mem_cons_of_mem node hsmem, hreach⟩
      · rw [relLoop_fresh adj byId hv] at hx
        rcases ih _ _ _ x hx with h | ⟨s, hsmem, hreach⟩
        · rcases List.mem_append.mp h with h' | h'
          · exact Or.inl h'
          · refine Or.inr ⟨node, List.mem_cons_self node rest, ?_⟩
            rw [show x = node from by simpa using h']
            exact Relation.ReflTransGen.refl
        · rcases List.mem_append.mp hsmem with h' | h'
          · have hadj : adjRel adj node s := by
              have := List.mem_reverse.mp h'
              exact List.mem_of_mem_filter this
            exact Or.inr ⟨node, List.mem_cons_self node rest,
              Relation.ReflTransGen.head hadj hreach⟩
          · exact Or.inr ⟨s, List.mem_cons_of_mem node h', hreach⟩

lemma relLoop_closure (adj : Adj) (byId : String → Option Element) :
    ∀ (fuel : Nat) (stack vis : List String) (comp : List Element),
    (∀ x ∈ vis, ∀ y, adjRel adj x y → y ∈ vis ∨ y ∈ stack) →
    (∀ x ∈ (relLoop adj byId fuel stack vis comp).2.1, ∀ y, adjRel adj x y →
      y ∈ (relLoop adj byId fuel stack vis comp).2.1 ∨
      y ∈ (relLoop adj byId fuel stack vis comp).1) := by
  intro fuel
  induction fuel with
  | zero =>
    intro stack vis comp hinv x hx y hxy
    simp only [relLoop_zero] at hx ⊢
    exact hinv x hx y hxy
  | succ n ih =>
    intro stack vis comp hinv x hx y hxy
    match stack with
    | [] =>
      simp only [relLoop_nil] at hx ⊢
      rcases hinv x hx y hxy with h | h
      · exact Or.inl h
      · cases h
    | node :: rest =>
      by_cases hv : vis.contains node
      · rw [relLoop_visited adj byId hv] at hx ⊢
        refine ih rest vis comp ?_ x hx y hxy
        intro x' hx' y' hxy'
        rcases hinv x' hx' y' hxy' with h | h
        · exact Or.inl h
        · rcases List.mem_cons.mp h with rfl | h'
          · exact Or.inl (by simpa using hv)
          · exact Or.inr h'
      · rw [relLoop_fresh adj byId hv] at hx ⊢
        refine ih _ _ _ ?_ x hx y hxy
        intro x' hx' y' hxy'
        rcases List.mem_append.mp hx' with hx'v | hx'n
        · rcases hinv x' hx'v y' hxy' with h | h
          · exact Or.inl (by simp [h])
          · rcases List.mem_cons.mp h with rfl | h'
            · exact Or.inl (by simp)
            · exact Or.inr (by simp [h'])
        · have hx'eq : x' = node := by simpa using hx'n
          subst hx'eq
          by_cases hy' : (vis ++ [x']).contains y'
          · exact Or.inl (by simpa using hy')
          · refine Or.inr ?_
            rw [List.mem_append]
            left
            rw [List.mem_reverse]
            exact List.mem_filter.mpr ⟨hxy', by simpa using hy'⟩

lemma mem_jsSetList {l : List String} {x : String} : x ∈ jsSetList l ↔ x ∈ l := by
  have aux : ∀ (l acc : List String),
      (x ∈ l.foldl (fun acc x => if acc.contains x then acc else acc ++ [x]) acc)
      ↔ x ∈ acc ∨ x ∈ l := by
    intro l
    induction l with
    | nil => intro acc; simp
    | cons a l ih =>
      intro acc
      rw [List.foldl_cons]
      by_cases ha : acc.contains a
      · rw [if_pos ha, ih]
        constructor
        · rintro (h | h)
          · exact Or.inl h
          · exact Or.inr (List.mem_cons_of_mem a h)
        · rintro (h | h)
          · exact Or.inl h
          · rcases List.mem_cons.mp h with rfl | h'
            · exact Or.inl (by simpa using ha)
            · exact Or.inr h'
      · rw [if_neg ha, ih]
        simp only [List.mem_append, List.mem_singleton, List.mem_cons]
        tauto
  unfold jsSetList
  rw [aux]
  simp

lemma mem_adjLookup_mem_seeds {adj : Adj} {x y : String}
    (h : y ∈ adjLookup adj x) : y ∈ seedsOf adj := by
  unfold adjLookup at h
  cases hfo : adj.find? (fun p => p.1 = x) with
  | none => rw [hfo] at h; cases h
  | some p =>
    rw [hfo] at h
    have hpmem : p ∈ adj := List.mem_of_find?_eq_some hfo
    unfold seedsOf
    rw [mem_jsSetList]
    exact List.mem_flatMap.mpr ⟨p, hpmem, List.mem_cons_of_mem _ h⟩

lemma adjKey_mem_seeds {adj : Adj} {p : String × List String}
    (h : p ∈ adj) : p.1 ∈ seedsOf adj := by
  unfold seedsOf
  rw [mem_jsSetList]
  exact List.mem_flatMap.mpr ⟨p, h, List.mem_cons_self _ _⟩

lemma le_foldr_max {l : List Nat} {n : Nat} (h : n ∈ l) : n ≤ l.foldr max 0 := by
  induction l with
  | nil => cases h
  | cons a l ih =>
    rcases List.mem_cons.mp h with rfl | h'
    · exact le_max_left _ _
    · exact le_trans (ih h') (le_max_right _ _)

lemma adjLookup_length_le (adj : Adj) (x : String) :
    (adjLookup adj x).length ≤ maxNbrs adj := by
  unfold adjLookup
  cases hfo : adj.find? (fun p => p.1 = x) with
  | none => simp
  | some p =>
    have hpmem : p ∈ adj := List.mem_of_find?_eq_some hfo
    exact le_foldr_max (List.mem_map_of_mem (fun p => p.2.length) hpmem)

lemma relLoop_terminates (adj : Adj) (byId : String → Option Element) :
    ∀ (fuel : Nat) (stack vis : List String) (comp : List Element),
    (∀ s ∈ stack, s ∈ seedsOf adj) →
    stack.length + ((seedsOf adj).toFinset \ vis.toFinset).card * (maxNbrs adj + 1) ≤ fuel →
    (relLoop adj byId fuel stack vis comp).1 = [] := by
  intro fuel
  induction fuel with
  | zero =>
    intro stack vis comp _ hb
    have : stack.length = 0 := by omega
    rw [List.length_eq_zero] at this
    subst this
    rfl
  | succ n ih =>
    intro stack vis comp hU hb
    match stack with
    | [] => rw [relLoop_nil]
    | node :: rest =>
      by_cases hv : vis.contains node
      · rw [relLoop_visited adj byId hv]
        refine ih rest vis comp (fun s hs => hU s (List.mem_cons_of_mem node hs)) ?_
        simp only [List.length_cons] at hb
        omega
      · rw [relLoop_fresh adj byId hv]
        have hnode_seed : node ∈ seedsOf adj := hU node (List.mem_cons_self node rest)
        have hnode_notvis : node ∉ vis := by simpa using hv
        have hsd : (seedsOf adj).toFinset \ (vis ++ [node]).toFinset
            = ((seedsOf adj).toFinset \ vis.toFinset).erase node := by
          ext z
          simp only [Finset.mem_sdiff, List.mem_toFinset, List.mem_append,
            List.mem_singleton, Finset.mem_erase]
          tauto
        have hmemsd : node ∈ (seedsOf adj).toFinset \ vis.toFinset := by
          simp only [Finset.mem_sdiff, List.mem_toFinset]
          exact ⟨hnode_seed, hnode_notvis⟩
        have hcard : ((seedsOf adj).toFinset \ (vis ++ [node]).toFinset).card
            = ((seedsOf adj).toFinset \ vis.toFinset).card - 1 := by
          rw [hsd, Finset.card_erase_of_mem hmemsd]
        have hcard_pos : 1 ≤ ((seedsOf adj).toFinset \ vis.toFinset).card :=
          Finset.card_pos.mpr ⟨node, hmemsd⟩
        have hpush : (((adjLookup adj node).filter
            (fun nb => ¬ (vis ++ [node]).contains nb)).reverse).length ≤ maxNbrs adj := by
          rw [List.length_reverse]
          exact le_trans (List.length_filter_le _ _) (adjLookup_length_le adj node)
        refine ih _ _ _ ?_ ?_
        · intro s hs
          rcases List.mem_append.mp hs with h' | h'
          · exact mem_adjLookup_mem_seeds (List.mem_of_mem_filter (List.mem_reverse.mp h'))
          · exact hU s (List.mem_cons_of_mem node h')
        · rw [List.length_append, hcard]
          simp only [List.length_cons] at hb
          have hM : (((seedsOf adj).toFinset \ vis.toFinset).card - 1) * (maxNbrs adj + 1)
              + (maxNbrs adj + 1)
              = ((seedsOf adj).toFinset \ vis.toFinset).card * (maxNbrs adj + 1) := by
            have h2 : ((seedsOf adj).toFinset \ vis.toFinset).card - 1 + 1
                = ((seedsOf adj).toFinset \ vis.toFinset).card := by omega
            calc (((seedsOf adj).toFinset \ vis.toFinset).card - 1) * (maxNbrs adj + 1)
                  + (maxNbrs adj + 1)
                = ((((seedsOf adj).toFinset \ vis.toFinset).card - 1) + 1)
                  * (maxNbrs adj + 1) := by ring
              _ = _ := by rw [h2]
          omega

lemma relLoop_comp_spec (adj : Adj) (byId : String → Option Element)
    (hbyId : ∀ x e, byId x = some e → e.externalId = x) :
    ∀ (fuel : Nat) (stack vis : List String) (comp : List Element),
    (∀ e ∈ comp, e.externalId ∈ vis ∧ byId e.externalId = some e ∧ keepKind e) →
    (comp.map (·.externalId)).Nodup → vis.Nodup →
    ((∀ e ∈ (relLoop adj byId fuel stack vis comp).2.2,
        e.externalId ∈ (relLoop adj byId fuel stack vis comp).2.1 ∧
        byId e.externalId = some e ∧ keepKind e) ∧
     ((relLoop adj byId fuel stack vis comp).2.2.map (·.externalId)).Nodup ∧
     (relLoop adj byId fuel stack vis comp).2.1.Nodup ∧
     (∀ e, e ∈ (relLoop adj byId fuel stack vis comp).2.2 ↔ e ∈ comp ∨
        (e.externalId ∈ (relLoop adj byId fuel stack vis comp).2.1 ∧
         e.externalId ∉ vis ∧ byId e.externalId = some e ∧ keepKind e))) := by
  intro fuel
  induction fuel with
  | zero =>
    intro stack vis comp hc hnc hnv
    simp only [relLoop_zero]
    refine ⟨hc, hnc, hnv, fun e => ?_⟩
    constructor
    · exact fun h => Or.inl h
    · rintro (h | ⟨_, hnot, _, _⟩)
      · exact h
      · exact absurd (by assumption) hnot
  | succ n ih =>
    intro stack vis comp hc hnc hnv
    match stack with
    | [] =>
      simp only [relLoop_nil]
      refine ⟨hc, hnc, hnv, fun e => ?_⟩
      constructor
      · exact fun h => Or.inl h
      · rintro (h | ⟨_, hnot, _, _⟩)
        · exact h
        · exact absurd (by assumption) hnot
    | node :: rest =>
      by_cases hv : vis.contains node
      · rw [relLoop_visited adj byId hv]
        exact ih rest vis comp hc hnc hnv
      · rw [relLoop_fresh adj byId hv]
        have hnode_notvis : node ∉ vis := by simpa using hv
        have hcompext : ∀ e ∈ comp, e.externalId ≠ node := by
          intro e he heq
          exact hnode_notvis (heq ▸ (hc e he).1)
        -- the new component after visiting `node`
        have main : ∀ (comp' : List Element),
            (comp' = match byId node with
              | some el => if keepKind el then comp ++ [el] else comp
              | none => comp) →
            (∀ e ∈ comp', e.externalId ∈ vis ++ [node] ∧
              byId e.externalId = some e ∧ keepKind e) ∧
            (comp'.map (·.externalId)).Nodup ∧
            (∀ e, e ∈ comp' ↔ e ∈ comp ∨
              (e.externalId = node ∧ byId e.externalId = some e ∧ keepKind e)) := by
          intro comp' hcomp'
          cases hby : byId node with
          | none =>
            rw [hby] at hcomp'
            dsimp only at hcomp'
            subst hcomp'
            refine ⟨fun e he => ⟨by simp [(hc e he).1], (hc e he).2.1, (hc e he).2.2⟩,
              hnc, fun e => ?_⟩
            constructor
            · exact fun h => Or.inl h
            · rintro (h | ⟨hext, hsome, _⟩)
              · exact h
              · rw [hext] at hsome
                rw [hby] at hsome
                cases hsome
          | some el =>
            have helext : el.externalId = node := hbyId node el hby
            rw [hby] at hcomp'
            dsimp only at hcomp'
            by_cases hkeep : keepKind el
            · rw [if_pos hkeep] at hcomp'
              subst hcomp'
              refine ⟨?_, ?_, ?_⟩
              · intro e he
                rcases List.mem_append.mp he with h | h
                · exact ⟨by simp [(hc e h).1], (hc e h).2.1, (hc e h).2.2⟩
                · have : e = el := by simpa using h
                  subst this
                  exact ⟨by simp [helext], by rw [helext]; exact hby, hkeep⟩
              · rw [List.map_append]
                simp only [List.map_cons, List.map_nil]
                rw [List.nodup_append]
                refine ⟨hnc, by simp, ?_⟩
                intro a ha hb
                have hae : a = el.externalId := by simpa using hb
                obtain ⟨e, he, hex⟩ := List.mem_map.mp ha
                exact hcompext e he (by rw [hex, hae, helext])
              · intro e
                simp only [List.mem_append, List.mem_singleton]
                constructor
                · rintro (h | rfl)
                  · exact Or.inl h
                  · exact Or.inr ⟨helext, by rw [helext]; exact hby, hkeep⟩
                · rintro (h | ⟨hext, hsome, hkp⟩)
                  · exact Or.inl h
                  · rw [hext, hby] at hsome
                    cases hsome
                    exact Or.inr rfl
            · rw [if_neg hkeep] at hcomp'
              subst hcomp'
              refine ⟨fun e he => ⟨by simp [(hc e he).1], (hc e he).2.1, (hc e he).2.2⟩,
                hnc, fun e => ?_⟩
              constructor
              · exact fun h => Or.inl h
              · rintro (h | ⟨hext, hsome, hkp⟩)
                · exact h
                · rw [hext, hby] at hsome
                  cases hsome
                  exact absurd hkp hkeep
        obtain ⟨hc', hnc', hiff'⟩ := main _ rfl
        have hnv' : (vis ++ [node]).Nodup := by
          rw [List.nodup_append]
          refine ⟨hnv, by simp, ?_⟩
          intro a ha hb
          have : a = node := by simpa using hb
          exact hnode_notvis (this ▸ ha)
        obtain ⟨rc, rn, rv, riff⟩ := ih _ _ _ hc' hnc' hnv'
        refine ⟨rc, rn, rv, fun e => ?_⟩
        rw [riff e]
        constructor
        · rintro (h | ⟨hvisr, hnotvis', hsome, hkp⟩)
          · rcases (hiff' e).mp h with h' | ⟨hext, hsome, hkp⟩
            · exact Or.inl h'
            · refine Or.inr ⟨?_, by rw [hext]; exact hnode_notvis, hsome, hkp⟩
              rw [hext]
              exact relLoop_vis_mono adj byId n _ _ _ node (by simp)
          · refine Or.inr ⟨hvisr, ?_, hsome, hkp⟩
            intro hmem
            exact hnotvis' (by simp [hmem])
        · rintro (h | ⟨hvisr, hnotvis, hsome, hkp⟩)
          · exact Or.inl ((hiff' e).mpr (Or.inl h))
          · by_cases hext : e.externalId = node
            · exact Or.inl ((hiff' e).mpr (Or.inr ⟨hext, hsome, hkp⟩))
            · refine Or.inr ⟨hvisr, ?_, hsome, hkp⟩
              simp only [List.mem_append, List.mem_singleton]
              rintro (h' | h')
              · exact hnotvis h'
              · exact hext h'

lemma reach_closed {adj : Adj} {vis : List String}
    (hclosed : ∀ x ∈ vis, ∀ y, adjRel adj x y → y ∈ vis)
    {z w : String} (hreach : adjReach adj z w) (hz : z ∈ vis) : w ∈ vis := by
  induction hreach with
  | refl => exact hz
  | tail _ hstep ih => exact hclosed _ ih _ hstep

/-- Full characterization of one traversal from a fresh seed over a
previously closed visited set. -/
lemma relTraverse_spec (adj : Adj) (byId : String → Option Element)
    (hbyId : ∀ x e, byId x = some e → e.externalId = x)
    (hsym : Symmetric (adjRel adj))
    (seed : String) (vis : List String)
    (hseed_seeds : seed ∈ seedsOf adj)
    (hclosed : ∀ x ∈ vis, ∀ y, adjRel adj x y → y ∈ vis)
    (hfresh : seed ∉ vis)
    (hnv : vis.Nodup) :
    (relLoop adj byId (relFuel adj) [seed] vis []).1 = [] ∧
    (∀ x, x ∈ (relLoop adj byId (relFuel adj) [seed] vis []).2.1 ↔
      x ∈ vis ∨ adjReach adj seed x) ∧
    (relLoop adj byId (relFuel adj) [seed] vis []).2.1.Nodup ∧
    ((relLoop adj byId (relFuel adj) [seed] vis []).2.2.map (·.externalId)).Nodup ∧
    (∀ e, e ∈ (relLoop adj byId (relFuel adj) [seed] vis []).2.2 ↔
      adjReach adj seed e.externalId ∧ byId e.externalId = some e ∧ keepKind e) := by
  have hterm : (relLoop adj byId (relFuel adj) [seed] vis []).1 = [] := by
    apply relLoop_terminates
    · intro s hs
      rw [show s = seed from by simpa using hs]
      exact hseed_seeds
    · unfold relFuel
      have h1 : ((seedsOf adj).toFinset \ vis.toFinset).card ≤ (seedsOf adj).length := by
        calc ((seedsOf adj).toFinset \ vis.toFinset).card
            ≤ (seedsOf adj).toFinset.card := Finset.card_le_card (Finset.sdiff_subset)
          _ ≤ (seedsOf adj).length := (seedsOf adj).toFinset_card_le
      simp only [List.length_cons, List.length_nil]
      have := Nat.mul_le_mul_right (maxNbrs adj + 1) h1
      omega
  have hreach_notvis : ∀ z, adjReach adj seed z → z ∉ vis := by
    intro z hreach hz
    exact hfresh (reach_closed hclosed (Relation.ReflTransGen.symmetric hsym hreach) hz)
  have hvis_iff : ∀ x, x ∈ (relLoop adj byId (relFuel adj) [seed] vis []).2.1 ↔
      x ∈ vis ∨ adjReach adj seed x := by
    intro x
    constructor
    · intro hx
      rcases relLoop_vis_sound adj byId _ _ _ _ x hx with h | ⟨s, hs, hreach⟩
      · exact Or.inl h
      · rw [show s = seed from by simpa using hs] at hreach
        exact Or.inr hreach
    · rintro (h | hreach)
      · exact relLoop_vis_mono adj byId _ _ _ _ x h
      · have hclos := relLoop_closure adj byId (relFuel adj) [seed] vis []
          (fun x' hx' y hxy => Or.inl (hclosed x' hx' y hxy))
        rw [hterm] at hclos
        have hseedvis : seed ∈ (relLoop adj byId (relFuel adj) [seed] vis []).2.1 := by
          rcases relLoop_stack_residual adj byId (relFuel adj) [seed] vis [] seed
            (List.mem_cons_self _ _) with h | h
          · exact h
          · rw [hterm] at h; cases h
        induction hreach with
        | refl => exact hseedvis
        | tail _ hstep ih =>
          rcases hclos _ ih _ hstep with h | h
          · exact h
          · cases h
  obtain ⟨rc, rn, rv, riff⟩ := relLoop_comp_spec adj byId hbyId (relFuel adj) [seed] vis []
    (by intro e he; cases he) (by simp) hnv
  refine ⟨hterm, hvis_iff, rv, rn, fun e => ?_⟩
  rw [riff e]
  constructor
  · rintro (h | ⟨hv, hnv', hsome, hkp⟩)
    · cases h
    · rcases (hvis_iff e.externalId).mp hv with h | h
      · exact absurd h hnv'
      · exact ⟨h, hsome, hkp⟩
  · rintro ⟨hreach, hsome, hkp⟩
    refine Or.inr ⟨(hvis_iff e.externalId).mpr (Or.inr hreach), hreach_notvis _ hreach,
      hsome, hkp⟩

lemma byExtId_spec {merged : List Element} {x : String} {e : Element}
    (h : byExtId merged x = some e) : e.externalId = x ∧ e ∈ merged := by
  unfold byExtId jsMapFind at h
  cases hfo : ((merged.map (fun el => (el.externalId, el))).reverse.find?
      (fun p => p.1 = x)) with
  | none => rw [hfo] at h; cases h
  | some p =>
    rw [hfo] at h
    have hp1 : p.1 = x := by simpa using List.find?_some hfo
    have hpmem : p ∈ merged.map (fun el => (el.externalId, el)) :=
      List.mem_reverse.mp (List.mem_of_find?_eq_some hfo)
    obtain ⟨el, helm, hpe⟩ := List.mem_map.mp hpmem
    have hval : e = p.2 := by simpa using h.symm
    subst hval
    rw [← hpe] at hp1 ⊢
    exact ⟨hp1, helm⟩

lemma adjInsert_keys_nodup {adj : Adj} {a b : String}
    (h : (adj.map Prod.fst).Nodup) : ((adjInsert adj a b).map Prod.fst).Nodup := by
  unfold adjInsert
  by_cases hk : adj.any (fun p => p.1 = a)
  · rw [if_pos hk, List.map_map]
    have : (Prod.fst ∘ fun (p : String × List String) =>
        if p.1 = a then (p.1, if p.2.contains b then p.2 else p.2 ++ [b]) else p)
        = Prod.fst := by
      funext p
      by_cases hpa : p.1 = a <;> simp [Function.comp, hpa]
    rw [this]
    exact h
  · rw [if_neg hk, List.map_append]
    rw [List.nodup_append]
    refine ⟨h, by simp, ?_⟩
    intro z hz hz2
    have hza : z = a := by simpa using hz2
    subst hza
    obtain ⟨p, hp, hpz⟩ := List.mem_map.mp hz
    exact (by simpa using hk : ¬ ∃ q ∈ adj, q.1 = z) ⟨p, hp, hpz⟩

lemma adjInsert_values_nonempty {adj : Adj} {a b : String}
    (h : ∀ p ∈ adj, p.2 ≠ []) : ∀ p ∈ adjInsert adj a b, p.2 ≠ [] := by
  unfold adjInsert
  by_cases hk : adj.any (fun p => p.1 = a)
  · rw [if_pos hk]
    intro p hp
    obtain ⟨q, hq, hqe⟩ := List.mem_map.mp hp
    by_cases hqa : q.1 = a
    · rw [if_pos hqa] at hqe
      subst hqe
      by_cases hcb : b ∈ q.2
      · simpa [hcb] using h q hq
      · simp [hcb]
    · rw [if_neg hqa] at hqe
      subst hqe
      exact h q hq
  · rw [if_neg hk]
    intro p hp
    rcases List.mem_append.mp hp with h' | h'
    · exact h p h'
    · rw [show p = (a, [b]) from by simpa using h']
      simp

lemma buildAdj_keys_nodup (els merged : List Element) :
    ((buildAdj els merged).map Prod.fst).Nodup := by
  unfold buildAdj
  have main : ∀ (cs : List Element) (A : Adj), ((A.map Prod.fst).Nodup) →
      (((cs.foldl (fun adj conn =>
        let a := normalizeToExt merged els conn.startBindingId
        let b := normalizeToExt merged els conn.endBindingId
        if merged.any (fun el => el.externalId = a) ∧
           merged.any (fun el => el.externalId = b) ∧ ¬ a = b
        then adjInsert (adjInsert adj a b) b a
        else adj) A).map Prod.fst).Nodup) := by
    intro cs
    induction cs with
    | nil => intro A hA; exact hA
    | cons c cs ih =>
      intro A hA
      rw [List.foldl_cons]
      apply ih
      dsimp only
      split
      · exact adjInsert_keys_nodup (adjInsert_keys_nodup hA)
      · exact hA
  exact main (arrowsOf els) [] (by simp)

lemma buildAdj_values_nonempty (els merged : List Element) :
    ∀ p ∈ buildAdj els merged, p.2 ≠ [] := by
  unfold buildAdj
  have main : ∀ (cs : List Element) (A : Adj), (∀ p ∈ A, p.2 ≠ []) →
      (∀ p ∈ (cs.foldl (fun adj conn =>
        let a := normalizeToExt merged els conn.startBindingId
        let b := normalizeToExt merged els conn.endBindingId
        if merged.any (fun el => el.externalId = a) ∧
           merged.any (fun el => el.externalId = b) ∧ ¬ a = b
        then adjInsert (adjInsert adj a b) b a
        else adj) A), p.2 ≠ []) := by
    intro cs
    induction cs with
    | nil => intro A hA; exact hA
    | cons c cs ih =>
      intro A hA
      rw [List.foldl_cons]
      apply ih
      dsimp only
      split
      · exact adjInsert_values_nonempty (adjInsert_values_nonempty hA)
      · exact hA
  exact main (arrowsOf els) [] (by simp)

lemma adjLookup_of_mem_keys_nodup {adj : Adj} {p : String × List String}
    (hnd : (adj.map Prod.fst).Nodup) (hp : p ∈ adj) : adjLookup adj p.1 = p.2 := by
  cases hfo : adj.find? (fun q => q.1 = p.1) with
  | none =>
    have := List.find?_eq_none.mp hfo p hp
    simp at this
  | some q =>
    have hq1 : q.1 = p.1 := by simpa using List.find?_some hfo
    have hqmem : q ∈ adj := List.mem_of_find?_eq_some hfo
    have hqp : q = p := List.inj_on_of_nodup_map hnd hqmem hp hq1
    rw [adjLookup_eq_of_find?_some hfo, hqp]

/-- The seed set is exactly the (symmetric) adjacency's support. -/
lemma mem_seeds_iff_adjRel {adj : Adj}
    (hnd : (adj.map Prod.fst).Nodup)
    (hne : ∀ p ∈ adj, p.2 ≠ [])
    (hsym : Symmetric (adjRel adj)) (v : String) :
    v ∈ seedsOf adj ↔ ∃ y, adjRel adj v y := by
  constructor
  · intro hv
    unfold seedsOf at hv
    rw [mem_jsSetList] at hv
    obtain ⟨p, hp, hmem⟩ := List.mem_flatMap.mp hv
    rcases List.mem_cons.mp hmem with rfl | hnb
    · obtain ⟨y, hy⟩ := List.exists_mem_of_ne_nil p.2 (hne p hp)
      refine ⟨y, ?_⟩
      unfold adjRel
      rw [adjLookup_of_mem_keys_nodup hnd hp]
      exact hy
    · refine ⟨p.1, hsym ?_⟩
      unfold adjRel
      rw [adjLookup_of_mem_keys_nodup hnd hp]
      exact hnb
  · rintro ⟨y, hy⟩
    unfold adjRel at hy
    cases hfo : adj.find? (fun q => q.1 = v) with
    | none =>
      rw [adjLookup_eq_of_find?_none hfo] at hy
      cases hy
    | some p =>
      have hp1 : p.1 = v := by simpa using List.find?_some hfo
      exact hp1 ▸ adjKey_mem_seeds (List.mem_of_find?_eq_some hfo)

lemma relEdge_symm (els : List Element) : Symmetric (relEdge els) := by
  rintro x y ⟨c, hc, h1, h2, h3, h4⟩
  exact ⟨c, hc, h1, h2, h3, h4.symm.imp (fun ⟨ha, hb⟩ => ⟨hb, ha⟩) (fun ⟨ha, hb⟩ => ⟨hb, ha⟩)⟩

lemma adjRel_buildAdj_iff (els : List Element) (x y : String) :
    adjRel (buildAdj els (consolidateLabelsIntoShapes els)) x y ↔ relEdge els x y :=
  mem_buildAdj_iff els x y

lemma adjRel_buildAdj_symm (els : List Element) :
    Symmetric (adjRel (buildAdj els (consolidateLabelsIntoShapes els))) := by
  intro x y h
  rw [adjRel_buildAdj_iff] at h ⊢
  exact relEdge_symm els h

lemma adjReach_buildAdj_iff (els : List Element) (x y : String) :
    adjReach (buildAdj els (consolidateLabelsIntoShapes els)) x y ↔ relReach els x y := by
  constructor
  · intro h
    induction h with
    | refl => exact Relation.ReflTransGen.refl
    | tail _ hstep ih =>
      exact Relation.ReflTransGen.tail ih ((adjRel_buildAdj_iff els _ _).mp hstep)
  · intro h
    induction h with
    | refl => exact Relation.ReflTransGen.refl
    | tail _ hstep ih =>
      exact Relation.ReflTransGen.tail ih ((adjRel_buildAdj_iff els _ _).mpr hstep)

lemma adjReach_congr {adj : Adj} (hsym : Symmetric (adjRel adj)) {v x : String}
    (hvx : adjReach adj v x) (z : String) :
    adjReach adj x z ↔ adjReach adj v z := by
  constructor
  · exact fun h => Relation.ReflTransGen.trans hvx h
  · exact fun h =>
      Relation.ReflTransGen.trans (Relation.ReflTransGen.symmetric hsym hvx) h

lemma one_lt_length_of_two_mem {α : Type} {l : List α} {a b : α}
    (ha : a ∈ l) (hb : b ∈ l) (hne : a ≠ b) : 1 < l.length := by
  match l with
  | [] => cases ha
  | [x] =>
    have h1 : a = x := by simpa using ha
    have h2 : b = x := by simpa using hb
    exact absurd (h1.trans h2.symm) hne
  | x :: y :: rest => simp

/-- Ids in a component's connectivity class that name kept elements. -/
def RCset (adj : Adj) (byId : String → Option Element) (x : String) : Set String :=
  {z | adjReach adj x z ∧ ∃ e, byId z = some e ∧ keepKind e}

/-- A cluster is exactly the kept elements of one connectivity class. -/
def clusterChar (adj : Adj) (byId : String → Option Element)
    (v : String) (c : List Element) : Prop :=
  ∀ e, e ∈ c ↔ adjReach adj v e.externalId ∧ byId e.externalId = some e ∧ keepKind e

/-- Invariant carried through the outer seed loop. -/
def OuterInv (adj : Adj) (byId : String → Option Element)
    (vis : List String) (clusters : List (List Element)) : Prop :=
  (∀ x ∈ vis, ∀ y, adjRel adj x y → y ∈ vis) ∧
  vis.Nodup ∧
  (∀ c ∈ clusters, ∃ v, v ∈ seedsOf adj ∧ clusterChar adj byId v c ∧
    1 < c.length ∧ (c.map (·.externalId)).Nodup) ∧
  (∀ x ∈ vis,
    (∃ a b, a ≠ b ∧ a ∈ RCset adj byId x ∧ b ∈ RCset adj byId x) →
    ∃ c ∈ clusters, clusterChar adj byId x c)

lemma relOuter_fold (adj : Adj) (byId : String → Option Element)
    (hbyId : ∀ x e, byId x = some e → e.externalId = x)
    (hsym : Symmetric (adjRel adj)) :
    ∀ (ls : List String), (∀ v ∈ ls, v ∈ seedsOf adj) →
    ∀ (vis : List String) (clusters : List (List Element)),
    OuterInv adj byId vis clusters →
    (OuterInv adj byId
      (ls.foldl (relOuterStep adj byId) (vis, clusters)).1
      (ls.foldl (relOuterStep adj byId) (vis, clusters)).2) ∧
    (∀ x ∈ vis, x ∈ (ls.foldl (relOuterStep adj byId) (vis, clusters)).1) ∧
    (∀ c ∈ clusters, c ∈ (ls.foldl (relOuterStep adj byId) (vis, clusters)).2) ∧
    (∀ v ∈ ls, (∃ sv, byId v = some sv ∧ keepKind sv) →
      v ∈ (ls.foldl (relOuterStep adj byId) (vis, clusters)).1) := by
  intro ls
  induction ls with
  | nil =>
    intro _ vis clusters hinv
    exact ⟨hinv, fun x hx => hx, fun c hc => hc, fun v hv => absurd hv (by simp)⟩
  | cons v ls ih =>
    intro hls vis clusters hinv
    obtain ⟨hI1, hI2, hI3, hI5⟩ := hinv
    rw [List.foldl_cons]
    cases hby : byId v with
    | none =>
      have hstep : relOuterStep adj byId (vis, clusters) v = (vis, clusters) := by
        unfold relOuterStep
        rw [hby]
      rw [hstep]
      obtain ⟨hinv', hmono', hcl', hI4'⟩ :=
        ih (fun w hw => hls w (List.mem_cons_of_mem v hw)) vis clusters
          ⟨hI1, hI2, hI3, hI5⟩
      refine ⟨hinv', hmono', hcl', ?_⟩
      intro w hw hst
      rcases List.mem_cons.mp hw with rfl | hw'
      · obtain ⟨sv, hsv, _⟩ := hst
        rw [hby] at hsv
        cases hsv
      · exact hI4' w hw' hst
    | some sv =>
      by_cases hcond : ¬ vis.contains v ∧ keepKind sv
      · -- fresh non-connector seed: run the traversal
        have hfresh : v ∉ vis := by simpa using hcond.1
        obtain ⟨hterm, hvisiff, hnodvis, hnodcomp, hcompiff⟩ :=
          relTraverse_spec adj byId hbyId hsym v vis
            (hls v (List.mem_cons_self v ls)) hI1 hfresh hI2
        have hvismono : ∀ x ∈ vis,
            x ∈ (relLoop adj byId (relFuel adj) [v] vis []).2.1 :=
          fun x hx => (hvisiff x).mpr (Or.inl hx)
        have hI1' : ∀ x ∈ (relLoop adj byId (relFuel adj) [v] vis []).2.1,
            ∀ y, adjRel adj x y → y ∈ (relLoop adj byId (relFuel adj) [v] vis []).2.1 := by
          intro x hx y hxy
          rcases (hvisiff x).mp hx with h | h
          · exact hvismono y (hI1 x h y hxy)
          · exact (hvisiff y).mpr (Or.inr (Relation.ReflTransGen.tail h hxy))
        have hRCeq : ∀ x, adjReach adj v x → RCset adj byId x = RCset adj byId v := by
          intro x hvx
          ext z
          unfold RCset
          simp only [Set.mem_setOf_eq]
          rw [adjReach_congr hsym hvx]
        -- characterize the new cluster list
        have hclusters' : ∀ cl,
            (cl = (if (relLoop adj byId (relFuel adj) [v] vis []).2.2.length > 1
              then clusters ++ [(relLoop adj byId (relFuel adj) [v] vis []).2.2]
              else clusters)) →
            (∀ c ∈ cl, ∃ w, w ∈ seedsOf adj ∧ clusterChar adj byId w c ∧
              1 < c.length ∧ (c.map (·.externalId)).Nodup) ∧
            (∀ c ∈ clusters, c ∈ cl) ∧
            (∀ x, adjReach adj v x →
              (∃ a b, a ≠ b ∧ a ∈ RCset adj byId x ∧ b ∈ RCset adj byId x) →
              ∃ c ∈ cl, clusterChar adj byId x c) := by
          intro cl hcl
          by_cases hlen : (relLoop adj byId (relFuel adj) [v] vis []).2.2.length > 1
          · rw [if_pos hlen] at hcl
            subst hcl
            refine ⟨?_, fun c hc => List.mem_append_left _ hc, ?_⟩
            · intro c hc
              rcases List.mem_append.mp hc with h | h
              · exact hI3 c h
              · rw [show c = (relLoop adj byId (relFuel adj) [v] vis []).2.2 from by
                  simpa using h]
                exact ⟨v, hls v (List.mem_cons_self v ls), hcompiff, hlen, hnodcomp⟩
            · intro x hvx _
              refine ⟨(relLoop adj byId (relFuel adj) [v] vis []).2.2,
                List.mem_append_right _ (by simp), ?_⟩
              intro e
              rw [hcompiff e, adjReach_congr hsym hvx]
          · rw [if_neg hlen] at hcl
            subst hcl
            refine ⟨hI3, fun c hc => hc, ?_⟩
            intro x hvx ⟨a, b, hab, ha, hb⟩
            exfalso
            rw [hRCeq x hvx] at ha hb
            obtain ⟨hra, ea, hea, hkpa⟩ := ha
            obtain ⟨hrb, eb, heb, hkpb⟩ := hb
            have hea_mem : ea ∈ (relLoop adj byId (relFuel adj) [v] vis []).2.2 :=
              (hcompiff ea).mpr ⟨by rw [hbyId a ea hea]; exact hra,
                by rw [hbyId a ea hea]; exact hea, hkpa⟩
            have heb_mem : eb ∈ (relLoop adj byId (relFuel adj) [v] vis []).2.2 :=
              (hcompiff eb).mpr ⟨by rw [hbyId b eb heb]; exact hrb,
                by rw [hbyId b eb heb]; exact heb, hkpb⟩
            have hne : ea ≠ eb := by
              intro h
              apply hab
              rw [← hbyId a ea hea, ← hbyId b eb heb, h]
            exact absurd (one_lt_length_of_two_mem hea_mem heb_mem hne) hlen
        obtain ⟨hc3', hcmono', hc5'⟩ := hclusters' _ rfl
        have hI5' : ∀ x ∈ (relLoop adj byId (relFuel adj) [v] vis []).2.1,
            (∃ a b, a ≠ b ∧ a ∈ RCset adj byId x ∧ b ∈ RCset adj byId x) →
            ∃ c ∈ (if (relLoop adj byId (relFuel adj) [v] vis []).2.2.length > 1
              then clusters ++ [(relLoop adj byId (relFuel adj) [v] vis []).2.2]
              else clusters), clusterChar adj byId x c := by
          intro x hx hpair
          rcases (hvisiff x).mp hx with h | h
          · obtain ⟨c, hc, hchar⟩ := hI5 x h hpair
            exact ⟨c, hcmono' c hc, hchar⟩
          · exact hc5' x h hpair
        have hstep : relOuterStep adj byId (vis, clusters) v
            = ((relLoop adj byId (relFuel adj) [v] vis []).2.1,
               if (relLoop adj byId (relFuel adj) [v] vis []).2.2.length > 1
               then clusters ++ [(relLoop adj byId (relFuel adj) [v] vis []).2.2]
               else clusters) := by
          unfold relOuterStep
          rw [hby]
          dsimp only
          rw [if_pos hcond]
        rw [hstep]
        obtain ⟨hinv', hmono', hcl', hI4'⟩ :=
          ih (fun w hw => hls w (List.mem_cons_of_mem v hw)) _ _
            ⟨hI1', hnodvis, hc3', hI5'⟩
        refine ⟨hinv', fun x hx => hmono' x (hvismono x hx),
          fun c hc => hcl' c (hcmono' c hc), ?_⟩
        intro w hw hst
        rcases List.mem_cons.mp hw with rfl | hw'
        · exact hmono' w ((hvisiff w).mpr (Or.inr Relation.ReflTransGen.refl))
        · exact hI4' w hw' hst
      · -- skipped seed: already visited, or a connector
        have hstep : relOuterStep adj byId (vis, clusters) v = (vis, clusters) := by
          unfold relOuterStep
          rw [hby]
          dsimp only
          rw [if_neg hcond]
        rw [hstep]
        obtain ⟨hinv', hmono', hcl', hI4'⟩ :=
          ih (fun w hw => hls w (List.mem_cons_of_mem v hw)) vis clusters
            ⟨hI1, hI2, hI3, hI5⟩
        refine ⟨hinv', hmono', hcl', ?_⟩
        intro w hw hst
        rcases List.mem_cons.mp hw with rfl | hw'
        · obtain ⟨sv', hsv', hkp'⟩ := hst
          rw [hby] at hsv'
          cases hsv'
          have hvin : w ∈ vis := by
            by_contra hnot
            exact hcond ⟨by simpa using hnot, hkp'⟩
          exact hmono' w hvin
        · exact hI4' w hw' hst

lemma clusterChar_idset {adj : Adj} {byId : String → Option Element}
    (hbyId : ∀ x e, byId x = some e → e.externalId = x)
    {v : String} {c : List Element} (hchar : clusterChar adj byId v c) :
    {x | x ∈ c.map (·.externalId)}
      = {z | adjReach adj v z ∧ ∃ e, byId z = some e ∧ keepKind e} := by
  ext z
  simp only [Set.mem_setOf_eq, List.mem_map]
  constructor
  · rintro ⟨e, he, rfl⟩
    obtain ⟨hr, hs, hk⟩ := (hchar e).mp he
    exact ⟨hr, e, hs, hk⟩
  · rintro ⟨hr, e, hs, hk⟩
    have hez : e.externalId = z := hbyId z e hs
    exact ⟨e, (hchar e).mpr ⟨by rwa [hez], by rwa [hez], hk⟩, hez⟩

lemma relationalClustersCalc_eq (els : List Element) :
    relationalClustersCalc els
      = ((seedsOf (buildAdj els (consolidateLabelsIntoShapes els))).foldl
          (relOuterStep (buildAdj els (consolidateLabelsIntoShapes els))
            (byExtId (consolidateLabelsIntoShapes els))) ([], [])).2 := rfl

/-- C1: For every board element set, the relational clusters are exactly the
connected components of the undirected graph induced by connector elements
with two valid, distinct, existing endpoints, restricted to non-connector
elements, keeping only components with at least two members — for any
connector/endpoint configuration, including self-loops (excluded by the
distinct-endpoints requirement) and disconnected islands. -/
theorem C1_relational_clusters_are_connected_components (els : List Element) :
    ∀ S : Set String,
      (∃ c ∈ relationalClustersCalc els, S = {x | x ∈ c.map (·.externalId)}) ↔
      (∃ v, relGraphNode els v ∧ S = relComponentNC els v ∧
        ∃ a ∈ S, ∃ b ∈ S, a ≠ b) := by
  intro S
  have hbyId : ∀ x e, byExtId (consolidateLabelsIntoShapes els) x = some e →
      e.externalId = x := fun x e h => (byExtId_spec h).1
  have hsym := adjRel_buildAdj_symm els
  have hkeys := buildAdj_keys_nodup els (consolidateLabelsIntoShapes els)
  have hvals := buildAdj_values_nonempty els (consolidateLabelsIntoShapes els)
  obtain ⟨⟨hI1, hI2, hI3, hI5⟩, _, _, hI4⟩ :=
    relOuter_fold (buildAdj els (consolidateLabelsIntoShapes els))
      (byExtId (consolidateLabelsIntoShapes els)) hbyId hsym
      (seedsOf (buildAdj els (consolidateLabelsIntoShapes els)))
      (fun v hv => hv) [] []
      ⟨fun x hx => absurd hx (by simp), by simp,
       fun c hc => absurd hc (by simp), fun x hx => absurd hx (by simp)⟩
  have hcompset : ∀ v,
      {z | adjReach (buildAdj els (consolidateLabelsIntoShapes els)) v z ∧
        ∃ e, byExtId (consolidateLabelsIntoShapes els) z = some e ∧ keepKind e}
      = relComponentNC els v := by
    intro v
    ext z
    simp only [Set.mem_setOf_eq, relComponentNC]
    rw [adjReach_buildAdj_iff]
  constructor
  · rintro ⟨c, hc, rfl⟩
    rw [relationalClustersCalc_eq] at hc
    obtain ⟨v, hvseeds, hchar, hlen, hnod⟩ := hI3 c hc
    refine ⟨v, ?_, ?_, ?_⟩
    · obtain ⟨y, hy⟩ := (mem_seeds_iff_adjRel hkeys hvals hsym v).mp hvseeds
      exact ⟨y, (adjRel_buildAdj_iff els v y).mp hy⟩
    · rw [clusterChar_idset hbyId hchar, hcompset]
    · match c, hlen, hnod, hchar with
      | e1 :: e2 :: rest, _, hnod, hchar =>
        refine ⟨e1.externalId, by simp, e2.externalId, by simp, ?_⟩
        simp only [List.map_cons, List.nodup_cons, List.mem_cons] at hnod
        exact fun h => hnod.1 (Or.inl h)
  · rintro ⟨v, hnode, rfl, a, ha, b, hb, hab⟩
    obtain ⟨hra, ea, hea, hkpa⟩ := ha
    have hadjra : adjReach (buildAdj els (consolidateLabelsIntoShapes els)) v a :=
      (adjReach_buildAdj_iff els v a).mpr hra
    have haseeds : a ∈ seedsOf (buildAdj els (consolidateLabelsIntoShapes els)) := by
      rcases Relation.ReflTransGen.cases_tail hadjra with heq | ⟨z, _, hstep⟩
      · subst heq
        obtain ⟨y, hy⟩ := hnode
        exact (mem_seeds_iff_adjRel hkeys hvals hsym a).mpr
          ⟨y, (adjRel_buildAdj_iff els a y).mpr hy⟩
      · exact mem_adjLookup_mem_seeds hstep
    have havis := hI4 a haseeds ⟨ea, hea, hkpa⟩
    have hpair : ∃ x y, x ≠ y ∧
        x ∈ RCset (buildAdj els (consolidateLabelsIntoShapes els))
          (byExtId (consolidateLabelsIntoShapes els)) a ∧
        y ∈ RCset (buildAdj els (consolidateLabelsIntoShapes els))
          (byExtId (consolidateLabelsIntoShapes els)) a := by
      refine ⟨a, b, hab, ?_, ?_⟩
      · exact ⟨Relation.ReflTransGen.refl, ea, hea, hkpa⟩
      · obtain ⟨hrb, eb, heb, hkpb⟩ := hb
        refine ⟨?_, eb, heb, hkpb⟩
        rw [adjReach_congr hsym hadjra]
        exact (adjReach_buildAdj_iff els v b).mpr hrb
    obtain ⟨c, hc, hchar⟩ := hI5 a havis hpair
    refine ⟨c, by rw [relationalClustersCalc_eq]; exact hc, ?_⟩
    rw [clusterChar_idset hbyId hchar]
    rw [show {z | adjReach (buildAdj els (consolidateLabelsIntoShapes els)) a z ∧
        ∃ e, byExtId (consolidateLabelsIntoShapes els) z = some e ∧ keepKind e}
      = {z | adjReach (buildAdj els (consolidateLabelsIntoShapes els)) v z ∧
        ∃ e, byExtId (consolidateLabelsIntoShapes els) z = some e ∧ keepKind e} from by
      ext z
      simp only [Set.mem_setOf_eq]
      rw [adjReach_congr hsym hadjra]]
    rw [hcompset]

/-! ## Distance clustering (POST /api/clusters, health.js 283–407)

`proportionalDistance(a,b) = hypot(Δcx, Δcy) / max(50, (aw+ah+bw+bh)/4 * 2)`.
The code only compares this ratio with `1.0`; since the divisor is at least
50 > 0, `pd < 1` is equivalent to the square-free rational comparison
`Δcx² + Δcy² < threshold²`, which is what `pdLtOne` states (the bridge lemma
`pdLtOne_iff_real` relates it to the real-valued quotient). -/

def centerX (e : Element) : ℚ := e.x + e.w / 2

def centerY (e : Element) : ℚ := e.y + e.h / 2

def pdThreshold (a b : Element) : ℚ := max 50 ((a.w + a.h + (b.w + b.h)) / 4 * 2)

def pdLtOne (a b : Element) : Prop :=
  (centerX a - centerX b) ^ 2 + (centerY a - centerY b) ^ 2 < (pdThreshold a b) ^ 2

instance : ∀ a b, Decidable (pdLtOne a b) := fun a b => by unfold pdLtOne; infer_instance

/-- `CLUSTER_CONSTANTS.CELL_SIZE`. -/
def cellSize : ℚ := 300

/-- `Math.floor(x / cellSize), Math.floor(y / cellSize)`. -/
def cellKey (e : Element) : ℤ × ℤ := (⌊e.x / cellSize⌋, ⌊e.y / cellSize⌋)

/-- The 3×3 grid-cell neighborhood scan (dx outer, dy inner, cell arrays in
element order). -/
def neighborsFromGrid (els : List Element) (el : Element) : List Element :=
  ([-1, 0, 1] : List ℤ).flatMap (fun dx =>
    ([-1, 0, 1] : List ℤ).flatMap (fun dy =>
      els.filter (fun cand =>
        cellKey cand = ((cellKey el).1 + dx, (cellKey el).2 + dy))))

/-- The quick-reject pre-filter: per-axis center offsets above `4*cellSize`. -/
def fastSep (a b : Element) : Prop :=
  |centerX a - centerX b| > 4 * cellSize ∨ |centerY a - centerY b| > 4 * cellSize

instance : ∀ a b, Decidable (fastSep a b) := fun a b => by unfold fastSep; infer_instance

/-- The candidate scan of one BFS step: each grid candidate is skipped if
already visited or quick-rejected, and accepted when the proportional
distance is below 1; accepted candidates are added to the visited set as the
scan goes.  Returns the grown visited set and the accepted elements in scan
order. -/
def distAccept (current : Element) :
    List Element → List String → List String × List Element
  | [], vis => (vis, [])
  | cand :: rest, vis =>
    if vis.contains cand.externalId then distAccept current rest vis
    else if fastSep current cand then distAccept current rest vis
    else if pdLtOne current cand then
      ((distAccept current rest (vis ++ [cand.externalId])).1,
       cand :: (distAccept current rest (vis ++ [cand.externalId])).2)
    else distAccept current rest vis

/-- The distance-clustering BFS (`while (queue.length > 0)` with the
`MAX_ITERS` early stop: the fuel counts loop iterations exactly as the
`iterations > MAX_ITERS` check does).  Returns (remaining queue, visited,
cluster members). -/
def distLoop (els : List Element) :
    Nat → List Element → List String → List Element →
    List Element × List String × List Element
  | 0, queue, vis, members => (queue, vis, members)
  | _ + 1, [], vis, members => ([], vis, members)
  | fuel + 1, current :: qrest, vis, members =>
    distLoop els fuel
      (qrest ++ (distAccept current (neighborsFromGrid els current) vis).2)
      (distAccept current (neighborsFromGrid els current) vis).1
      (members ++ (distAccept current (neighborsFromGrid els current) vis).2)

/-- `Number(process.env.CLUSTER_MAX_ITERS || 20000)` default. -/
def MAX_ITERS : Nat := 20000

/-- One iteration of the outer distance loop. -/
def distOuterStep (els : List Element)
    (acc : List String × List (List Element)) (element : Element) :
    List String × List (List Element) :=
  if acc.1.contains element.externalId then acc
  else
    ((distLoop els MAX_ITERS [element] (acc.1 ++ [element.externalId]) [element]).2.1,
     if (distLoop els MAX_ITERS [element]
          (acc.1 ++ [element.externalId]) [element]).2.2.length > 1
     then acc.2 ++ [(distLoop els MAX_ITERS [element]
       (acc.1 ++ [element.externalId]) [element]).2.2]
     else acc.2)

/-- Distance clustering over the (already merged) element list: BFS from each
unvisited element over grid-neighborhood candidates; clusters of size one are
discarded.  (The route applies this to `consolidateLabelsIntoShapes` output.) -/
def distanceClustersCalc (els : List Element) : List (List Element) :=
  (els.foldl (distOuterStep els) ([], [])).2

/-- The (symmetric) link relation that one BFS step realizes between two
distinct elements: grid neighborhood, quick filter passed, proportional
distance below 1. -/
def distLink (els : List Element) (a b : Element) : Prop :=
  a ∈ els ∧ b ∈ els ∧ ¬ a.externalId = b.externalId ∧
  (cellKey b).1 ≥ (cellKey a).1 - 1 ∧ (cellKey b).1 ≤ (cellKey a).1 + 1 ∧
  (cellKey b).2 ≥ (cellKey a).2 - 1 ∧ (cellKey b).2 ≤ (cellKey a).2 + 1 ∧
  ¬ fastSep a b ∧ pdLtOne a b

/-- Link-connectivity (what BFS transitive closure computes). -/
def distReach (els : List Element) (a b : Element) : Prop :=
  Relation.ReflTransGen (distLink els) a b

/-- Bridge: the square-free comparison `pdLtOne` says exactly that the
real-valued proportional distance (Euclidean center distance divided by the
size-based threshold) is below 1. -/
lemma pdLtOne_iff_real (a b : Element) :
    pdLtOne a b ↔
      Real.sqrt (((centerX a - centerX b : ℚ) : ℝ) ^ 2 +
        ((centerY a - centerY b : ℚ) : ℝ) ^ 2) / ((pdThreshold a b : ℚ) : ℝ) < 1 := by
  have hth : (0 : ℚ) < pdThreshold a b := lt_of_lt_of_le (by norm_num) (le_max_left _ _)
  have hthR : (0 : ℝ) < ((pdThreshold a b : ℚ) : ℝ) := by exact_mod_cast hth
  rw [div_lt_one hthR]
  constructor
  · intro h
    have hlt : (((centerX a - centerX b : ℚ) : ℝ) ^ 2 +
        ((centerY a - centerY b : ℚ) : ℝ) ^ 2) < ((pdThreshold a b : ℚ) : ℝ) ^ 2 := by
      unfold pdLtOne at h
      push_cast
      exact_mod_cast h
    calc Real.sqrt (((centerX a - centerX b : ℚ) : ℝ) ^ 2 +
          ((centerY a - centerY b : ℚ) : ℝ) ^ 2)
        < Real.sqrt (((pdThreshold a b : ℚ) : ℝ) ^ 2) := by
          apply Real.sqrt_lt_sqrt (by positivity) hlt
      _ = ((pdThreshold a b : ℚ) : ℝ) := Real.sqrt_sq hthR.le
  · intro h
    unfold pdLtOne
    have h2 : (((centerX a - centerX b : ℚ) : ℝ) ^ 2 +
        ((centerY a - centerY b : ℚ) : ℝ) ^ 2) < ((pdThreshold a b : ℚ) : ℝ) ^ 2 := by
      have := Real.sq_sqrt (show (0:ℝ) ≤ ((centerX a - centerX b : ℚ) : ℝ) ^ 2 +
        ((centerY a - centerY b : ℚ) : ℝ) ^ 2 by positivity)
      calc ((centerX a - centerX b : ℚ) : ℝ) ^ 2 + ((centerY a - centerY b : ℚ) : ℝ) ^ 2
          = (Real.sqrt (((centerX a - centerX b : ℚ) : ℝ) ^ 2 +
              ((centerY a - centerY b : ℚ) : ℝ) ^ 2)) ^ 2 := this.symm
        _ < ((pdThreshold a b : ℚ) : ℝ) ^ 2 := by
            apply pow_lt_pow_left₀ h (Real.sqrt_nonneg _)
            norm_num
    exact_mod_cast h2

/-- C7 (amended, positive half): a relational cluster's member list never
contains an element of kind `"arrow"` or `"line"` (the traversal's member
filter). -/
theorem C7_relational_clusters_exclude_connectors (els : List Element) :
    ∀ c ∈ relationalClustersCalc els, ∀ e ∈ c,
      ¬ e.kind = "arrow" ∧ ¬ e.kind = "line" := by
  intro c hc e he
  have hbyId : ∀ x e, byExtId (consolidateLabelsIntoShapes els) x = some e →
      e.externalId = x := fun x e h => (byExtId_spec h).1
  obtain ⟨⟨_, _, hI3, _⟩, _, _, _⟩ :=
    relOuter_fold (buildAdj els (consolidateLabelsIntoShapes els))
      (byExtId (consolidateLabelsIntoShapes els)) hbyId (adjRel_buildAdj_symm els)
      (seedsOf (buildAdj els (consolidateLabelsIntoShapes els)))
      (fun v hv => hv) [] []
      ⟨fun x hx => absurd hx (by simp), by simp,
       fun c hc => absurd hc (by simp), fun x hx => absurd hx (by simp)⟩
  rw [relationalClustersCalc_eq] at hc
  obtain ⟨v, _, hchar, _, _⟩ := hI3 c hc
  exact ((hchar e).mp he).2.2

/-- Concrete elements for the C7 counterexample: a rectangle and an arrow
120 px apart (proportional distance 120/200 < 1, same grid cell). -/
def c7shape : Element :=
  { externalId := "s", id := "1", kind := "rectangle", x := 0, y := 0, w := 100, h := 100 }

def c7arrow : Element :=
  { externalId := "ar", id := "2", kind := "arrow", x := 120, y := 0, w := 100, h := 100,
    startBindingId := "", endBindingId := "" }

/-- C7 counterexample: the distance BFS applies no kind filter, so a
connector-kind (arrow) element lands in a distance cluster, refuting the
claim for distance-type clusters. -/
theorem C7_counterexample_distance_cluster_contains_arrow :
    isConnector c7arrow = true ∧
    distanceClustersCalc [c7shape, c7arrow] = [[c7shape, c7arrow]] ∧
    ∃ c ∈ distanceClustersCalc [c7shape, c7arrow], ∃ e ∈ c, isConnector e = true := by
  refine ⟨by with_unfolding_all rfl, by with_unfolding_all rfl, ?_⟩
  refine ⟨[c7shape, c7arrow], ?_, c7arrow, by simp, by with_unfolding_all rfl⟩
  rw [show distanceClustersCalc [c7shape, c7arrow] = [[c7shape, c7arrow]] from by
    with_unfolding_all rfl]
  simp

/-- Concrete elements for the C2 counterexample: three large rectangles.
`c2A`–`c2B` and `c2B`–`c2C` both have proportional distance < 1, but `c2A`'s
grid cell (0,0) is ten cells away from `c2B`'s (10,0), so the BFS never
examines the `c2A`–`c2B` pair. -/
def c2A : Element :=
  { externalId := "A", id := "1", kind := "rectangle", x := 0, y := 0, w := 2000, h := 2000 }

def c2B : Element :=
  { externalId := "B", id := "2", kind := "rectangle", x := 3000, y := 0, w := 2000, h := 2000 }

def c2C : Element :=
  { externalId := "C", id := "3", kind := "rectangle", x := 3100, y := 0, w := 2000, h := 2000 }

/-- C2 counterexample: proportional-distance(A,B) < 1 and
proportional-distance(B,C) < 1, yet A and C do not end up in the same
distance cluster — the only cluster is {B, C} and A is unclustered, because
grid locality (3×3 cells of 300 px) prevents the A–B link from ever being
tested. -/
theorem C2_counterexample_grid_locality_breaks_transitivity :
    pdLtOne c2A c2B ∧ pdLtOne c2B c2C ∧
    distanceClustersCalc [c2A, c2B, c2C] = [[c2B, c2C]] ∧
    ¬ ∃ c ∈ distanceClustersCalc [c2A, c2B, c2C], c2A ∈ c ∧ c2C ∈ c := by
  refine ⟨by with_unfolding_all decide, by with_unfolding_all decide,
    by with_unfolding_all rfl, ?_⟩
  rw [show distanceClustersCalc [c2A, c2B, c2C] = [[c2B, c2C]] from by
    with_unfolding_all rfl]
  rintro ⟨c, hc, hA, _⟩
  rw [show c = [c2B, c2C] from by simpa using hc] at hA
  rcases List.mem_cons.mp hA with h | h
  · exact absurd (congrArg Element.externalId h) (by with_unfolding_all decide)
  · have : c2A = c2C := by simpa using h
    exact absurd (congrArg Element.externalId this) (by with_unfolding_all decide)

/-! ### Correctness of the distance BFS -/

lemma distAccept_vis (current : Element) :
    ∀ (cs : List Element) (vis : List String),
    (distAccept current cs vis).1
      = vis ++ ((distAccept current cs vis).2.map (·.externalId)) := by
  intro cs
  induction cs with
  | nil => intro vis; simp [distAccept]
  | cons cand rest ih =>
    intro vis
    unfold distAccept
    by_cases h1 : vis.contains cand.externalId
    · rw [if_pos h1]; exact ih vis
    · rw [if_neg h1]
      by_cases h2 : fastSep current cand
      · rw [if_pos h2]; exact ih vis
      · rw [if_neg h2]
        by_cases h3 : pdLtOne current cand
        · rw [if_pos h3]
          dsimp only
          rw [ih (vis ++ [cand.externalId])]
          simp
        · rw [if_neg h3]; exact ih vis

lemma distAccept_accepted (current : Element) :
    ∀ (cs : List Element) (vis : List String),
    ∀ e ∈ (distAccept current cs vis).2,
      e ∈ cs ∧ e.externalId ∉ vis ∧ ¬ fastSep current e ∧ pdLtOne current e := by
  intro cs
  induction cs with
  | nil => intro vis e he; cases he
  | cons cand rest ih =>
    intro vis e he
    unfold distAccept at he
    by_cases h1 : vis.contains cand.externalId
    · rw [if_pos h1] at he
      obtain ⟨hm, hv, hf, hp⟩ := ih vis e he
      exact ⟨List.mem_cons_of_mem _ hm, hv, hf, hp⟩
    · rw [if_neg h1] at he
      by_cases h2 : fastSep current cand
      · rw [if_pos h2] at he
        obtain ⟨hm, hv, hf, hp⟩ := ih vis e he
        exact ⟨List.mem_cons_of_mem _ hm, hv, hf, hp⟩
      · rw [if_neg h2] at he
        by_cases h3 : pdLtOne current cand
        · rw [if_pos h3] at he
          dsimp only at he
          rcases List.mem_cons.mp he with rfl | he'
          · exact ⟨List.mem_cons_self _ _, by simpa using h1, h2, h3⟩
          · obtain ⟨hm, hv, hf, hp⟩ := ih (vis ++ [cand.externalId]) e he'
            exact ⟨List.mem_cons_of_mem _ hm, fun hin => hv (by simp [hin]), hf, hp⟩
        · rw [if_neg h3] at he
          obtain ⟨hm, hv, hf, hp⟩ := ih vis e he
          exact ⟨List.mem_cons_of_mem _ hm, hv, hf, hp⟩

lemma distAccept_complete (current : Element) :
    ∀ (cs : List Element) (vis : List String),
    ∀ cand ∈ cs, ¬ fastSep current cand → pdLtOne current cand →
      cand.externalId ∈ (distAccept current cs vis).1 := by
  intro cs
  induction cs with
  | nil => intro vis cand hc; cases hc
  | cons c0 rest ih =>
    intro vis cand hc hf hp
    rcases List.mem_cons.mp hc with rfl | hc'
    · unfold distAccept
      by_cases h1 : vis.contains cand.externalId
      · rw [if_pos h1]
        rw [distAccept_vis]
        simp only [List.mem_append]
        exact Or.inl (by simpa using h1)
      · rw [if_neg h1, if_neg hf, if_pos hp]
        dsimp only
        rw [distAccept_vis]
        simp
    · unfold distAccept
      by_cases h1 : vis.contains c0.externalId
      · rw [if_pos h1]; exact ih vis cand hc' hf hp
      · rw [if_neg h1]
        by_cases h2 : fastSep current c0
        · rw [if_pos h2]; exact ih vis cand hc' hf hp
        · rw [if_neg h2]
          by_cases h3 : pdLtOne current c0
          · rw [if_pos h3]
            dsimp only
            exact ih (vis ++ [c0.externalId]) cand hc' hf hp
          · rw [if_neg h3]; exact ih vis cand hc' hf hp

lemma distAccept_vis_nodup (current : Element) :
    ∀ (cs : List Element) (vis : List String), vis.Nodup →
      (distAccept current cs vis).1.Nodup := by
  intro cs
  induction cs with
  | nil => intro vis h; simpa [distAccept]
  | cons cand rest ih =>
    intro vis h
    unfold distAccept
    by_cases h1 : vis.contains cand.externalId
    · rw [if_pos h1]; exact ih vis h
    · rw [if_neg h1]
      by_cases h2 : fastSep current cand
      · rw [if_pos h2]; exact ih vis h
      · rw [if_neg h2]
        by_cases h3 : pdLtOne current cand
        · rw [if_pos h3]
          dsimp only
          apply ih
          rw [List.nodup_append]
          refine ⟨h, by simp, ?_⟩
          intro a ha hb
          have : a = cand.externalId := by simpa using hb
          subst this
          exact (by simpa using h1 : cand.externalId ∉ vis) ha
        · rw [if_neg h3]; exact ih vis h

/-- Membership in the grid-candidate list is grid-cell proximity. -/
lemma mem_neighborsFromGrid {els : List Element} {el cand : Element} :
    cand ∈ neighborsFromGrid els el ↔
      cand ∈ els ∧
      (cellKey cand).1 ≥ (cellKey el).1 - 1 ∧ (cellKey cand).1 ≤ (cellKey el).1 + 1 ∧
      (cellKey cand).2 ≥ (cellKey el).2 - 1 ∧ (cellKey cand).2 ≤ (cellKey el).2 + 1 := by
  unfold neighborsFromGrid
  simp only [List.mem_flatMap, List.mem_filter]
  constructor
  · rintro ⟨dx, hdx, dy, hdy, hmem, hkey⟩
    have hkey' : cellKey cand = ((cellKey el).1 + dx, (cellKey el).2 + dy) := by
      simpa using hkey
    rw [hkey']
    have hdx' : dx = -1 ∨ dx = 0 ∨ dx = 1 := by simpa using hdx
    have hdy' : dy = -1 ∨ dy = 0 ∨ dy = 1 := by simpa using hdy
    refine ⟨hmem, ?_, ?_, ?_, ?_⟩ <;> rcases hdx' with rfl | rfl | rfl <;>
      rcases hdy' with rfl | rfl | rfl <;> simp <;> omega
  · rintro ⟨hmem, h1, h2, h3, h4⟩
    refine ⟨(cellKey cand).1 - (cellKey el).1, by simp; omega,
      (cellKey cand).2 - (cellKey el).2, by simp; omega, hmem, ?_⟩
    simp

lemma distLoop_zero (els : List Element) (queue : List Element) (vis : List String)
    (members : List Element) : distLoop els 0 queue vis members = (queue, vis, members) := rfl

lemma distLoop_nil (els : List Element) (n : Nat) (vis : List String)
    (members : List Element) : distLoop els (n + 1) [] vis members = ([], vis, members) := rfl

lemma distLoop_cons (els : List Element) (n : Nat) (current : Element)
    (qrest : List Element) (vis : List String) (members : List Element) :
    distLoop els (n + 1) (current :: qrest) vis members
      = distLoop els n
          (qrest ++ (distAccept current (neighborsFromGrid els current) vis).2)
          (distAccept current (neighborsFromGrid els current) vis).1
          (members ++ (distAccept current (neighborsFromGrid els current) vis).2) := rfl

lemma distLoop_vis_mono (els : List Element) :
    ∀ (fuel : Nat) (queue : List Element) (vis : List String) (members : List Element),
    ∀ x ∈ vis, x ∈ (distLoop els fuel queue vis members).2.1 := by
  intro fuel
  induction fuel with
  | zero => intro queue vis members x hx; simpa [distLoop_zero] using hx
  | succ n ih =>
    intro queue vis members x hx
    match queue with
    | [] => simpa [distLoop_nil] using hx
    | current :: qrest =>
      rw [distLoop_cons]
      apply ih
      rw [distAccept_vis]
      simp [hx]

lemma distLoop_vis_sound (els : List Element) :
    ∀ (fuel : Nat) (queue : List Element) (vis : List String) (members : List Element),
    (∀ q ∈ queue, q ∈ els ∧ q.externalId ∈ vis) →
    ∀ x ∈ (distLoop els fuel queue vis members).2.1,
      x ∈ vis ∨ ∃ q ∈ queue, ∃ e ∈ els, distReach els q e ∧ e.externalId = x := by
  intro fuel
  induction fuel with
  | zero => intro queue vis members _ x hx; left; simpa [distLoop_zero] using hx
  | succ n ih =>
    intro queue vis members hq x hx
    match queue with
    | [] => left; simpa [distLoop_nil] using hx
    | current :: qrest =>
      rw [distLoop_cons] at hx
      have hcur := hq current (List.mem_cons_self _ _)
      have hlink : ∀ e ∈ (distAccept current (neighborsFromGrid els current) vis).2,
          distLink els current e := by
        intro e he
        obtain ⟨hmem, hfresh, hf, hp⟩ := distAccept_accepted current _ vis e he
        obtain ⟨hin, hg1, hg2, hg3, hg4⟩ := mem_neighborsFromGrid.mp hmem
        refine ⟨hcur.1, hin, ?_, hg1, hg2, hg3, hg4, hf, hp⟩
        intro heq
        exact hfresh (heq ▸ hcur.2)
      have hq' : ∀ q ∈ qrest ++ (distAccept current (neighborsFromGrid els current) vis).2,
          q ∈ els ∧ q.externalId ∈ (distAccept current (neighborsFromGrid els current) vis).1 := by
        intro q hqm
        rcases List.mem_append.mp hqm with h | h
        · obtain ⟨hi, hv⟩ := hq q (List.mem_cons_of_mem _ h)
          refine ⟨hi, ?_⟩
          rw [distAccept_vis]
          simp [hv]
        · refine ⟨(hlink q h).2.1, ?_⟩
          rw [distAccept_vis]
          simp only [List.mem_append]
          exact Or.inr (List.mem_map_of_mem _ h)
      rcases ih _ _ _ hq' x hx with h | ⟨q, hqm, e, hei, hre, hex⟩
      · rw [distAccept_vis] at h
        rcases List.mem_append.mp h with h' | h'
        · exact Or.inl h'
        · obtain ⟨e, he, hex⟩ := List.mem_map.mp h'
          exact Or.inr ⟨current, List.mem_cons_self _ _, e, (hlink e he).2.1,
            Relation.ReflTransGen.single (hlink e he), hex⟩
      · rcases List.mem_append.mp hqm with h' | h'
        · exact Or.inr ⟨q, List.mem_cons_of_mem _ h', e, hei, hre, hex⟩
        · exact Or.inr ⟨current, List.mem_cons_self _ _, e, hei,
            Relation.ReflTransGen.trans (Relation.ReflTransGen.single (hlink q h')) hre, hex⟩

lemma distLoop_closure (els : List Element)
    (hnodup : (els.map (·.externalId)).Nodup) :
    ∀ (fuel : Nat) (queue : List Element) (vis : List String) (members : List Element),
    (∀ q ∈ queue, q ∈ els ∧ q.externalId ∈ vis) →
    (∀ e ∈ els, e.externalId ∈ vis →
      ((∃ q ∈ queue, q.externalId = e.externalId) ∨
       ∀ b, distLink els e b → b.externalId ∈ vis)) →
    (∀ e ∈ els, e.externalId ∈ (distLoop els fuel queue vis members).2.1 →
      ((∃ q ∈ (distLoop els fuel queue vis members).1, q.externalId = e.externalId) ∨
       ∀ b, distLink els e b → b.externalId ∈ (distLoop els fuel queue vis members).2.1)) := by
  intro fuel
  induction fuel with
  | zero =>
    intro queue vis members _ hcl e hei hev
    simp only [distLoop_zero] at hev ⊢
    exact hcl e hei hev
  | succ n ih =>
    intro queue vis members hq hcl e hei hev
    match queue with
    | [] =>
      simp only [distLoop_nil] at hev ⊢
      rcases hcl e hei hev with ⟨q, hqm, _⟩ | h
      · cases hqm
      · exact Or.inr h
    | current :: qrest =>
      rw [distLoop_cons] at hev ⊢
      have hcur := hq current (List.mem_cons_self _ _)
      refine ih _ _ _ ?_ ?_ e hei hev
      · intro q hqm
        rcases List.mem_append.mp hqm with h | h
        · obtain ⟨hi, hv⟩ := hq q (List.mem_cons_of_mem _ h)
          refine ⟨hi, ?_⟩
          rw [distAccept_vis]
          simp [hv]
        · obtain ⟨hmem, _, _, _⟩ := distAccept_accepted current _ vis q h
          refine ⟨(mem_neighborsFromGrid.mp hmem).1, ?_⟩
          rw [distAccept_vis]
          simp only [List.mem_append]
          exact Or.inr (List.mem_map_of_mem _ h)
      · intro f hfi hfv
        rw [distAccept_vis] at hfv
        rcases List.mem_append.mp hfv with hfold | hfnew
        · -- f was already visited before this step
          rcases hcl f hfi hfold with ⟨q, hqm, hqe⟩ | hclf
          · rcases List.mem_cons.mp hqm with heq | hqrest
            · -- f's id matched the popped element: its neighbors are now all visited
              right
              intro b hb
              have hfq : f = current := by
                apply List.inj_on_of_nodup_map hnodup hfi hcur.1
                rw [← hqe, heq]
              rw [hfq] at hb
              obtain ⟨_, hbi, hbne, hg1, hg2, hg3, hg4, hbf, hbp⟩ := hb
              have hbcand : b ∈ neighborsFromGrid els current :=
                mem_neighborsFromGrid.mpr ⟨hbi, hg1, hg2, hg3, hg4⟩
              exact distAccept_complete current _ vis b hbcand hbf hbp
            · exact Or.inl ⟨q, List.mem_append_left _ hqrest, hqe⟩
          · right
            intro b hb
            rw [distAccept_vis]
            simp [hclf b hb]
        · -- f's id was accepted in this step: f is in the new queue
          obtain ⟨g, hg, hge⟩ := List.mem_map.mp hfnew
          left
          exact ⟨g, List.mem_append_right _ hg, hge⟩

lemma distLink_symm (els : List Element) : Symmetric (distLink els) := by
  rintro a b ⟨ha, hb, hne, h1, h2, h3, h4, hf, hp⟩
  refine ⟨hb, ha, fun h => hne h.symm, by omega, by omega, by omega, by omega, ?_, ?_⟩
  · unfold fastSep at hf ⊢
    rw [abs_sub_comm (centerX b), abs_sub_comm (centerY b)]
    exact hf
  · unfold pdLtOne pdThreshold at hp ⊢
    have h1 : (centerX b - centerX a) ^ 2 = (centerX a - centerX b) ^ 2 := by ring
    have h2 : (centerY b - centerY a) ^ 2 = (centerY a - centerY b) ^ 2 := by ring
    rw [h1, h2]
    have h3 : b.w + b.h + (a.w + a.h) = a.w + a.h + (b.w + b.h) := by ring
    rw [h3]
    exact hp

lemma distReach_closed {els : List Element} {vis : List String}
    (hclosed : ∀ e ∈ els, e.externalId ∈ vis → ∀ b, distLink els e b → b.externalId ∈ vis)
    {z w : Element} (hreach : distReach els z w) (hz : z.externalId ∈ vis) :
    w.externalId ∈ vis := by
  induction hreach with
  | refl => exact hz
  | tail hr hstep ih => exact hclosed _ hstep.1 (ih) _ hstep

lemma distLoop_terminates (els : List Element) :
    ∀ (fuel : Nat) (queue : List Element) (vis : List String) (members : List Element),
    vis.Nodup →
    queue.length + ((els.map (·.externalId)).toFinset \ vis.toFinset).card ≤ fuel →
    (distLoop els fuel queue vis members).1 = [] := by
  intro fuel
  induction fuel with
  | zero =>
    intro queue vis members _ hb
    have : queue.length = 0 := by omega
    rw [List.length_eq_zero] at this
    subst this
    rfl
  | succ n ih =>
    intro queue vis members hnv hb
    match queue with
    | [] => rw [distLoop_nil]
    | current :: qrest =>
      rw [distLoop_cons]
      have hvis' := distAccept_vis current (neighborsFromGrid els current) vis
      have hnv' : (distAccept current (neighborsFromGrid els current) vis).1.Nodup :=
        distAccept_vis_nodup current _ vis hnv
      set acc := (distAccept current (neighborsFromGrid els current) vis).2 with hacc
      have haccels : ∀ e ∈ acc, e.externalId ∈ (els.map (·.externalId)) := by
        intro e he
        obtain ⟨hmem, _, _, _⟩ := distAccept_accepted current _ vis e he
        exact List.mem_map_of_mem _ (mem_neighborsFromGrid.mp hmem).1
      have haccfresh : ∀ e ∈ acc, e.externalId ∉ vis := by
        intro e he
        exact (distAccept_accepted current _ vis e he).2.1
      have haccnodup : (acc.map (·.externalId)).Nodup := by
        have := hnv'
        rw [hvis'] at this
        exact (List.nodup_append.mp this).2.1
      have hsub : (acc.map (·.externalId)).toFinset ⊆
          (els.map (·.externalId)).toFinset \ vis.toFinset := by
        intro z hz
        rw [List.mem_toFinset] at hz
        obtain ⟨e, he, rfl⟩ := List.mem_map.mp hz
        rw [Finset.mem_sdiff, List.mem_toFinset, List.mem_toFinset]
        exact ⟨haccels e he, haccfresh e he⟩
      have hcard : ((els.map (·.externalId)).toFinset \
          (distAccept current (neighborsFromGrid els current) vis).1.toFinset).card
          = ((els.map (·.externalId)).toFinset \ vis.toFinset).card - acc.length := by
        rw [hvis']
        have hsetsplit : (els.map (·.externalId)).toFinset \ (vis ++ acc.map (·.externalId)).toFinset
            = ((els.map (·.externalId)).toFinset \ vis.toFinset) \ (acc.map (·.externalId)).toFinset := by
          ext z
          simp only [Finset.mem_sdiff, List.mem_toFinset, List.mem_append]
          tauto
        rw [hsetsplit, Finset.card_sdiff hsub]
        congr 1
        rw [List.toFinset_card_of_nodup haccnodup, List.length_map]
      refine ih _ _ _ hnv' ?_
      rw [List.length_append, hcard]
      simp only [List.length_cons] at hb
      have hlen : acc.length ≤ ((els.map (·.externalId)).toFinset \ vis.toFinset).card := by
        calc acc.length = (acc.map (·.externalId)).length := (List.length_map _ _).symm
          _ = (acc.map (·.externalId)).toFinset.card :=
              (List.toFinset_card_of_nodup haccnodup).symm
          _ ≤ _ := Finset.card_le_card hsub
      omega

lemma distLoop_members_spec (els : List Element)
    (hnodup : (els.map (·.externalId)).Nodup) :
    ∀ (fuel : Nat) (queue : List Element) (vis : List String) (members : List Element),
    (∀ e ∈ members, e ∈ els ∧ e.externalId ∈ vis) →
    (members.map (·.externalId)).Nodup → vis.Nodup →
    ((∀ e ∈ (distLoop els fuel queue vis members).2.2,
        e ∈ els ∧ e.externalId ∈ (distLoop els fuel queue vis members).2.1) ∧
     ((distLoop els fuel queue vis members).2.2.map (·.externalId)).Nodup ∧
     (distLoop els fuel queue vis members).2.1.Nodup ∧
     (∀ e, e ∈ (distLoop els fuel queue vis members).2.2 ↔ e ∈ members ∨
        (e ∈ els ∧ e.externalId ∈ (distLoop els fuel queue vis members).2.1 ∧
         e.externalId ∉ vis))) := by
  intro fuel
  induction fuel with
  | zero =>
    intro queue vis members hm hmn hnv
    simp only [distLoop_zero]
    refine ⟨hm, hmn, hnv, fun e => ?_⟩
    constructor
    · exact fun h => Or.inl h
    · rintro (h | ⟨_, hv, hnvv⟩)
      · exact h
      · exact absurd hv hnvv
  | succ n ih =>
    intro queue vis members hm hmn hnv
    match queue with
    | [] =>
      simp only [distLoop_nil]
      refine ⟨hm, hmn, hnv, fun e => ?_⟩
      constructor
      · exact fun h => Or.inl h
      · rintro (h | ⟨_, hv, hnvv⟩)
        · exact h
        · exact absurd hv hnvv
    | current :: qrest =>
      rw [distLoop_cons]
      have hvis' := distAccept_vis current (neighborsFromGrid els current) vis
      have hnv' : (distAccept current (neighborsFromGrid els current) vis).1.Nodup :=
        distAccept_vis_nodup current _ vis hnv
      set acc := (distAccept current (neighborsFromGrid els current) vis).2 with hacc
      have haccmem : ∀ e ∈ acc, e ∈ els ∧ e.externalId ∉ vis := by
        intro e he
        obtain ⟨hmem, hfr, _, _⟩ := distAccept_accepted current _ vis e he
        exact ⟨(mem_neighborsFromGrid.mp hmem).1, hfr⟩
      have haccnodup : (acc.map (·.externalId)).Nodup := by
        have := hnv'
        rw [hvis'] at this
        exact (List.nodup_append.mp this).2.1
      have hm' : ∀ e ∈ members ++ acc, e ∈ els ∧
          e.externalId ∈ (distAccept current (neighborsFromGrid els current) vis).1 := by
        intro e he
        rcases List.mem_append.mp he with h | h
        · obtain ⟨hi, hv⟩ := hm e h
          exact ⟨hi, by rw [hvis']; simp [hv]⟩
        · exact ⟨(haccmem e h).1, by
            rw [hvis']
            simp only [List.mem_append]
            exact Or.inr (List.mem_map_of_mem _ h)⟩
      have hmn' : ((members ++ acc).map (·.externalId)).Nodup := by
        rw [List.map_append, List.nodup_append]
        refine ⟨hmn, haccnodup, ?_⟩
        intro z hz hz2
        obtain ⟨e, he, rfl⟩ := List.mem_map.mp hz
        obtain ⟨g, hg, hge⟩ := List.mem_map.mp hz2
        exact (haccmem g hg).2 (hge ▸ (hm e he).2)
      obtain ⟨rc, rn, rv, riff⟩ := ih _ _ _ hm' hmn' hnv'
      refine ⟨rc, rn, rv, fun e => ?_⟩
      rw [riff e]
      constructor
      · rintro (h | ⟨hi, hv, hnvv⟩)
        · rcases List.mem_append.mp h with h' | h'
          · exact Or.inl h'
          · refine Or.inr ⟨(haccmem e h').1, ?_, (haccmem e h').2⟩
            apply distLoop_vis_mono
            rw [hvis']
            simp only [List.mem_append]
            exact Or.inr (List.mem_map_of_mem _ h')
        · refine Or.inr ⟨hi, hv, fun hin => hnvv (by rw [hvis']; simp [hin])⟩
      · rintro (h | ⟨hi, hv, hnvv⟩)
        · exact Or.inl (List.mem_append_left _ h)
        · by_cases hin : e.externalId ∈ (distAccept current (neighborsFromGrid els current) vis).1
          · rw [hvis'] at hin
            rcases List.mem_append.mp hin with h' | h'
            · exact absurd h' hnvv
            · obtain ⟨g, hg, hge⟩ := List.mem_map.mp h'
              have : g = e := List.inj_on_of_nodup_map hnodup (haccmem g hg).1 hi hge
              exact Or.inl (List.mem_append_right _ (this ▸ hg))
          · exact Or.inr ⟨hi, hv, hin⟩

lemma distTraverse_spec (els : List Element)
    (hnodup : (els.map (·.externalId)).Nodup)
    (hlen : els.length ≤ MAX_ITERS)
    (seed : Element) (hseed : seed ∈ els) (vis : List String)
    (hclosed : ∀ e ∈ els, e.externalId ∈ vis → ∀ b, distLink els e b → b.externalId ∈ vis)
    (hfresh : seed.externalId ∉ vis)
    (hnv : vis.Nodup) :
    (distLoop els MAX_ITERS [seed] (vis ++ [seed.externalId]) [seed]).1 = [] ∧
    (∀ x, x ∈ (distLoop els MAX_ITERS [seed] (vis ++ [seed.externalId]) [seed]).2.1 ↔
      x ∈ vis ∨ ∃ e ∈ els, distReach els seed e ∧ e.externalId = x) ∧
    (distLoop els MAX_ITERS [seed] (vis ++ [seed.externalId]) [seed]).2.1.Nodup ∧
    (∀ e, e ∈ (distLoop els MAX_ITERS [seed] (vis ++ [seed.externalId]) [seed]).2.2 ↔
      e ∈ els ∧ distReach els seed e) := by
  have hseedv : seed.externalId ∈ vis ++ [seed.externalId] := by simp
  have hnv0 : (vis ++ [seed.externalId]).Nodup := by
    rw [List.nodup_append]
    refine ⟨hnv, List.nodup_singleton _, ?_⟩
    intro a ha hb
    rw [List.mem_singleton] at hb
    subst hb
    exact hfresh ha
  have hq0 : ∀ q ∈ [seed], q ∈ els ∧ q.externalId ∈ vis ++ [seed.externalId] := by
    intro q hq
    rw [List.mem_singleton] at hq
    subst hq
    exact ⟨hseed, hseedv⟩
  have hterm : (distLoop els MAX_ITERS [seed] (vis ++ [seed.externalId]) [seed]).1 = [] := by
    apply distLoop_terminates els MAX_ITERS _ _ _ hnv0
    have hseedid : seed.externalId ∈ (els.map (·.externalId)).toFinset := by
      rw [List.mem_toFinset]
      exact List.mem_map_of_mem _ hseed
    have hsub : (els.map (·.externalId)).toFinset \ (vis ++ [seed.externalId]).toFinset ⊆
        (els.map (·.externalId)).toFinset.erase seed.externalId := by
      intro z hz
      rw [Finset.mem_sdiff] at hz
      rw [Finset.mem_erase]
      refine ⟨?_, hz.1⟩
      intro hzz
      apply hz.2
      rw [List.mem_toFinset, hzz]
      exact hseedv
    have hcard : ((els.map (·.externalId)).toFinset \
        (vis ++ [seed.externalId]).toFinset).card ≤ els.length - 1 := by
      calc ((els.map (·.externalId)).toFinset \ (vis ++ [seed.externalId]).toFinset).card
          ≤ ((els.map (·.externalId)).toFinset.erase seed.externalId).card :=
            Finset.card_le_card hsub
        _ = (els.map (·.externalId)).toFinset.card - 1 :=
            Finset.card_erase_of_mem hseedid
        _ ≤ (els.map (·.externalId)).length - 1 := by
            have := (els.map (·.externalId)).toFinset_card_le
            omega
        _ = els.length - 1 := by rw [List.length_map]
    have hpos : 0 < els.length := List.length_pos_of_mem hseed
    simp only [List.length_cons, List.length_nil]
    omega
  have hreach_notvis : ∀ e, distReach els seed e → e.externalId ∉ vis := by
    intro e hre hv
    exact hfresh (distReach_closed hclosed
      (Relation.ReflTransGen.symmetric (distLink_symm els) hre) hv)
  obtain ⟨rc, rn, rv, riff⟩ :=
    distLoop_members_spec els hnodup MAX_ITERS [seed] (vis ++ [seed.externalId]) [seed]
      hq0 (by simp) hnv0
  have hvis_fwd : ∀ x, x ∈ (distLoop els MAX_ITERS [seed]
      (vis ++ [seed.externalId]) [seed]).2.1 →
      x ∈ vis ∨ ∃ e ∈ els, distReach els seed e ∧ e.externalId = x := by
    intro x hx
    rcases distLoop_vis_sound els MAX_ITERS [seed] (vis ++ [seed.externalId]) [seed]
        hq0 x hx with hv | ⟨q, hq, e, he, hre, hex⟩
    · rcases List.mem_append.mp hv with hv' | hv'
      · exact Or.inl hv'
      · rw [List.mem_singleton] at hv'
        exact Or.inr ⟨seed, hseed, Relation.ReflTransGen.refl, hv'.symm⟩
    · rw [List.mem_singleton] at hq
      subst hq
      exact Or.inr ⟨e, he, hre, hex⟩
  have hclosedF : ∀ f ∈ els,
      f.externalId ∈ (distLoop els MAX_ITERS [seed] (vis ++ [seed.externalId]) [seed]).2.1 →
      ∀ b, distLink els f b →
        b.externalId ∈ (distLoop els MAX_ITERS [seed] (vis ++ [seed.externalId]) [seed]).2.1 := by
    have hcl0 : ∀ e ∈ els, e.externalId ∈ vis ++ [seed.externalId] →
        ((∃ q ∈ [seed], q.externalId = e.externalId) ∨
         ∀ b, distLink els e b → b.externalId ∈ vis ++ [seed.externalId]) := by
      intro e he hev
      rcases List.mem_append.mp hev with hv' | hv'
      · exact Or.inr (fun b hb => List.mem_append_left _ (hclosed e he hv' b hb))
      · rw [List.mem_singleton] at hv'
        exact Or.inl ⟨seed, List.mem_singleton_self _, hv'.symm⟩
    intro f hf hfv b hlink
    rcases distLoop_closure els hnodup MAX_ITERS [seed] (vis ++ [seed.externalId]) [seed]
        hq0 hcl0 f hf hfv with ⟨q, hq, _⟩ | hcl
    · rw [hterm] at hq
      cases hq
    · exact hcl b hlink
  have hvis_iff : ∀ x, x ∈ (distLoop els MAX_ITERS [seed]
      (vis ++ [seed.externalId]) [seed]).2.1 ↔
      x ∈ vis ∨ ∃ e ∈ els, distReach els seed e ∧ e.externalId = x := by
    intro x
    refine ⟨hvis_fwd x, ?_⟩
    rintro (hv | ⟨e, he, hre, rfl⟩)
    · exact distLoop_vis_mono els MAX_ITERS _ _ _ _ (List.mem_append_left _ hv)
    · exact distReach_closed hclosedF hre
        (distLoop_vis_mono els MAX_ITERS _ _ _ _ hseedv)
  refine ⟨hterm, hvis_iff, rv, fun e => ?_⟩
  rw [riff e]
  constructor
  · rintro (h | ⟨hi, hv, hnvv⟩)
    · rw [List.mem_singleton] at h
      subst h
      exact ⟨hseed, Relation.ReflTransGen.refl⟩
    · rcases (hvis_iff e.externalId).mp hv with hv' | ⟨f, hf, hrf, hfe⟩
      · exact absurd (List.mem_append_left _ hv') hnvv
      · have : f = e := List.inj_on_of_nodup_map hnodup hf hi hfe
        exact ⟨hi, this ▸ hrf⟩
  · rintro ⟨hi, hre⟩
    by_cases hes : e = seed
    · exact Or.inl (by rw [hes]; exact List.mem_singleton_self _)
    · refine Or.inr ⟨hi, (hvis_iff e.externalId).mpr (Or.inr ⟨e, hi, hre, rfl⟩), ?_⟩
      intro hin
      rcases List.mem_append.mp hin with hv' | hv'
      · exact hreach_notvis e hre hv'
      · rw [List.mem_singleton] at hv'
        exact hes (List.inj_on_of_nodup_map hnodup hi hseed hv')

lemma distReach_congr (els : List Element) {v x : Element} (hvx : distReach els v x) :
    ∀ z, distReach els x z ↔ distReach els v z := by
  intro z
  constructor
  · exact fun h => hvx.trans h
  · exact fun h => (Relation.ReflTransGen.symmetric (distLink_symm els) hvx).trans h

/-- A distance cluster is exactly one link-connectivity class. -/
def distClusterChar (els : List Element) (v : Element) (c : List Element) : Prop :=
  ∀ f, f ∈ c ↔ f ∈ els ∧ distReach els v f

/-- Invariant carried through the outer distance loop. -/
def DistInv (els : List Element) (vis : List String)
    (clusters : List (List Element)) : Prop :=
  (∀ e ∈ els, e.externalId ∈ vis → ∀ b, distLink els e b → b.externalId ∈ vis) ∧
  vis.Nodup ∧
  (∀ e ∈ els, e.externalId ∈ vis →
    (∃ e' ∈ els, distReach els e e' ∧ ¬ e'.externalId = e.externalId) →
    ∃ c ∈ clusters, distClusterChar els e c)

lemma distOuter_fold (els : List Element)
    (hnodup : (els.map (·.externalId)).Nodup)
    (hlen : els.length ≤ MAX_ITERS) :
    ∀ (ls : List Element), (∀ v ∈ ls, v ∈ els) →
    ∀ (vis : List String) (clusters : List (List Element)),
    DistInv els vis clusters →
    DistInv els (ls.foldl (distOuterStep els) (vis, clusters)).1
      (ls.foldl (distOuterStep els) (vis, clusters)).2 ∧
    (∀ x ∈ vis, x ∈ (ls.foldl (distOuterStep els) (vis, clusters)).1) ∧
    (∀ c ∈ clusters, c ∈ (ls.foldl (distOuterStep els) (vis, clusters)).2) ∧
    (∀ v ∈ ls, v.externalId ∈ (ls.foldl (distOuterStep els) (vis, clusters)).1) := by
  intro ls
  induction ls with
  | nil =>
    intro _ vis clusters hinv
    exact ⟨hinv, fun x hx => hx, fun c hc => hc, fun v hv => absurd hv (by simp)⟩
  | cons v ls ih =>
    intro hls vis clusters hinv
    obtain ⟨hI1, hI2, hI3⟩ := hinv
    rw [List.foldl_cons]
    by_cases hvq : v.externalId ∈ vis
    · have hstep : distOuterStep els (vis, clusters) v = (vis, clusters) := by
        unfold distOuterStep
        rw [if_pos (by simpa using hvq)]
      rw [hstep]
      obtain ⟨hinv', hmono', hcl', hproc'⟩ :=
        ih (fun w hw => hls w (List.mem_cons_of_mem v hw)) vis clusters ⟨hI1, hI2, hI3⟩
      refine ⟨hinv', hmono', hcl', ?_⟩
      intro w hw
      rcases List.mem_cons.mp hw with rfl | hw'
      · exact hmono' _ hvq
      · exact hproc' w hw'
    · have hvels : v ∈ els := hls v (List.mem_cons_self v ls)
      obtain ⟨hterm, hvisiff, hnodvis, hcompiff⟩ :=
        distTraverse_spec els hnodup hlen v hvels vis hI1 hvq hI2
      have hvismono : ∀ x ∈ vis,
          x ∈ (distLoop els MAX_ITERS [v] (vis ++ [v.externalId]) [v]).2.1 :=
        fun x hx => (hvisiff x).mpr (Or.inl hx)
      have hI1' : ∀ e ∈ els,
          e.externalId ∈ (distLoop els MAX_ITERS [v] (vis ++ [v.externalId]) [v]).2.1 →
          ∀ b, distLink els e b →
            b.externalId ∈ (distLoop els MAX_ITERS [v] (vis ++ [v.externalId]) [v]).2.1 := by
        intro e he hev b hb
        rcases (hvisiff e.externalId).mp hev with h | ⟨f, hf, hrf, hfe⟩
        · exact hvismono _ (hI1 e he h b hb)
        · have hfeq : f = e := List.inj_on_of_nodup_map hnodup hf he hfe
          subst hfeq
          exact (hvisiff b.externalId).mpr
            (Or.inr ⟨b, hb.2.1, Relation.ReflTransGen.tail hrf hb, rfl⟩)
      have hclusters' : ∀ cl,
          (cl = (if (distLoop els MAX_ITERS [v] (vis ++ [v.externalId]) [v]).2.2.length > 1
            then clusters ++ [(distLoop els MAX_ITERS [v] (vis ++ [v.externalId]) [v]).2.2]
            else clusters)) →
          (∀ c ∈ clusters, c ∈ cl) ∧
          (∀ e, distReach els v e → e ∈ els →
            (∃ e' ∈ els, distReach els e e' ∧ ¬ e'.externalId = e.externalId) →
            ∃ c ∈ cl, distClusterChar els e c) := by
        intro cl hcl
        by_cases hlen1 :
            (distLoop els MAX_ITERS [v] (vis ++ [v.externalId]) [v]).2.2.length > 1
        · rw [if_pos hlen1] at hcl
          subst hcl
          refine ⟨fun c hc => List.mem_append_left _ hc, ?_⟩
          intro e hve he _
          refine ⟨(distLoop els MAX_ITERS [v] (vis ++ [v.externalId]) [v]).2.2,
            List.mem_append_right _ (by simp), ?_⟩
          intro f
          rw [hcompiff f]
          constructor
          · rintro ⟨hfi, hvf⟩
            exact ⟨hfi, ((distReach_congr els hve f).mpr hvf)⟩
          · rintro ⟨hfi, hef⟩
            exact ⟨hfi, (distReach_congr els hve f).mp hef⟩
        · rw [if_neg hlen1] at hcl
          subst hcl
          refine ⟨fun c hc => hc, ?_⟩
          intro e hve he ⟨e', he', hre', hne⟩
          exfalso
          have hem : e ∈ (distLoop els MAX_ITERS [v] (vis ++ [v.externalId]) [v]).2.2 :=
            (hcompiff e).mpr ⟨he, hve⟩
          have hem' : e' ∈ (distLoop els MAX_ITERS [v] (vis ++ [v.externalId]) [v]).2.2 :=
            (hcompiff e').mpr ⟨he', hve.trans hre'⟩
          have hnee : e ≠ e' := fun h => hne (by rw [h])
          exact absurd (one_lt_length_of_two_mem hem hem' hnee) hlen1
      obtain ⟨hcmono', hc5'⟩ := hclusters' _ rfl
      have hI3' : ∀ e ∈ els,
          e.externalId ∈ (distLoop els MAX_ITERS [v] (vis ++ [v.externalId]) [v]).2.1 →
          (∃ e' ∈ els, distReach els e e' ∧ ¬ e'.externalId = e.externalId) →
          ∃ c ∈ (if (distLoop els MAX_ITERS [v] (vis ++ [v.externalId]) [v]).2.2.length > 1
            then clusters ++ [(distLoop els MAX_ITERS [v] (vis ++ [v.externalId]) [v]).2.2]
            else clusters), distClusterChar els e c := by
        intro e he hev hpair
        rcases (hvisiff e.externalId).mp hev with h | ⟨f, hf, hrf, hfe⟩
        · obtain ⟨c, hc, hchar⟩ := hI3 e he h hpair
          exact ⟨c, hcmono' c hc, hchar⟩
        · have hfeq : f = e := List.inj_on_of_nodup_map hnodup hf he hfe
          subst hfeq
          exact hc5' f hrf hf hpair
      have hstep : distOuterStep els (vis, clusters) v
          = ((distLoop els MAX_ITERS [v] (vis ++ [v.externalId]) [v]).2.1,
             if (distLoop els MAX_ITERS [v] (vis ++ [v.externalId]) [v]).2.2.length > 1
             then clusters ++ [(distLoop els MAX_ITERS [v] (vis ++ [v.externalId]) [v]).2.2]
             else clusters) := by
        unfold distOuterStep
        rw [if_neg (by simpa using hvq)]
      rw [hstep]
      obtain ⟨hinv', hmono', hcl', hproc'⟩ :=
        ih (fun w hw => hls w (List.mem_cons_of_mem v hw)) _ _
          ⟨hI1', hnodvis, hI3'⟩
      refine ⟨hinv', fun x hx => hmono' x (hvismono x hx),
        fun c hc => hcl' c (hcmono' c hc), ?_⟩
      intro w hw
      rcases List.mem_cons.mp hw with rfl | hw'
      · exact hmono' _ ((hvisiff w.externalId).mpr
          (Or.inr ⟨w, hvels, Relation.ReflTransGen.refl, rfl⟩))
      · exact hproc' w hw'

/-- C2 (amended): the claimed BFS transitivity does hold once the link
relation is the one the BFS actually realizes — same or adjacent grid cell
(300×300, by top-left corner), quick-reject filter passed, and proportional
distance below 1 — rather than bare proportional distance: if A–B and B–C are
such links, A and C end up in the same distance cluster, for inputs with
distinct external ids and at most `MAX_ITERS` elements. -/
theorem C2_distance_links_are_transitively_clustered (els : List Element)
    (hnodup : (els.map (·.externalId)).Nodup)
    (hlen : els.length ≤ MAX_ITERS)
    (A B C : Element) (hAB : distLink els A B) (hBC : distLink els B C) :
    ∃ c ∈ distanceClustersCalc els, A ∈ c ∧ C ∈ c := by
  have hA : A ∈ els := hAB.1
  obtain ⟨⟨hI1, hI2, hI3⟩, _, _, hproc⟩ :=
    distOuter_fold els hnodup hlen els (fun v hv => hv) [] []
      ⟨fun e _ hev => absurd hev (by simp), by simp,
       fun e _ hev => absurd hev (by simp)⟩
  have hAvis : A.externalId ∈ (els.foldl (distOuterStep els) ([], [])).1 := hproc A hA
  have hpair : ∃ e' ∈ els, distReach els A e' ∧ ¬ e'.externalId = A.externalId := by
    refine ⟨B, hAB.2.1, Relation.ReflTransGen.single hAB, fun h => hAB.2.2.1 h.symm⟩
  obtain ⟨c, hc, hchar⟩ := hI3 A hA hAvis hpair
  have hcalc : distanceClustersCalc els = (els.foldl (distOuterStep els) ([], [])).2 := rfl
  rw [hcalc]
  exact ⟨c, hc, (hchar A).mpr ⟨hA, Relation.ReflTransGen.refl⟩,
    (hchar C).mpr ⟨hBC.2.1,
      Relation.ReflTransGen.tail (Relation.ReflTransGen.single hAB) hBC⟩⟩

instance : ∀ (els : List Element) (a b : Element), Decidable (distLink els a b) :=
  fun els a b => by unfold distLink; infer_instance

def c2X : Element :=
  { externalId := "X", id := "1", kind := "rectangle", x := 0, y := 0, w := 100, h := 100 }

def c2Y : Element :=
  { externalId := "Y", id := "2", kind := "rectangle", x := 120, y := 0, w := 100, h := 100 }

def c2Z : Element :=
  { externalId := "Z", id := "3", kind := "rectangle", x := 240, y := 0, w := 100, h := 100 }

theorem C2_distance_links_are_transitively_clustered_witness :
    ([c2X, c2Y, c2Z].map (·.externalId)).Nodup ∧
    ([c2X, c2Y, c2Z] : List Element).length ≤ MAX_ITERS ∧
    distLink [c2X, c2Y, c2Z] c2X c2Y ∧ distLink [c2X, c2Y, c2Z] c2Y c2Z ∧
    ∃ c ∈ distanceClustersCalc [c2X, c2Y, c2Z], c2X ∈ c ∧ c2Z ∈ c :=
  ⟨by with_unfolding_all decide, by with_unfolding_all decide,
   by with_unfolding_all decide, by with_unfolding_all decide,
   C2_distance_links_are_transitively_clustered [c2X, c2Y, c2Z]
     (by with_unfolding_all decide) (by with_unfolding_all decide)
     c2X c2Y c2Z (by with_unfolding_all decide) (by with_unfolding_all decide)⟩

/-! ### Semantic clustering (POST /api/clusters, semantic pass)

The route embeds each text element (an external async call), keeps the
elements whose embedding is a nonempty array, buckets them by the first 16
dimensions quantized to 0.25 steps, and runs a greedy absorption loop per
bucket with one global `clustered` id set.  The embedding service is modeled
as data: each input carries its embedding vector. -/

structure EmbItem where
  element : Element
  embedding : List ℚ
  deriving Repr, DecidableEq

/-- `dotProduct` / `normA` / `normB` accumulation of `cosineSimilarity`
(for equal-length vectors the loop covers exactly the zipped pairs). -/
def dotQ (a b : List ℚ) : ℚ :=
  (a.zip b).foldl (fun s p => s + p.1 * p.2) 0

/-- `cosineSimilarity(a, b) >= 0.75`, square-root-free: mismatched lengths or
a zero norm yield similarity 0 (below the threshold); otherwise
`dot/(sqrt(nA)*sqrt(nB)) >= 3/4` iff the dot product is nonnegative and
`16*dot^2 >= 9*nA*nB`. -/
def simGe (a b : List ℚ) : Prop :=
  a.length = b.length ∧ ¬ dotQ a a = 0 ∧ ¬ dotQ b b = 0 ∧
  0 ≤ dotQ a b ∧ 9 * (dotQ a a * dotQ b b) ≤ 16 * dotQ a b ^ 2

instance : ∀ a b, Decidable (simGe a b) := fun a b => by unfold simGe; infer_instance

/-- `vec.slice(0, Math.min(16, vec.length)).map(v => Math.round(v * 4) / 4)`;
the rounded values `k/4` are kept as the integers `k` (the JS key joins their
decimal strings with `","`, which is injective in this data). -/
def bucketKey (v : List ℚ) : List ℤ :=
  (v.take 16).map (fun x => ⌊x * 4 + 1 / 2⌋)

/-- `bucketMap` insertion: append to the existing key's array, else add a new
key at the end (JS `Map` preserves key insertion order). -/
def bucketInsert : List (List ℤ × List EmbItem) → List ℤ → EmbItem →
    List (List ℤ × List EmbItem)
  | [], k, it => [(k, [it])]
  | (k', l) :: rest, k, it =>
    if k' = k then (k', l ++ [it]) :: rest else (k', l) :: bucketInsert rest k it

def bucketsOf (items : List EmbItem) : List (List ℤ × List EmbItem) :=
  items.foldl (fun m it => bucketInsert m (bucketKey it.embedding) it) []

/-- The inner `j` loop: absorb each later unclustered bucket-mate whose
similarity to the base (`bucket[i]`) meets the threshold. -/
def semInner (base : EmbItem) :
    List EmbItem → List String → List Element → List String × List Element
  | [], clustered, members => (clustered, members)
  | cand :: rest, clustered, members =>
    if clustered.contains cand.element.externalId then
      semInner base rest clustered members
    else if simGe base.embedding cand.embedding then
      semInner base rest (clustered ++ [cand.element.externalId])
        (members ++ [cand.element])
    else semInner base rest clustered members

/-- The outer `i` loop over one bucket: skip clustered bases, run the inner
scan over the rest of the bucket, keep clusters of size ≥ 2. -/
def semBucketLoop :
    List EmbItem → List String → List (List Element) →
    List String × List (List Element)
  | [], clustered, acc => (clustered, acc)
  | base :: rest, clustered, acc =>
    if clustered.contains base.element.externalId then
      semBucketLoop rest clustered acc
    else
      semBucketLoop rest
        (semInner base rest (clustered ++ [base.element.externalId])
          [base.element]).1
        (if 2 ≤ (semInner base rest (clustered ++ [base.element.externalId])
            [base.element]).2.length
         then acc ++ [(semInner base rest (clustered ++ [base.element.externalId])
            [base.element]).2]
         else acc)

/-- `for (const bucket of bucketMap.values())` with the global `clustered`
set threaded through. -/
def semOuter : List (List ℤ × List EmbItem) → List String → List (List Element) →
    List (List Element)
  | [], _, acc => acc
  | (_, bucket) :: rest, clustered, acc =>
    semOuter rest (semBucketLoop bucket clustered acc).1
      (semBucketLoop bucket clustered acc).2

/-- `semantic_clusters_calc` member lists, from the (element, embedding)
pairs the embedding stage produced. -/
def semanticClustersCalc (items : List EmbItem) : List (List Element) :=
  semOuter (bucketsOf (items.filter (fun it => 0 < it.embedding.length))) [] []

lemma dotQ_self_nonneg (a : List ℚ) : 0 ≤ dotQ a a := by
  have haux : ∀ (l : List ℚ) (s : ℚ), s ≤ (l.zip l).foldl (fun s p => s + p.1 * p.2) s := by
    intro l
    induction l with
    | nil => intro s; simp
    | cons x rest ih =>
      intro s
      simp only [List.zip_cons_cons, List.foldl_cons]
      calc s ≤ s + x * x := by nlinarith [mul_self_nonneg x]
        _ ≤ _ := ih (s + x * x)
  exact haux a 0

lemma simGe_iff_real (a b : List ℚ) :
    simGe a b ↔ (a.length = b.length ∧ ¬ dotQ a a = 0 ∧ ¬ dotQ b b = 0 ∧
      (3 : ℝ) / 4 ≤ ((dotQ a b : ℚ) : ℝ) /
        (Real.sqrt ((dotQ a a : ℚ) : ℝ) * Real.sqrt ((dotQ b b : ℚ) : ℝ))) := by
  unfold simGe
  by_cases hlen : a.length = b.length
  swap
  · simp [hlen]
  by_cases hna : dotQ a a = 0
  · simp [hna]
  by_cases hnb : dotQ b b = 0
  · simp [hnb]
  simp only [hlen, hna, hnb, not_false_iff, true_and]
  have hNA : (0 : ℝ) < ((dotQ a a : ℚ) : ℝ) := by
    have h1 : (0 : ℚ) ≤ dotQ a a := dotQ_self_nonneg a
    have h2 : (0 : ℚ) < dotQ a a := lt_of_le_of_ne h1 (fun h => hna h.symm)
    exact_mod_cast h2
  have hNB : (0 : ℝ) < ((dotQ b b : ℚ) : ℝ) := by
    have h1 : (0 : ℚ) ≤ dotQ b b := dotQ_self_nonneg b
    have h2 : (0 : ℚ) < dotQ b b := lt_of_le_of_ne h1 (fun h => hnb h.symm)
    exact_mod_cast h2
  have hSA : (0 : ℝ) < Real.sqrt ((dotQ a a : ℚ) : ℝ) := Real.sqrt_pos.mpr hNA
  have hSB : (0 : ℝ) < Real.sqrt ((dotQ b b : ℚ) : ℝ) := Real.sqrt_pos.mpr hNB
  have hS : (0 : ℝ) < Real.sqrt ((dotQ a a : ℚ) : ℝ) * Real.sqrt ((dotQ b b : ℚ) : ℝ) :=
    mul_pos hSA hSB
  have hSsq : (Real.sqrt ((dotQ a a : ℚ) : ℝ) * Real.sqrt ((dotQ b b : ℚ) : ℝ)) ^ 2
      = ((dotQ a a : ℚ) : ℝ) * ((dotQ b b : ℚ) : ℝ) := by
    rw [mul_pow, Real.sq_sqrt hNA.le, Real.sq_sqrt hNB.le]
  rw [le_div_iff₀ hS]
  constructor
  · rintro ⟨hd, hsq⟩
    have hdR : (0 : ℝ) ≤ ((dotQ a b : ℚ) : ℝ) := by exact_mod_cast hd
    have hsqR : 9 * (((dotQ a a : ℚ) : ℝ) * ((dotQ b b : ℚ) : ℝ))
        ≤ 16 * ((dotQ a b : ℚ) : ℝ) ^ 2 := by exact_mod_cast hsq
    nlinarith [hS, hSsq, sq_nonneg (((dotQ a b : ℚ) : ℝ)
      - 3 / 4 * (Real.sqrt ((dotQ a a : ℚ) : ℝ) * Real.sqrt ((dotQ b b : ℚ) : ℝ)))]
  · intro h
    have hdR : (0 : ℝ) ≤ ((dotQ a b : ℚ) : ℝ) :=
      le_trans (by positivity) h
    have hsqR : 9 * (((dotQ a a : ℚ) : ℝ) * ((dotQ b b : ℚ) : ℝ))
        ≤ 16 * ((dotQ a b : ℚ) : ℝ) ^ 2 := by nlinarith [hSsq, hS]
    constructor
    · exact_mod_cast hdR
    · exact_mod_cast hsqR

lemma bucketInsert_items :
    ∀ (m : List (List ℤ × List EmbItem)) (k : List ℤ) (it : EmbItem),
    ∀ b ∈ bucketInsert m k it, ∀ x ∈ b.2,
      (∃ b' ∈ m, x ∈ b'.2) ∨ x = it := by
  intro m
  induction m with
  | nil =>
    intro k it b hb x hx
    rw [show b = (k, [it]) from by simpa [bucketInsert] using hb] at hx
    exact Or.inr (by simpa using hx)
  | cons hd rest ih =>
    intro k it b hb x hx
    obtain ⟨k', l⟩ := hd
    unfold bucketInsert at hb
    by_cases hk : k' = k
    · rw [if_pos hk] at hb
      rcases List.mem_cons.mp hb with rfl | hb'
      · rcases List.mem_append.mp hx with h | h
        · exact Or.inl ⟨(k', l), List.mem_cons_self _ _, h⟩
        · exact Or.inr (by simpa using h)
      · exact Or.inl ⟨b, List.mem_cons_of_mem _ hb', hx⟩
    · rw [if_neg hk] at hb
      rcases List.mem_cons.mp hb with rfl | hb'
      · exact Or.inl ⟨(k', l), List.mem_cons_self _ _, hx⟩
      · rcases ih k it b hb' x hx with ⟨b', hb'', hx'⟩ | h
        · exact Or.inl ⟨b', List.mem_cons_of_mem _ hb'', hx'⟩
        · exact Or.inr h

lemma bucketsOf_items (items : List EmbItem) :
    ∀ b ∈ bucketsOf items, ∀ x ∈ b.2, x ∈ items := by
  have haux : ∀ (l : List EmbItem) (S : List EmbItem)
      (m : List (List ℤ × List EmbItem)),
      (∀ b ∈ m, ∀ x ∈ b.2, x ∈ S) → (∀ it ∈ l, it ∈ S) →
      ∀ b ∈ l.foldl (fun m it => bucketInsert m (bucketKey it.embedding) it) m,
      ∀ x ∈ b.2, x ∈ S := by
    intro l
    induction l with
    | nil => intro S m hm _ b hb x hx; exact hm b hb x hx
    | cons it rest ih =>
      intro S m hm hl b hb x hx
      rw [List.foldl_cons] at hb
      refine ih S _ ?_ (fun w hw => hl w (List.mem_cons_of_mem it hw)) b hb x hx
      intro b' hb' y hy
      rcases bucketInsert_items m (bucketKey it.embedding) it b' hb' y hy with
        ⟨b'', hb'', hy'⟩ | heq
      · exact hm b'' hb'' y hy'
      · rw [heq]
        exact hl it (List.mem_cons_self it rest)
  intro b hb x hx
  exact haux items items [] (fun b hb => absurd hb (by simp)) (fun it h => h) b hb x hx

lemma semInner_prefix (base : EmbItem) :
    ∀ (rest : List EmbItem) (clustered : List String) (members : List Element),
    ∃ extra, (semInner base rest clustered members).2 = members ++ extra := by
  intro rest
  induction rest with
  | nil => intro clustered members; exact ⟨[], by simp [semInner]⟩
  | cons cand r ih =>
    intro clustered members
    unfold semInner
    by_cases h1 : clustered.contains cand.element.externalId
    · rw [if_pos h1]; exact ih clustered members
    · rw [if_neg h1]
      by_cases h2 : simGe base.embedding cand.embedding
      · rw [if_pos h2]
        obtain ⟨extra, hex⟩ := ih (clustered ++ [cand.element.externalId])
          (members ++ [cand.element])
        exact ⟨cand.element :: extra, by rw [hex, List.append_assoc]; rfl⟩
      · rw [if_neg h2]; exact ih clustered members

lemma semInner_sound (base : EmbItem) :
    ∀ (rest : List EmbItem) (clustered : List String) (members : List Element),
    ∀ f ∈ (semInner base rest clustered members).2,
      f ∈ members ∨ ∃ it ∈ rest, it.element = f ∧ simGe base.embedding it.embedding := by
  intro rest
  induction rest with
  | nil => intro clustered members f hf; exact Or.inl (by simpa [semInner] using hf)
  | cons cand r ih =>
    intro clustered members f hf
    unfold semInner at hf
    by_cases h1 : clustered.contains cand.element.externalId
    · rw [if_pos h1] at hf
      rcases ih clustered members f hf with h | ⟨it, hit, he, hs⟩
      · exact Or.inl h
      · exact Or.inr ⟨it, List.mem_cons_of_mem _ hit, he, hs⟩
    · rw [if_neg h1] at hf
      by_cases h2 : simGe base.embedding cand.embedding
      · rw [if_pos h2] at hf
        rcases ih _ _ f hf with h | ⟨it, hit, he, hs⟩
        · rcases List.mem_append.mp h with h' | h'
          · exact Or.inl h'
          · exact Or.inr ⟨cand, List.mem_cons_self _ _, (List.mem_singleton.mp h').symm, h2⟩
        · exact Or.inr ⟨it, List.mem_cons_of_mem _ hit, he, hs⟩
      · rw [if_neg h2] at hf
        rcases ih clustered members f hf with h | ⟨it, hit, he, hs⟩
        · exact Or.inl h
        · exact Or.inr ⟨it, List.mem_cons_of_mem _ hit, he, hs⟩

lemma semBucket_sound :
    ∀ (bucket : List EmbItem) (clustered : List String) (acc : List (List Element)),
    ∀ c ∈ (semBucketLoop bucket clustered acc).2,
      c ∈ acc ∨ ∃ base ∈ bucket, c.head? = some base.element ∧ 2 ≤ c.length ∧
        ∀ f ∈ c, f = base.element ∨
          ∃ it ∈ bucket, it.element = f ∧ simGe base.embedding it.embedding := by
  intro bucket
  induction bucket with
  | nil => intro clustered acc c hc; exact Or.inl (by simpa [semBucketLoop] using hc)
  | cons base rest ih =>
    intro clustered acc c hc
    have hweak : ∀ c : List Element, (∃ b ∈ rest, c.head? = some b.element ∧ 2 ≤ c.length ∧
        ∀ f ∈ c, f = b.element ∨
          ∃ it ∈ rest, it.element = f ∧ simGe b.embedding it.embedding) →
        ∃ b ∈ base :: rest, c.head? = some b.element ∧ 2 ≤ c.length ∧
        ∀ f ∈ c, f = b.element ∨
          ∃ it ∈ base :: rest, it.element = f ∧ simGe b.embedding it.embedding := by
      rintro c ⟨b, hb, hh, hl, hm⟩
      refine ⟨b, List.mem_cons_of_mem _ hb, hh, hl, ?_⟩
      intro f hf
      rcases hm f hf with h | ⟨it, hit, he, hs⟩
      · exact Or.inl h
      · exact Or.inr ⟨it, List.mem_cons_of_mem _ hit, he, hs⟩
    unfold semBucketLoop at hc
    by_cases h1 : clustered.contains base.element.externalId
    · rw [if_pos h1] at hc
      rcases ih clustered acc c hc with h | h
      · exact Or.inl h
      · exact Or.inr (hweak c h)
    · rw [if_neg h1] at hc
      rcases ih _ _ c hc with h | h
      · by_cases h2 : 2 ≤ (semInner base rest
            (clustered ++ [base.element.externalId]) [base.element]).2.length
        · rw [if_pos h2] at h
          rcases List.mem_append.mp h with h' | h'
          · exact Or.inl h'
          · rw [show c = (semInner base rest
                (clustered ++ [base.element.externalId]) [base.element]).2 from by
                simpa using h']
            refine Or.inr ⟨base, List.mem_cons_self _ _, ?_, h2, ?_⟩
            · obtain ⟨extra, hex⟩ := semInner_prefix base rest
                (clustered ++ [base.element.externalId]) [base.element]
              rw [hex]
              rfl
            · intro f hf
              rcases semInner_sound base rest
                  (clustered ++ [base.element.externalId]) [base.element] f hf with
                h'' | ⟨it, hit, he, hs⟩
              · exact Or.inl (by simpa using h'')
              · exact Or.inr ⟨it, List.mem_cons_of_mem _ hit, he, hs⟩
        · rw [if_neg h2] at h
          exact Or.inl h
      · exact Or.inr (hweak c h)

lemma semOuter_sound :
    ∀ (buckets : List (List ℤ × List EmbItem)) (clustered : List String)
      (acc : List (List Element)),
    ∀ c ∈ semOuter buckets clustered acc,
      c ∈ acc ∨ ∃ b ∈ buckets, ∃ base ∈ b.2,
        c.head? = some base.element ∧ 2 ≤ c.length ∧
        ∀ f ∈ c, f = base.element ∨
          ∃ it ∈ b.2, it.element = f ∧ simGe base.embedding it.embedding := by
  intro buckets
  induction buckets with
  | nil => intro clustered acc c hc; exact Or.inl (by simpa [semOuter] using hc)
  | cons hd rest ih =>
    intro clustered acc c hc
    obtain ⟨k, bucket⟩ := hd
    unfold semOuter at hc
    rcases ih _ _ c hc with h | ⟨b, hb, base, hbase, hrest⟩
    · rcases semBucket_sound bucket clustered acc c h with h' | ⟨base, hbase, hrest⟩
      · exact Or.inl h'
      · exact Or.inr ⟨(k, bucket), List.mem_cons_self _ _, base, hbase, hrest⟩
    · exact Or.inr ⟨b, List.mem_cons_of_mem _ hb, base, hbase, hrest⟩

def c3e1 : Element :=
  { externalId := "t1", id := "1", kind := "sticky", text := "alpha" }

def c3e2 : Element :=
  { externalId := "t2", id := "2", kind := "sticky", text := "beta" }

def c3e3 : Element :=
  { externalId := "t3", id := "3", kind := "sticky", text := "gamma" }

def c3v1 : List ℚ := 1 :: (List.replicate 15 0 ++ [0])

def c3v2 : List ℚ := 1 :: (List.replicate 15 0 ++ [1 / 2])

def c3v3 : List ℚ := 1 :: (List.replicate 15 0 ++ [-(1 / 2)])

/-- C3 counterexample: the greedy loop absorbs members by similarity to the
base element only, so elements t2 and t3 land in the same semantic cluster
(seeded by t1) although their mutual cosine similarity is 3/5 < 0.75 — the
similarity-of-all-pairs reading of the claim fails. -/
theorem C3_counterexample_same_cluster_pair_below_threshold :
    semanticClustersCalc [⟨c3e1, c3v1⟩, ⟨c3e2, c3v2⟩, ⟨c3e3, c3v3⟩]
      = [[c3e1, c3e2, c3e3]] ∧
    ¬ simGe c3v2 c3v3 ∧
    ((dotQ c3v2 c3v3 : ℚ) : ℝ) /
      (Real.sqrt ((dotQ c3v2 c3v2 : ℚ) : ℝ) * Real.sqrt ((dotQ c3v3 c3v3 : ℚ) : ℝ))
      < 3 / 4 := by
  refine ⟨by with_unfolding_all decide, by with_unfolding_all decide, ?_⟩
  have h23 : dotQ c3v2 c3v3 = 3 / 4 := by with_unfolding_all decide
  have h22 : dotQ c3v2 c3v2 = 5 / 4 := by with_unfolding_all decide
  have h33 : dotQ c3v3 c3v3 = 5 / 4 := by with_unfolding_all decide
  rw [h23, h22, h33]
  have hc : ((5 / 4 : ℚ) : ℝ) = 5 / 4 := by norm_num
  have hs : Real.sqrt ((5 / 4 : ℚ) : ℝ) * Real.sqrt ((5 / 4 : ℚ) : ℝ) = 5 / 4 := by
    rw [hc]
    exact Real.mul_self_sqrt (by norm_num)
  rw [hs]
  norm_num

/-- C3 (amended): in every semantic cluster, the first member is the greedy
base and every other member was absorbed because its cosine similarity to
that base meets the 0.75 threshold (similarity between two non-base members
is not constrained). -/
theorem C3_semantic_cluster_members_similar_to_base (items : List EmbItem) :
    ∀ c ∈ semanticClustersCalc items, ∃ base ∈ items,
      0 < base.embedding.length ∧ c.head? = some base.element ∧ 2 ≤ c.length ∧
      ∀ f ∈ c, f = base.element ∨
        ∃ it ∈ items, 0 < it.embedding.length ∧ it.element = f ∧
          simGe base.embedding it.embedding := by
  intro c hc
  unfold semanticClustersCalc at hc
  rcases semOuter_sound _ _ _ c hc with h | ⟨b, hb, base, hbase, hh, hl, hm⟩
  · exact absurd h (by simp)
  · have hbm := bucketsOf_items _ b hb
    have hbasem := hbm base hbase
    rw [List.mem_filter] at hbasem
    refine ⟨base, hbasem.1, by simpa using hbasem.2, hh, hl, ?_⟩
    intro f hf
    rcases hm f hf with h | ⟨it, hit, he, hs⟩
    · exact Or.inl h
    · have hitm := hbm it hit
      rw [List.mem_filter] at hitm
      exact Or.inr ⟨it, hitm.1, by simpa using hitm.2, he, hs⟩

/-- C3 amended-theorem witness at the counterexample input: the single
cluster [t1, t2, t3] is headed by base t1 and every member is t1 or
0.75-similar to t1. -/
theorem C3_semantic_cluster_members_similar_to_base_witness :
    ∃ base ∈ [(⟨c3e1, c3v1⟩ : EmbItem), ⟨c3e2, c3v2⟩, ⟨c3e3, c3v3⟩],
      0 < base.embedding.length ∧
      ([c3e1, c3e2, c3e3] : List Element).head? = some base.element ∧
      2 ≤ ([c3e1, c3e2, c3e3] : List Element).length ∧
      ∀ f ∈ ([c3e1, c3e2, c3e3] : List Element), f = base.element ∨
        ∃ it ∈ [(⟨c3e1, c3v1⟩ : EmbItem), ⟨c3e2, c3v2⟩, ⟨c3e3, c3v3⟩],
          0 < it.embedding.length ∧ it.element = f ∧
          simGe base.embedding it.embedding :=
  C3_semantic_cluster_members_similar_to_base
    [⟨c3e1, c3v1⟩, ⟨c3e2, c3v2⟩, ⟨c3e3, c3v3⟩]
    [c3e1, c3e2, c3e3] (by with_unfolding_all decide)

/-! ### Traverse cache signature (POST /api/clusters/traverse)

`memberDigest` / `connectorDigest` / `signature` from the traverse route:
members are the non-`"arrow"`-kind elements whose cluster-id property
(selected by the `cluster_id` prefix) matches, digests render
`id:updated:version` entries, sort them and join with `"|"`, and the cache
key is a hash of `boardId|cluster_id|traverse_v1|memberDigest|connectorDigest`.
The hash itself is opaque; sensitivity is proved on the preimage string, and
cache behaviour for an arbitrary injective hash function. -/

/-- Decimal value of a digit string (left fold). -/
def val10 (l : List Char) : ℕ :=
  l.foldl (fun a c => 10 * a + (c.toNat - Char.toNat '0')) 0

lemma val10_foldl_peel :
    ∀ (l : List Char) (a : ℕ),
    l.foldl (fun a c => 10 * a + (c.toNat - Char.toNat '0')) a
      = a * 10 ^ l.length + val10 l := by
  intro l
  induction l with
  | nil => intro a; simp [val10]
  | cons c rest ih =>
    intro a
    have h1 : (c :: rest).foldl (fun a c => 10 * a + (c.toNat - Char.toNat '0')) a
        = rest.foldl (fun a c => 10 * a + (c.toNat - Char.toNat '0'))
            (10 * a + (c.toNat - Char.toNat '0')) := rfl
    have h2 : val10 (c :: rest)
        = rest.foldl (fun a c => 10 * a + (c.toNat - Char.toNat '0'))
            (c.toNat - Char.toNat '0') := by
      unfold val10
      simp
    rw [h1, ih, h2, ih (c.toNat - Char.toNat '0')]
    simp only [List.length_cons]
    ring

lemma digitChar_val (m : ℕ) (h : m < 10) :
    (Nat.digitChar m).toNat - Char.toNat '0' = m := by
  interval_cases m <;> decide

lemma digitChar_clean (m : ℕ) : ¬ Nat.digitChar m = ':' ∧ ¬ Nat.digitChar m = '|' := by
  by_cases h : m < 16
  · interval_cases m <;> exact ⟨by decide, by decide⟩
  · have h' : Nat.digitChar m = '*' := by
      unfold Nat.digitChar
      repeat rw [if_neg (by omega)]
    rw [h']
    exact ⟨by decide, by decide⟩

lemma toDigitsCore_val :
    ∀ (fuel n : ℕ) (ds : List Char), n < fuel →
    val10 (Nat.toDigitsCore 10 fuel n ds) = n * 10 ^ ds.length + val10 ds := by
  intro fuel
  induction fuel with
  | zero => intro n ds h; omega
  | succ f ih =>
    intro n ds h
    have hstep : Nat.toDigitsCore 10 (f + 1) n ds =
        if n / 10 = 0 then Nat.digitChar (n % 10) :: ds
        else Nat.toDigitsCore 10 f (n / 10) (Nat.digitChar (n % 10) :: ds) := rfl
    rw [hstep]
    by_cases hz : n / 10 = 0
    · rw [if_pos hz]
      have hn : n < 10 := by omega
      have : val10 (Nat.digitChar (n % 10) :: ds)
          = (n % 10) * 10 ^ ds.length + val10 ds := by
        unfold val10
        rw [List.foldl_cons, val10_foldl_peel]
        rw [show (10 * 0 + ((Nat.digitChar (n % 10)).toNat - Char.toNat '0')) = n % 10 from by
          rw [digitChar_val (n % 10) (Nat.mod_lt _ (by norm_num))]; omega]
        rfl
      rw [this, Nat.mod_eq_of_lt hn]
    · rw [if_neg hz]
      have hdiv : n / 10 < f := by
        have h1 : n / 10 < n := Nat.div_lt_self (by omega) (by norm_num)
        omega
      rw [ih (n / 10) _ hdiv]
      have : val10 (Nat.digitChar (n % 10) :: ds)
          = (n % 10) * 10 ^ ds.length + val10 ds := by
        unfold val10
        rw [List.foldl_cons, val10_foldl_peel]
        rw [show (10 * 0 + ((Nat.digitChar (n % 10)).toNat - Char.toNat '0')) = n % 10 from by
          rw [digitChar_val (n % 10) (Nat.mod_lt _ (by norm_num))]; omega]
        rfl
      rw [this]
      simp only [List.length_cons]
      have hsplit : n = 10 * (n / 10) + n % 10 := (Nat.div_add_mod n 10).symm
      calc n / 10 * 10 ^ (ds.length + 1) + ((n % 10) * 10 ^ ds.length + val10 ds)
          = (10 * (n / 10) + n % 10) * 10 ^ ds.length + val10 ds := by ring
        _ = n * 10 ^ ds.length + val10 ds := by rw [← hsplit]

lemma repr_val (n : ℕ) : val10 (Nat.repr n).data = n := by
  have h1 : (Nat.repr n).data = Nat.toDigitsCore 10 (n + 1) n [] := rfl
  rw [h1, toDigitsCore_val (n + 1) n [] (by omega)]
  simp [val10]

lemma repr_inj : Function.Injective Nat.repr := by
  intro m n h
  have : val10 (Nat.repr m).data = val10 (Nat.repr n).data := by rw [h]
  rwa [repr_val, repr_val] at this

lemma toDigitsCore_clean :
    ∀ (fuel n : ℕ) (ds : List Char),
    (∀ c ∈ ds, ¬ c = ':' ∧ ¬ c = '|') →
    ∀ c ∈ Nat.toDigitsCore 10 fuel n ds, ¬ c = ':' ∧ ¬ c = '|' := by
  intro fuel
  induction fuel with
  | zero => intro n ds hds c hc; exact hds c hc
  | succ f ih =>
    intro n ds hds c hc
    have hstep : Nat.toDigitsCore 10 (f + 1) n ds =
        if n / 10 = 0 then Nat.digitChar (n % 10) :: ds
        else Nat.toDigitsCore 10 f (n / 10) (Nat.digitChar (n % 10) :: ds) := rfl
    rw [hstep] at hc
    have hcons : ∀ c ∈ Nat.digitChar (n % 10) :: ds, ¬ c = ':' ∧ ¬ c = '|' := by
      intro c hc
      rcases List.mem_cons.mp hc with rfl | hc'
      · exact digitChar_clean (n % 10)
      · exact hds c hc'
    by_cases hz : n / 10 = 0
    · rw [if_pos hz] at hc
      exact hcons c hc
    · rw [if_neg hz] at hc
      exact ih (n / 10) _ hcons c hc

lemma repr_clean (n : ℕ) : ∀ c ∈ (Nat.repr n).data, ¬ c = ':' ∧ ¬ c = '|' := by
  have h1 : (Nat.repr n).data = Nat.toDigitsCore 10 (n + 1) n [] := rfl
  rw [h1]
  exact toDigitsCore_clean (n + 1) n [] (fun c hc => absurd hc (by simp))

/-- `array.join("|")`. -/
def joinBar : List String → String
  | [] => ""
  | [x] => x
  | x :: y :: rest => x ++ "|" ++ joinBar (y :: rest)

/-- Splitting a character list at `'|'` (left inverse of the join for
bar-free components). -/
def splitBarC : List Char → List (List Char)
  | [] => [[]]
  | c :: rest =>
    if c = '|' then [] :: splitBarC rest
    else (c :: (splitBarC rest).headI) :: (splitBarC rest).tail

lemma splitBarC_barfree : ∀ (x : List Char), (∀ c ∈ x, ¬ c = '|') →
    splitBarC x = [x] := by
  intro x
  induction x with
  | nil => intro _; rfl
  | cons c rest ih =>
    intro h
    have hc : ¬ c = '|' := h c (List.mem_cons_self _ _)
    have hrest := ih (fun d hd => h d (List.mem_cons_of_mem _ hd))
    unfold splitBarC
    rw [if_neg hc, hrest]
    rfl

lemma splitBarC_append : ∀ (x t : List Char), (∀ c ∈ x, ¬ c = '|') →
    splitBarC (x ++ '|' :: t) = x :: splitBarC t := by
  intro x
  induction x with
  | nil => intro t _; simp [splitBarC]
  | cons c rest ih =>
    intro t h
    have hc : ¬ c = '|' := h c (List.mem_cons_self _ _)
    have hrest := ih t (fun d hd => h d (List.mem_cons_of_mem _ hd))
    have hcons : splitBarC (c :: (rest ++ '|' :: t)) =
        if c = '|' then [] :: splitBarC (rest ++ '|' :: t)
        else (c :: (splitBarC (rest ++ '|' :: t)).headI)
          :: (splitBarC (rest ++ '|' :: t)).tail := rfl
    show splitBarC (c :: (rest ++ '|' :: t)) = (c :: rest) :: splitBarC t
    rw [hcons, if_neg hc, hrest]
    rfl

lemma joinBar_data_split :
    ∀ (parts : List String), parts ≠ [] → (∀ p ∈ parts, ∀ c ∈ p.data, ¬ c = '|') →
    splitBarC (joinBar parts).data = parts.map (·.data) := by
  intro parts
  induction parts with
  | nil => intro h _; exact absurd rfl h
  | cons x rest ih =>
    intro _ hfree
    match rest with
    | [] =>
      show splitBarC (joinBar [x]).data = [x.data]
      exact splitBarC_barfree x.data (hfree x (List.mem_cons_self _ _))
    | y :: rest' =>
      have hx : ∀ c ∈ x.data, ¬ c = '|' := hfree x (List.mem_cons_self _ _)
      have hjoin : (joinBar (x :: y :: rest')).data
          = x.data ++ '|' :: (joinBar (y :: rest')).data := by
        show (x ++ "|" ++ joinBar (y :: rest')).data = _
        rw [String.data_append, String.data_append]
        simp
      rw [hjoin, splitBarC_append x.data _ hx,
        ih (by simp) (fun p hp => hfree p (List.mem_cons_of_mem _ hp))]
      rfl

lemma joinBar_inj (p1 p2 : List String) (h1 : p1 ≠ []) (h2 : p2 ≠ [])
    (hf1 : ∀ p ∈ p1, ∀ c ∈ p.data, ¬ c = '|')
    (hf2 : ∀ p ∈ p2, ∀ c ∈ p.data, ¬ c = '|')
    (heq : joinBar p1 = joinBar p2) : p1 = p2 := by
  have hd : splitBarC (joinBar p1).data = splitBarC (joinBar p2).data := by rw [heq]
  rw [joinBar_data_split p1 h1 hf1, joinBar_data_split p2 h2 hf2] at hd
  have hinj : Function.Injective (fun s : String => s.data) := fun a b h => String.ext h
  exact List.map_injective_iff.mpr hinj hd

lemma joinBar_append : ∀ (xs ys : List String), xs ≠ [] → ys ≠ [] →
    joinBar (xs ++ ys) = joinBar xs ++ "|" ++ joinBar ys := by
  intro xs
  induction xs with
  | nil => intro ys h _; exact absurd rfl h
  | cons x rest ih =>
    intro ys _ hys
    match rest with
    | [] =>
      match ys with
      | [] => exact absurd rfl hys
      | y :: ys' => rfl
    | x' :: rest' =>
      show x ++ "|" ++ joinBar ((x' :: rest') ++ ys) = _
      rw [ih ys (by simp) hys]
      show _ = x ++ "|" ++ joinBar (x' :: rest') ++ "|" ++ joinBar ys
      rw [← String.append_assoc, ← String.append_assoc]

lemma colon_split {a b r s : List Char}
    (ha : ∀ c ∈ a, ¬ c = ':') (hb : ∀ c ∈ b, ¬ c = ':')
    (h : a ++ ':' :: r = b ++ ':' :: s) : a = b ∧ r = s := by
  induction a generalizing b with
  | nil =>
    match b with
    | [] => simpa using h
    | c :: b' =>
      exfalso
      have : ':' = c := by simpa using congrArg (·.headI) h
      exact hb c (List.mem_cons_self _ _) this.symm
  | cons c a' ih =>
    match b with
    | [] =>
      exfalso
      have : c = ':' := by simpa using congrArg (·.headI) h
      exact ha c (List.mem_cons_self _ _) this
    | d :: b' =>
      have hcd : c = d := by simpa using congrArg (·.headI) h
      have htl : a' ++ ':' :: r = b' ++ ':' :: s := by
        simpa using congrArg (·.tail) h
      obtain ⟨hab, hrs⟩ := ih (fun x hx => ha x (List.mem_cons_of_mem _ hx))
        (fun x hx => hb x (List.mem_cons_of_mem _ hx)) htl
      exact ⟨by rw [hcd, hab], hrs⟩

/-- `const [type] = String(cluster_id).split("_")` and the cluster property
selected from it. -/
def clusterPropOf (cluster_id : String) (el : Element) : String :=
  if (cluster_id.splitOn "_").headI = "r" then el.relationalClusterId
  else if (cluster_id.splitOn "_").headI = "s" then el.semanticClusterId
  else el.distanceClusterId

/-- `members`: non-`"arrow"`-kind elements whose selected cluster property
matches `cluster_id` (raw kind comparison; a `"line"` can be a member). -/
def traverseMembers (els : List Element) (cluster_id : String) : List Element :=
  els.filter (fun el =>
    ¬ el.kind = "arrow" ∧ jsOr (clusterPropOf cluster_id el) "" = cluster_id)

/-- One member digest entry: \x60${externalId}:${updated}:${version}\x60. -/
def entryOf (e : Element) : String :=
  e.externalId ++ ":" ++ Nat.repr e.updated ++ ":" ++ Nat.repr e.version

/-- One connector digest entry: \x60${externalId || id}:${updated}:${version}\x60. -/
def connEntryOf (a : Element) : String :=
  jsOr a.externalId a.id ++ ":" ++ Nat.repr a.updated ++ ":" ++ Nat.repr a.version

/-- JS default `Array.sort()` (lexicographic, stable). -/
def sortStrs (l : List String) : List String :=
  l.mergeSort (fun a b => decide (a ≤ b))

def memberDigest (els : List Element) (cluster_id : String) : String :=
  joinBar (sortStrs ((traverseMembers els cluster_id).map entryOf))

/-- `toExt` of the traverse route: an external id of a merged element stands,
otherwise the FIRST merged element with that internal id resolves it, else
empty. -/
def toExtTrav (els : List Element) (raw : String) : String :=
  if raw = "" then ""
  else if els.any (fun el => el.externalId = raw) then raw
  else match els.find? (fun e => jsOr e.id "" = raw) with
       | some e => e.externalId
       | none => ""

/-- The contributing connectors: deduplicated bound connectors whose two
resolved endpoints are both cluster members. -/
def contributingConnectors (els : List Element) (cluster_id : String) : List Element :=
  (arrowsOf els).filter (fun a =>
    ¬ toExtTrav els a.startBindingId = "" ∧ ¬ toExtTrav els a.endBindingId = "" ∧
    ((traverseMembers els cluster_id).map (fun m => m.externalId)).contains
      (toExtTrav els a.startBindingId) ∧
    ((traverseMembers els cluster_id).map (fun m => m.externalId)).contains
      (toExtTrav els a.endBindingId))

def connectorDigest (els : List Element) (cluster_id : String) : String :=
  joinBar (sortStrs ((contributingConnectors els cluster_id).map connEntryOf))

/-- The sha256 preimage
\x60${boardId}|${cluster_id}|${algoVersion}|${memberDigest}|${connectorDigest}\x60. -/
def signaturePreimage (els : List Element) (boardId cluster_id : String) : String :=
  boardId ++ "|" ++ cluster_id ++ "|" ++ "traverse_v1" ++ "|"
    ++ memberDigest els cluster_id ++ "|" ++ connectorDigest els cluster_id

/-- Mutating one element's `updated`/`version` fields (selected by external
id), leaving everything else unchanged. -/
def touchF (t : String) (u v : Nat) (e : Element) : Element :=
  if e.externalId = t then { e with updated := u, version := v } else e

def touch (t : String) (u v : Nat) (els : List Element) : List Element :=
  els.map (touchF t u v)

lemma touchF_fields (t : String) (u v : Nat) (e : Element) :
    (touchF t u v e).externalId = e.externalId ∧ (touchF t u v e).id = e.id ∧
    (touchF t u v e).kind = e.kind ∧
    (touchF t u v e).startBindingId = e.startBindingId ∧
    (touchF t u v e).endBindingId = e.endBindingId ∧
    (touchF t u v e).relationalClusterId = e.relationalClusterId ∧
    (touchF t u v e).semanticClusterId = e.semanticClusterId ∧
    (touchF t u v e).distanceClusterId = e.distanceClusterId := by
  unfold touchF
  split <;> exact ⟨rfl, rfl, rfl, rfl, rfl, rfl, rfl, rfl⟩

lemma touchF_miss (t : String) (u v : Nat) (e : Element)
    (h : ¬ e.externalId = t) : touchF t u v e = e := by
  unfold touchF
  rw [if_neg h]

lemma touchF_hit (t : String) (u v : Nat) (e : Element)
    (h : e.externalId = t) :
    (touchF t u v e).updated = u ∧ (touchF t u v e).version = v := by
  unfold touchF
  rw [if_pos h]
  exact ⟨rfl, rfl⟩

lemma traverseMembers_touch (t : String) (u v : Nat) (els : List Element)
    (cluster_id : String) :
    traverseMembers (touch t u v els) cluster_id
      = (traverseMembers els cluster_id).map (touchF t u v) := by
  unfold traverseMembers touch
  rw [List.filter_map]
  congr 1
  apply List.filter_congr
  intro e _
  obtain ⟨_, _, hk, _, _, hr, hs, hd⟩ := touchF_fields t u v e
  unfold clusterPropOf
  simp only [Function.comp, hk, hr, hs, hd]

lemma arrowsOf_touch (t : String) (u v : Nat) (els : List Element) :
    arrowsOf (touch t u v els) = (arrowsOf els).map (touchF t u v) := by
  unfold arrowsOf touch
  have haux : ∀ (ls acc : List Element),
      (ls.map (touchF t u v)).foldl (fun acc el =>
        if isConnector el ∧ ¬ el.startBindingId = "" ∧ ¬ el.endBindingId = "" ∧
           ¬ acc.any (fun a => jsOr a.externalId a.id = jsOr el.externalId el.id)
        then acc ++ [el] else acc) (acc.map (touchF t u v))
      = (ls.foldl (fun acc el =>
          if isConnector el ∧ ¬ el.startBindingId = "" ∧ ¬ el.endBindingId = "" ∧
             ¬ acc.any (fun a => jsOr a.externalId a.id = jsOr el.externalId el.id)
          then acc ++ [el] else acc) acc).map (touchF t u v) := by
    intro ls
    induction ls with
    | nil => intro acc; simp
    | cons e rest ih =>
      intro acc
      rw [List.map_cons, List.foldl_cons, List.foldl_cons]
      obtain ⟨hext, hid, hk, hsb, heb, _, _, _⟩ := touchF_fields t u v e
      have hconn : isConnector (touchF t u v e) = isConnector e := by
        unfold isConnector normalizeKind
        rw [hk]
      have hany : ∀ acc : List Element,
          (acc.map (touchF t u v)).any
            (fun a => jsOr a.externalId a.id = jsOr (touchF t u v e).externalId (touchF t u v e).id)
          = acc.any (fun a => jsOr a.externalId a.id = jsOr e.externalId e.id) := by
        intro acc
        rw [List.any_map]
        congr 1
        funext a
        obtain ⟨ha1, ha2, _, _, _, _, _, _⟩ := touchF_fields t u v a
        simp only [Function.comp, ha1, ha2, hext, hid]
      by_cases hcond : isConnector e ∧ ¬ e.startBindingId = "" ∧ ¬ e.endBindingId = "" ∧
          ¬ acc.any (fun a => jsOr a.externalId a.id = jsOr e.externalId e.id)
      · rw [if_pos hcond, if_pos (by
          rw [hconn, hsb, heb, hany]
          exact hcond)]
        rw [show (acc.map (touchF t u v)) ++ [touchF t u v e]
            = (acc ++ [e]).map (touchF t u v) from by simp]
        exact ih (acc ++ [e])
      · rw [if_neg hcond, if_neg (by
          rw [hconn, hsb, heb, hany]
          exact hcond)]
        exact ih acc
  have := haux els []
  simpa using this

lemma toExtTrav_touch (t : String) (u v : Nat) (els : List Element) (raw : String) :
    toExtTrav (touch t u v els) raw = toExtTrav els raw := by
  unfold toExtTrav touch
  by_cases h0 : raw = ""
  · rw [if_pos h0, if_pos h0]
  rw [if_neg h0, if_neg h0]
  have hany : (els.map (touchF t u v)).any (fun el => el.externalId = raw)
      = els.any (fun el => el.externalId = raw) := by
    rw [List.any_map]
    congr 1
    funext a
    obtain ⟨ha1, _, _, _, _, _, _, _⟩ := touchF_fields t u v a
    simp only [Function.comp, ha1]
  rw [hany]
  by_cases h1 : els.any (fun el => el.externalId = raw)
  · rw [if_pos h1, if_pos h1]
  · rw [if_neg h1, if_neg h1]
    have hfind : (els.map (touchF t u v)).find? (fun e => jsOr e.id "" = raw)
        = (els.find? (fun e => jsOr e.id "" = raw)).map (touchF t u v) := by
      rw [List.find?_map]
      have hpred : ((fun e : Element => decide (jsOr e.id "" = raw)) ∘ touchF t u v)
          = (fun e : Element => decide (jsOr e.id "" = raw)) := by
        funext e
        obtain ⟨_, hid, _, _, _, _, _, _⟩ := touchF_fields t u v e
        simp only [Function.comp, hid]
      rw [hpred]
    rw [hfind]
    cases hf : els.find? (fun e => jsOr e.id "" = raw) with
    | none => rfl
    | some e =>
      simp only [Option.map_some]
      exact (touchF_fields t u v e).1

lemma contributingConnectors_touch (t : String) (u v : Nat) (els : List Element)
    (cluster_id : String) :
    contributingConnectors (touch t u v els) cluster_id
      = (contributingConnectors els cluster_id).map (touchF t u v) := by
  unfold contributingConnectors
  rw [arrowsOf_touch, List.filter_map]
  congr 1
  apply List.filter_congr
  intro a _
  obtain ⟨_, _, _, hsb, heb, _, _, _⟩ := touchF_fields t u v a
  have hmem : ((traverseMembers (touch t u v els) cluster_id).map
        (fun m => m.externalId))
      = (traverseMembers els cluster_id).map (fun m => m.externalId) := by
    rw [traverseMembers_touch, List.map_map]
    apply List.map_congr_left
    intro m _
    exact (touchF_fields t u v m).1
  simp only [Function.comp, hsb, heb, toExtTrav_touch, hmem]

lemma keyEntry_inj {k1 k2 : String} {u1 v1 u2 v2 : ℕ}
    (h1 : ∀ c ∈ k1.data, ¬ c = ':') (h2 : ∀ c ∈ k2.data, ¬ c = ':')
    (h : k1 ++ ":" ++ Nat.repr u1 ++ ":" ++ Nat.repr v1
       = k2 ++ ":" ++ Nat.repr u2 ++ ":" ++ Nat.repr v2) :
    k1 = k2 ∧ u1 = u2 ∧ v1 = v2 := by
  have hd := congrArg String.data h
  have hcolon : (":" : String).data = [':'] := rfl
  simp only [String.data_append, hcolon, List.append_assoc, List.singleton_append] at hd
  obtain ⟨hk, hrest⟩ := colon_split h1 h2 hd
  obtain ⟨hu, hv⟩ := colon_split (fun c hc => (repr_clean u1 c hc).1)
    (fun c hc => (repr_clean u2 c hc).1) hrest
  exact ⟨String.ext hk, repr_inj (String.ext hu), repr_inj (String.ext hv)⟩

lemma keyEntry_barfree {k : String} {u v : ℕ} (hk : ∀ c ∈ k.data, ¬ c = '|') :
    ∀ c ∈ (k ++ ":" ++ Nat.repr u ++ ":" ++ Nat.repr v).data, ¬ c = '|' := by
  intro c hc
  simp only [String.data_append] at hc
  rcases List.mem_append.mp hc with h1 | hrv
  · rcases List.mem_append.mp h1 with h2 | hcol2
    · rcases List.mem_append.mp h2 with h3 | hru
      · rcases List.mem_append.mp h3 with hkk | hcol1
        · exact hk c hkk
        · rw [List.mem_singleton.mp hcol1]
          decide
      · exact (repr_clean u c hru).2
    · rw [List.mem_singleton.mp hcol2]
      decide
  · exact (repr_clean v c hrv).2

lemma mem_sortStrs {l : List String} {x : String} : x ∈ sortStrs l ↔ x ∈ l :=
  (List.mergeSort_perm l _).mem_iff

lemma length_sortStrs (l : List String) : (sortStrs l).length = l.length :=
  (List.mergeSort_perm l _).length_eq

lemma sortStrs_ne_of_mem_not_mem {l1 l2 : List String}
    (hx : ∃ x, x ∈ l1 ∧ x ∉ l2) : ¬ sortStrs l1 = sortStrs l2 := by
  obtain ⟨x, hx1, hx2⟩ := hx
  intro heq
  apply hx2
  rw [← mem_sortStrs, ← heq, mem_sortStrs]
  exact hx1

lemma append_segs_inj {p A1 A2 B1 B2 : List String}
    (hlen : A1.length = A2.length)
    (h : p ++ A1 ++ B1 = p ++ A2 ++ B2) : A1 = A2 ∧ B1 = B2 := by
  rw [List.append_assoc, List.append_assoc] at h
  have h1 : A1 ++ B1 = A2 ++ B2 := by
    have := congrArg (List.drop p.length) h
    rwa [List.drop_left, List.drop_left] at this
  constructor
  · have := congrArg (List.take A1.length) h1
    rwa [List.take_left, hlen, List.take_left] at this
  · have := congrArg (List.drop A1.length) h1
    rwa [List.drop_left, hlen, List.drop_left] at this

lemma arrowsOf_sub (els : List Element) : ∀ a ∈ arrowsOf els, a ∈ els := by
  unfold arrowsOf
  have haux : ∀ (ls acc : List Element), (∀ a ∈ acc, a ∈ els) → (∀ e ∈ ls, e ∈ els) →
      ∀ a ∈ ls.foldl (fun acc el =>
        if isConnector el ∧ ¬ el.startBindingId = "" ∧ ¬ el.endBindingId = "" ∧
           ¬ acc.any (fun a => jsOr a.externalId a.id = jsOr el.externalId el.id)
        then acc ++ [el] else acc) acc, a ∈ els := by
    intro ls
    induction ls with
    | nil => intro acc hacc _ a ha; exact hacc a ha
    | cons e rest ih =>
      intro acc hacc hls a ha
      rw [List.foldl_cons] at ha
      by_cases hcond : isConnector e ∧ ¬ e.startBindingId = "" ∧ ¬ e.endBindingId = "" ∧
          ¬ acc.any (fun a => jsOr a.externalId a.id = jsOr e.externalId e.id)
      · rw [if_pos hcond] at ha
        refine ih (acc ++ [e]) ?_ (fun w hw => hls w (List.mem_cons_of_mem _ hw)) a ha
        intro b hb
        rcases List.mem_append.mp hb with h | h
        · exact hacc b h
        · rw [List.mem_singleton.mp h]
          exact hls e (List.mem_cons_self _ _)
      · rw [if_neg hcond] at ha
        exact ih acc hacc (fun w hw => hls w (List.mem_cons_of_mem _ hw)) a ha
  exact haux els [] (fun a ha => absurd ha (by simp)) (fun e he => he)

lemma traverseMembers_sub (els : List Element) (cluster_id : String) :
    ∀ m ∈ traverseMembers els cluster_id, m ∈ els := by
  intro m hm
  exact (List.mem_filter.mp hm).1

/-- The preimage as a flat `"|"`-join: the three header fields, then the
sorted member entries, then the sorted connector entries (an empty digest
contributes one empty component). -/
def flatParts (els : List Element) (boardId cluster_id : String) : List String :=
  [boardId, cluster_id, "traverse_v1"]
    ++ (if sortStrs ((traverseMembers els cluster_id).map entryOf) = []
        then [""] else sortStrs ((traverseMembers els cluster_id).map entryOf))
    ++ (if sortStrs ((contributingConnectors els cluster_id).map connEntryOf) = []
        then [""] else sortStrs ((contributingConnectors els cluster_id).map connEntryOf))

lemma joinBar_if_empty (l : List String) :
    joinBar (if l = [] then [""] else l) = joinBar l := by
  by_cases h : l = []
  · rw [if_pos h, h]
    rfl
  · rw [if_neg h]

lemma signaturePreimage_flat (els : List Element) (boardId cluster_id : String) :
    signaturePreimage els boardId cluster_id = joinBar (flatParts els boardId cluster_id) := by
  unfold flatParts
  rw [joinBar_append ([boardId, cluster_id, "traverse_v1"]
      ++ (if sortStrs ((traverseMembers els cluster_id).map entryOf) = []
          then [""] else sortStrs ((traverseMembers els cluster_id).map entryOf)))
    _ (by simp) (by split <;> simp_all)]
  rw [joinBar_append [boardId, cluster_id, "traverse_v1"] _ (by simp) (by split <;> simp_all)]
  rw [joinBar_if_empty, joinBar_if_empty]
  unfold signaturePreimage memberDigest connectorDigest
  show _ = boardId ++ "|" ++ (cluster_id ++ "|" ++ "traverse_v1")
      ++ "|" ++ joinBar (sortStrs ((traverseMembers els cluster_id).map entryOf))
      ++ "|" ++ joinBar (sortStrs ((contributingConnectors els cluster_id).map connEntryOf))
  rw [String.append_assoc boardId, String.append_assoc boardId]
  rw [String.append_assoc boardId, String.append_assoc boardId]
  congr 1
  simp [String.append_assoc]

lemma flatParts_barfree (els : List Element) (boardId cluster_id : String)
    (hneid : ∀ e ∈ els, ¬ e.externalId = "")
    (hsafe : ∀ e ∈ els, ∀ c ∈ e.externalId.data, ¬ c = ':' ∧ ¬ c = '|')
    (hbid : ∀ c ∈ boardId.data, ¬ c = '|')
    (hcid : ∀ c ∈ cluster_id.data, ¬ c = '|') :
    ∀ p ∈ flatParts els boardId cluster_id, ∀ c ∈ p.data, ¬ c = '|' := by
  intro p hp
  unfold flatParts at hp
  rcases List.mem_append.mp hp with hp1 | hpB
  case inl =>
    rcases List.mem_append.mp hp1 with hph | hpA
    case inl =>
      rcases List.mem_cons.mp hph with rfl | hph
      · exact hbid
      rcases List.mem_cons.mp hph with rfl | hph
      · exact hcid
      rcases List.mem_cons.mp hph with rfl | hph
      · have hall : ∀ c ∈ ("traverse_v1" : String).data, ¬ c = '|' := by decide
        exact hall
      · exact absurd hph (by simp)
    case inr =>
      by_cases hc : sortStrs ((traverseMembers els cluster_id).map entryOf) = []
      · rw [if_pos hc, List.mem_singleton] at hpA
        rw [hpA]
        intro c hc'
        exact absurd hc' (by simp)
      · rw [if_neg hc, mem_sortStrs] at hpA
        obtain ⟨m, hm, rfl⟩ := List.mem_map.mp hpA
        exact keyEntry_barfree (fun c hc2 =>
          (hsafe m (traverseMembers_sub els cluster_id m hm) c hc2).2)
  case inr =>
    by_cases hc : sortStrs ((contributingConnectors els cluster_id).map connEntryOf) = []
    · rw [if_pos hc] at hpB
      rw [List.mem_singleton.mp hpB]
      intro c hc'
      exact absurd hc' (by simp)
    · rw [if_neg hc] at hpB
      rw [mem_sortStrs] at hpB
      obtain ⟨a, ha, rfl⟩ := List.mem_map.mp hpB
      have hael : a ∈ els := arrowsOf_sub els a (List.mem_filter.mp ha).1
      have hkey : jsOr a.externalId a.id = a.externalId := by
        unfold jsOr
        rw [if_neg (hneid a hael)]
      unfold connEntryOf
      rw [hkey]
      exact keyEntry_barfree (fun c hc2 => (hsafe a hael c hc2).2)

lemma signaturePreimage_touch_eq (els : List Element) (boardId cluster_id : String)
    (t : String) (u v : Nat)
    (hmem : ∀ m ∈ traverseMembers els cluster_id, ¬ m.externalId = t)
    (hconn : ∀ a ∈ contributingConnectors els cluster_id, ¬ a.externalId = t) :
    signaturePreimage (touch t u v els) boardId cluster_id
      = signaturePreimage els boardId cluster_id := by
  unfold signaturePreimage memberDigest connectorDigest
  rw [traverseMembers_touch, contributingConnectors_touch, List.map_map, List.map_map]
  have h1 : (traverseMembers els cluster_id).map (entryOf ∘ touchF t u v)
      = (traverseMembers els cluster_id).map entryOf := by
    apply List.map_congr_left
    intro m hm
    simp only [Function.comp]
    rw [touchF_miss t u v m (hmem m hm)]
  have h2 : (contributingConnectors els cluster_id).map (connEntryOf ∘ touchF t u v)
      = (contributingConnectors els cluster_id).map connEntryOf := by
    apply List.map_congr_left
    intro a ha
    simp only [Function.comp]
    rw [touchF_miss t u v a (hconn a ha)]
  rw [h1, h2]

lemma jsMapFind_singleton {α : Type} (x y : String) (c : α) :
    jsMapFind [(x, c)] y = if x = y then some c else none := by
  unfold jsMapFind
  by_cases h : x = y <;> simp [List.find?, h]

lemma sortStrs_nonnil {l : List String} (h : ¬ l = []) : ¬ sortStrs l = [] := by
  intro hnil
  apply h
  have := length_sortStrs l
  rw [hnil] at this
  exact List.length_eq_zero.mp this.symm

lemma flatParts_ne_touch (els : List Element) (boardId cluster_id : String)
    (t : String) (u v : Nat)
    (hnodup : (els.map (·.externalId)).Nodup)
    (hneid : ∀ e ∈ els, ¬ e.externalId = "")
    (hsafe : ∀ e ∈ els, ∀ c ∈ e.externalId.data, ¬ c = ':' ∧ ¬ c = '|')
    (hchange : (∃ m ∈ traverseMembers els cluster_id,
        m.externalId = t ∧ ¬ (u = m.updated ∧ v = m.version)) ∨
      (∃ a ∈ contributingConnectors els cluster_id,
        a.externalId = t ∧ ¬ (u = a.updated ∧ v = a.version))) :
    ¬ flatParts (touch t u v els) boardId cluster_id = flatParts els boardId cluster_id := by
  intro heq
  unfold flatParts at heq
  have hMlen : (if sortStrs ((traverseMembers (touch t u v els) cluster_id).map entryOf) = []
        then [""] else sortStrs ((traverseMembers (touch t u v els) cluster_id).map entryOf)).length
      = (if sortStrs ((traverseMembers els cluster_id).map entryOf) = []
        then [""] else sortStrs ((traverseMembers els cluster_id).map entryOf)).length := by
    rw [traverseMembers_touch]
    by_cases hnil : traverseMembers els cluster_id = []
    · rw [hnil]
      simp [sortStrs]
    · have h1 : ¬ ((traverseMembers els cluster_id).map (touchF t u v)).map entryOf = [] := by
        simpa using hnil
      have h2 : ¬ (traverseMembers els cluster_id).map entryOf = [] := by
        simpa using hnil
      rw [if_neg (sortStrs_nonnil h1), if_neg (sortStrs_nonnil h2),
        length_sortStrs, length_sortStrs]
      simp
  obtain ⟨hMeq, hCeq⟩ := append_segs_inj hMlen heq
  rcases hchange with ⟨m, hm, hmt, hchg⟩ | ⟨a, ha, hat, hchg⟩
  · have hmels : m ∈ els := traverseMembers_sub els cluster_id m hm
    have hmnil : ¬ (traverseMembers els cluster_id).map entryOf = [] := by
      intro h
      rw [List.map_eq_nil] at h
      rw [h] at hm
      cases hm
    have hmnil' : ¬ (traverseMembers (touch t u v els) cluster_id).map entryOf = [] := by
      rw [traverseMembers_touch]
      intro h
      rw [List.map_eq_nil, List.map_eq_nil] at h
      rw [h] at hm
      cases hm
    rw [if_neg (sortStrs_nonnil hmnil'), if_neg (sortStrs_nonnil hmnil)] at hMeq
    refine sortStrs_ne_of_mem_not_mem ⟨entryOf m, List.mem_map_of_mem _ hm, ?_⟩ hMeq.symm
    rw [traverseMembers_touch, List.map_map]
    intro hmem
    obtain ⟨m', hm', hme⟩ := List.mem_map.mp hmem
    simp only [Function.comp] at hme
    have hm'els : m' ∈ els := traverseMembers_sub els cluster_id m' hm'
    by_cases hext : m'.externalId = t
    · have hm'm : m' = m := List.inj_on_of_nodup_map hnodup hm'els hmels (by rw [hext, hmt])
      subst hm'm
      have hext' : (touchF t u v m').externalId = m'.externalId := (touchF_fields t u v m').1
      obtain ⟨huu, hvv⟩ := touchF_hit t u v m' hext
      unfold entryOf at hme
      rw [hext', huu, hvv] at hme
      obtain ⟨_, hu2, hv2⟩ := keyEntry_inj
        (fun c hc => (hsafe m' hm'els c hc).1) (fun c hc => (hsafe m' hm'els c hc).1) hme
      exact hchg ⟨hu2, hv2⟩
    · rw [touchF_miss t u v m' hext] at hme
      unfold entryOf at hme
      obtain ⟨hid, _, _⟩ := keyEntry_inj
        (fun c hc => (hsafe m' hm'els c hc).1) (fun c hc => (hsafe m hmels c hc).1) hme
      exact hext (by rw [hid, hmt])
  · have haels : a ∈ els := arrowsOf_sub els a (List.mem_filter.mp ha).1
    have hkeya : jsOr a.externalId a.id = a.externalId := by
      unfold jsOr
      rw [if_neg (hneid a haels)]
    have hcnil : ¬ (contributingConnectors els cluster_id).map connEntryOf = [] := by
      intro h
      rw [List.map_eq_nil] at h
      rw [h] at ha
      cases ha
    have hcnil' : ¬ (contributingConnectors (touch t u v els) cluster_id).map connEntryOf = [] := by
      rw [contributingConnectors_touch]
      intro h
      rw [List.map_eq_nil, List.map_eq_nil] at h
      rw [h] at ha
      cases ha
    rw [if_neg (sortStrs_nonnil hcnil'), if_neg (sortStrs_nonnil hcnil)] at hCeq
    refine sortStrs_ne_of_mem_not_mem ⟨connEntryOf a, List.mem_map_of_mem _ ha, ?_⟩ hCeq.symm
    rw [contributingConnectors_touch, List.map_map]
    intro hmem
    obtain ⟨a', ha', hae⟩ := List.mem_map.mp hmem
    simp only [Function.comp] at hae
    have ha'els : a' ∈ els := arrowsOf_sub els a' (List.mem_filter.mp ha').1
    have hkeya' : jsOr a'.externalId a'.id = a'.externalId := by
      unfold jsOr
      rw [if_neg (hneid a' ha'els)]
    by_cases hext : a'.externalId = t
    · have ha'a : a' = a := List.inj_on_of_nodup_map hnodup ha'els haels (by rw [hext, hat])
      subst ha'a
      have hext' : (touchF t u v a').externalId = a'.externalId := (touchF_fields t u v a').1
      have hid' : (touchF t u v a').id = a'.id := (touchF_fields t u v a').2.1
      obtain ⟨huu, hvv⟩ := touchF_hit t u v a' hext
      unfold connEntryOf at hae
      rw [huu, hvv] at hae
      rw [show jsOr (touchF t u v a').externalId (touchF t u v a').id
          = a'.externalId from by rw [hext', hid']; exact hkeya'] at hae
      rw [hkeya'] at hae
      obtain ⟨_, hu2, hv2⟩ := keyEntry_inj
        (fun c hc => (hsafe a' ha'els c hc).1) (fun c hc => (hsafe a' ha'els c hc).1) hae
      exact hchg ⟨hu2, hv2⟩
    · rw [touchF_miss t u v a' hext] at hae
      unfold connEntryOf at hae
      rw [hkeya', hkeya] at hae
      obtain ⟨hid, _, _⟩ := keyEntry_inj
        (fun c hc => (hsafe a' ha'els c hc).1) (fun c hc => (hsafe a haels c hc).1) hae
      exact hext (by rw [hid, hat])

/-- C4: changing `updated`/`version` of any cluster member, or of any
contributing connector (both resolved endpoints are members), changes the
traverse cache-signature preimage — and under any injective (collision-free)
hash, the signature — forcing a cache miss; mutating an element that is
neither a member nor a contributing connector leaves the preimage, the
signature, and the cached lookup unchanged.  (Ids are assumed nonempty,
duplicate-free, and free of the digest separators `:` and `|`; boardId and
cluster_id free of `|`.) -/
theorem C4_signature_mutation_sensitivity (els : List Element)
    (boardId cluster_id : String)
    (hnodup : (els.map (·.externalId)).Nodup)
    (hneid : ∀ e ∈ els, ¬ e.externalId = "")
    (hsafe : ∀ e ∈ els, ∀ c ∈ e.externalId.data, ¬ c = ':' ∧ ¬ c = '|')
    (hbid : ∀ c ∈ boardId.data, ¬ c = '|')
    (hcid : ∀ c ∈ cluster_id.data, ¬ c = '|') :
    (∀ t u v, ((∃ m ∈ traverseMembers els cluster_id,
        m.externalId = t ∧ ¬ (u = m.updated ∧ v = m.version)) ∨
      (∃ a ∈ contributingConnectors els cluster_id,
        a.externalId = t ∧ ¬ (u = a.updated ∧ v = a.version))) →
      ¬ signaturePreimage (touch t u v els) boardId cluster_id
        = signaturePreimage els boardId cluster_id) ∧
    (∀ t u v, (∀ m ∈ traverseMembers els cluster_id, ¬ m.externalId = t) →
      (∀ a ∈ contributingConnectors els cluster_id, ¬ a.externalId = t) →
      signaturePreimage (touch t u v els) boardId cluster_id
        = signaturePreimage els boardId cluster_id) ∧
    (∀ (h : String → String), Function.Injective h →
      ∀ t u v (cached : String),
      ((∃ m ∈ traverseMembers els cluster_id,
          m.externalId = t ∧ ¬ (u = m.updated ∧ v = m.version)) ∨
        (∃ a ∈ contributingConnectors els cluster_id,
          a.externalId = t ∧ ¬ (u = a.updated ∧ v = a.version))) →
      jsMapFind [(h (signaturePreimage els boardId cluster_id), cached)]
        (h (signaturePreimage (touch t u v els) boardId cluster_id)) = none) ∧
    (∀ (h : String → String) (t : String) (u v : Nat) (cached : String),
      (∀ m ∈ traverseMembers els cluster_id, ¬ m.externalId = t) →
      (∀ a ∈ contributingConnectors els cluster_id, ¬ a.externalId = t) →
      jsMapFind [(h (signaturePreimage els boardId cluster_id), cached)]
        (h (signaturePreimage (touch t u v els) boardId cluster_id)) = some cached) := by
  have hneid' : ∀ t u v, ∀ e ∈ touch t u v els, ¬ e.externalId = "" := by
    intro t u v e he
    obtain ⟨x, hx, rfl⟩ := List.mem_map.mp he
    rw [(touchF_fields t u v x).1]
    exact hneid x hx
  have hsafe' : ∀ t u v, ∀ e ∈ touch t u v els,
      ∀ c ∈ e.externalId.data, ¬ c = ':' ∧ ¬ c = '|' := by
    intro t u v e he
    obtain ⟨x, hx, rfl⟩ := List.mem_map.mp he
    rw [(touchF_fields t u v x).1]
    exact hsafe x hx
  have partNE : ∀ t u v, ((∃ m ∈ traverseMembers els cluster_id,
        m.externalId = t ∧ ¬ (u = m.updated ∧ v = m.version)) ∨
      (∃ a ∈ contributingConnectors els cluster_id,
        a.externalId = t ∧ ¬ (u = a.updated ∧ v = a.version))) →
      ¬ signaturePreimage (touch t u v els) boardId cluster_id
        = signaturePreimage els boardId cluster_id := by
    intro t u v hsc heq
    apply flatParts_ne_touch els boardId cluster_id t u v hnodup hneid hsafe hsc
    apply joinBar_inj _ _ (by unfold flatParts; simp) (by unfold flatParts; simp)
      (flatParts_barfree _ boardId cluster_id (hneid' t u v) (hsafe' t u v) hbid hcid)
      (flatParts_barfree els boardId cluster_id hneid hsafe hbid hcid)
    rw [← signaturePreimage_flat, ← signaturePreimage_flat]
    exact heq
  have partEQ := signaturePreimage_touch_eq els boardId cluster_id
  refine ⟨partNE, fun t u v h1 h2 => partEQ t u v h1 h2, ?_, ?_⟩
  · intro h hinj t u v cached hsc
    rw [jsMapFind_singleton]
    rw [if_neg]
    intro hh
    exact partNE t u v hsc (hinj hh.symm)
  · intro h t u v cached h1 h2
    rw [jsMapFind_singleton]
    rw [if_pos (congrArg h (partEQ t u v h1 h2).symm)]

def c4m1 : Element :=
  { externalId := "m1", id := "1", kind := "rectangle", updated := 1, version := 1,
    distanceClusterId := "d_1" }

def c4m2 : Element :=
  { externalId := "m2", id := "2", kind := "rectangle", updated := 2, version := 1,
    distanceClusterId := "d_1" }

def c4cn : Element :=
  { externalId := "cn", id := "3", kind := "arrow", startBindingId := "m1",
    endBindingId := "m2", updated := 3, version := 1 }

def c4ot : Element :=
  { externalId := "ot", id := "4", kind := "rectangle", updated := 4, version := 1,
    distanceClusterId := "d_2" }

def c4els : List Element := [c4m1, c4m2, c4cn, c4ot]

/-- C4 witness: on a concrete board, mutating member `m1` or contributing
connector `cn` changes the preimage; mutating unrelated `ot` leaves it
unchanged. -/
theorem C4_signature_mutation_sensitivity_witness :
    (¬ signaturePreimage (touch "m1" 9 1 c4els) "b1" "d_1"
        = signaturePreimage c4els "b1" "d_1") ∧
    (¬ signaturePreimage (touch "cn" 9 1 c4els) "b1" "d_1"
        = signaturePreimage c4els "b1" "d_1") ∧
    (signaturePreimage (touch "ot" 9 1 c4els) "b1" "d_1"
        = signaturePreimage c4els "b1" "d_1") :=
  ⟨(C4_signature_mutation_sensitivity c4els "b1" "d_1"
      (by with_unfolding_all decide) (by with_unfolding_all decide)
      (by with_unfolding_all decide) (by with_unfolding_all decide)
      (by with_unfolding_all decide)).1 "m1" 9 1
      (Or.inl ⟨c4m1, by with_unfolding_all decide, by with_unfolding_all decide⟩),
   (C4_signature_mutation_sensitivity c4els "b1" "d_1"
      (by with_unfolding_all decide) (by with_unfolding_all decide)
      (by with_unfolding_all decide) (by with_unfolding_all decide)
      (by with_unfolding_all decide)).1 "cn" 9 1
      (Or.inr ⟨c4cn, by with_unfolding_all decide, by with_unfolding_all decide⟩),
   (C4_signature_mutation_sensitivity c4els "b1" "d_1"
      (by with_unfolding_all decide) (by with_unfolding_all decide)
      (by with_unfolding_all decide) (by with_unfolding_all decide)
      (by with_unfolding_all decide)).2.1 "ot" 9 1
      (by with_unfolding_all decide) (by with_unfolding_all decide)⟩

/-! ### MCP graph routes (src/unnamed/part_009)

Edges have `from`/`to`/`type` fields (`from` and `to` are Lean keywords, so
the fields are `from_` and `to_`).  `multi_hop_traversal` clamps `max_hops` into 1–6 (default 3,
`||` also catches 0) and runs a FIFO BFS that stops expanding nodes at depth
`maxHops`; `flow_paths` clamps `max_depth` into 1–10 (default 6) and runs a
DFS along `FLOWS_TO` edges.  The hop/depth arguments are modeled as optional
integers. -/

structure Edge where
  from_ : String
  to_ : String
  type : String
  deriving Repr, DecidableEq

/-- `byFrom` grouping: the edges leaving a node, in input order (a missing
key yields `[]`). -/
def byFromLookup (edges : List Edge) (id : String) : List Edge :=
  edges.filter (fun e => e.from_ = id)

/-- `edgeTypes.length ? edges.filter(...) : edges` with upper-cased types. -/
def typedEdges (edges : List Edge) (edgeTypes : List String) : List Edge :=
  if edgeTypes.length = 0 then edges
  else edges.filter (fun e => (edgeTypes.map (·.toUpper)).contains e.type.toUpper)

/-- `Math.max(1, Math.min(6, Number(data?.max_hops || 3)))`. -/
def clampHops (mh : Option ℤ) : ℤ :=
  max 1 (min 6 (match mh with | none => 3 | some k => if k = 0 then 3 else k))

/-- Reachability within `n` hops along the adjacency. -/
def reachIn (adj : String → List Edge) (s : String) : ℕ → String → Prop
  | 0, y => s = y
  | n + 1, y => s = y ∨ ∃ z, reachIn adj s n z ∧ ∃ e ∈ adj z, e.to_ = y

/-- One BFS expansion: traversed edges are recorded unconditionally; fresh
targets are added to `visited` and queued at depth `d + 1`. -/
def mhopScan (d : ℕ) : List Edge → List String → List String × List (String × ℕ)
  | [], vis => (vis, [])
  | e :: rest, vis =>
    if vis.contains e.to_ then mhopScan d rest vis
    else ((mhopScan d rest (vis ++ [e.to_])).1,
          (e.to_, d + 1) :: (mhopScan d rest (vis ++ [e.to_])).2)

/-- The `while (q.length)` BFS; a popped entry at depth `≥ maxHops` is
dropped without expansion. -/
def mhopLoop (adj : String → List Edge) (m : ℤ) :
    ℕ → List (String × ℕ) → List String → List Edge →
    List (String × ℕ) × List String × List Edge
  | 0, q, vis, tr => (q, vis, tr)
  | _ + 1, [], vis, tr => ([], vis, tr)
  | fuel + 1, (id, d) :: qrest, vis, tr =>
    if (d : ℤ) ≥ m then mhopLoop adj m fuel qrest vis tr
    else mhopLoop adj m fuel
      (qrest ++ (mhopScan d (adj id) vis).2)
      (mhopScan d (adj id) vis).1
      (tr ++ adj id)

/-- `multi_hop_traversal` result: `(Array.from(visited), travEdges)`.  The
fuel covers every possible queue insertion (start entries plus at most one
per typed edge), so the loop always drains — see `mhopLoop_terminates`. -/
def multiHopCalc (edges : List Edge) (edgeTypes : List String)
    (startIds : List String) (mh : Option ℤ) : List String × List Edge :=
  ((mhopLoop (byFromLookup (typedEdges edges edgeTypes)) (clampHops mh)
      (startIds.length + (typedEdges edges edgeTypes).length)
      (startIds.map (fun id => (id, 0))) (jsSetList startIds) []).2.1,
   (mhopLoop (byFromLookup (typedEdges edges edgeTypes)) (clampHops mh)
      (startIds.length + (typedEdges edges edgeTypes).length)
      (startIds.map (fun id => (id, 0))) (jsSetList startIds) []).2.2)

lemma mhopScan_vis (d : ℕ) :
    ∀ (cs : List Edge) (vis : List String),
    (mhopScan d cs vis).1 = vis ++ ((mhopScan d cs vis).2.map (·.1)) := by
  intro cs
  induction cs with
  | nil => intro vis; simp [mhopScan]
  | cons e rest ih =>
    intro vis
    unfold mhopScan
    by_cases h1 : vis.contains e.to_
    · rw [if_pos h1]; exact ih vis
    · rw [if_neg h1]
      show (mhopScan d rest (vis ++ [e.to_])).1
        = vis ++ (e.to_ :: ((mhopScan d rest (vis ++ [e.to_])).2.map (·.1)))
      rw [ih (vis ++ [e.to_])]
      simp

lemma mhopScan_accepted (d : ℕ) :
    ∀ (cs : List Edge) (vis : List String),
    ∀ p ∈ (mhopScan d cs vis).2,
      (∃ e ∈ cs, e.to_ = p.1) ∧ p.2 = d + 1 ∧ p.1 ∉ vis := by
  intro cs
  induction cs with
  | nil => intro vis p hp; cases hp
  | cons e rest ih =>
    intro vis p hp
    unfold mhopScan at hp
    by_cases h1 : vis.contains e.to_
    · rw [if_pos h1] at hp
      obtain ⟨⟨e', he', hto⟩, hd, hnv⟩ := ih vis p hp
      exact ⟨⟨e', List.mem_cons_of_mem _ he', hto⟩, hd, hnv⟩
    · rw [if_neg h1] at hp
      rcases List.mem_cons.mp hp with rfl | hp'
      · exact ⟨⟨e, List.mem_cons_self _ _, rfl⟩, rfl, by simpa using h1⟩
      · obtain ⟨⟨e', he', hto⟩, hd, hnv⟩ := ih (vis ++ [e.to_]) p hp'
        refine ⟨⟨e', List.mem_cons_of_mem _ he', hto⟩, hd, fun hv => hnv ?_⟩
        exact List.mem_append_left _ hv

lemma mhopScan_vis_nodup (d : ℕ) :
    ∀ (cs : List Edge) (vis : List String), vis.Nodup →
    (mhopScan d cs vis).1.Nodup := by
  intro cs
  induction cs with
  | nil => intro vis h; simpa [mhopScan]
  | cons e rest ih =>
    intro vis h
    unfold mhopScan
    by_cases h1 : vis.contains e.to_
    · rw [if_pos h1]; exact ih vis h
    · rw [if_neg h1]
      show ((mhopScan d rest (vis ++ [e.to_])).1).Nodup
      refine ih (vis ++ [e.to_]) ?_
      rw [List.nodup_append]
      refine ⟨h, List.nodup_singleton _, ?_⟩
      intro a ha hb
      rw [List.mem_singleton] at hb
      subst hb
      exact (by simpa using h1 : e.to_ ∉ vis) ha

lemma mhopLoop_zero (adj : String → List Edge) (m : ℤ) (q : List (String × ℕ))
    (vis : List String) (tr : List Edge) :
    mhopLoop adj m 0 q vis tr = (q, vis, tr) := rfl

lemma mhopLoop_nil (adj : String → List Edge) (m : ℤ) (n : ℕ)
    (vis : List String) (tr : List Edge) :
    mhopLoop adj m (n + 1) [] vis tr = ([], vis, tr) := rfl

lemma mhopLoop_cons (adj : String → List Edge) (m : ℤ) (n : ℕ) (id : String) (d : ℕ)
    (qrest : List (String × ℕ)) (vis : List String) (tr : List Edge) :
    mhopLoop adj m (n + 1) ((id, d) :: qrest) vis tr
      = if (d : ℤ) ≥ m then mhopLoop adj m n qrest vis tr
        else mhopLoop adj m n
          (qrest ++ (mhopScan d (adj id) vis).2)
          (mhopScan d (adj id) vis).1
          (tr ++ adj id) := rfl

lemma mhopLoop_terminates (adj : String → List Edge) (m : ℤ) (U : List String)
    (hU : ∀ id, ∀ e ∈ adj id, e.to_ ∈ U) :
    ∀ (fuel : ℕ) (q : List (String × ℕ)) (vis : List String) (tr : List Edge),
    vis.Nodup →
    q.length + (U.toFinset \ vis.toFinset).card ≤ fuel →
    (mhopLoop adj m fuel q vis tr).1 = [] := by
  intro fuel
  induction fuel with
  | zero =>
    intro q vis tr _ hb
    have : q.length = 0 := by omega
    rw [List.length_eq_zero] at this
    subst this
    rfl
  | succ n ih =>
    intro q vis tr hnv hb
    match q with
    | [] => rw [mhopLoop_nil]
    | (id, d) :: qrest =>
      rw [mhopLoop_cons]
      by_cases hd : (d : ℤ) ≥ m
      · rw [if_pos hd]
        refine ih qrest vis tr hnv ?_
        simp only [List.length_cons] at hb
        omega
      · rw [if_neg hd]
        have hvis' := mhopScan_vis d (adj id) vis
        have hnv' : (mhopScan d (adj id) vis).1.Nodup := mhopScan_vis_nodup d _ vis hnv
        set acc := (mhopScan d (adj id) vis).2 with hacc
        have haccU : ∀ p ∈ acc, p.1 ∈ U := by
          intro p hp
          obtain ⟨⟨e, he, hto⟩, _, _⟩ := mhopScan_accepted d _ vis p hp
          rw [← hto]
          exact hU id e he
        have haccfresh : ∀ p ∈ acc, p.1 ∉ vis := by
          intro p hp
          exact (mhopScan_accepted d _ vis p hp).2.2
        have haccnodup : (acc.map (·.1)).Nodup := by
          have := hnv'
          rw [hvis'] at this
          exact (List.nodup_append.mp this).2.1
        have hsub : (acc.map (·.1)).toFinset ⊆ U.toFinset \ vis.toFinset := by
          intro z hz
          rw [List.mem_toFinset] at hz
          obtain ⟨p, hp, rfl⟩ := List.mem_map.mp hz
          rw [Finset.mem_sdiff, List.mem_toFinset, List.mem_toFinset]
          exact ⟨haccU p hp, haccfresh p hp⟩
        have hcard : (U.toFinset \ (mhopScan d (adj id) vis).1.toFinset).card
            = (U.toFinset \ vis.toFinset).card - acc.length := by
          rw [hvis']
          have hsplit : U.toFinset \ (vis ++ acc.map (·.1)).toFinset
              = (U.toFinset \ vis.toFinset) \ (acc.map (·.1)).toFinset := by
            ext z
            simp only [Finset.mem_sdiff, List.mem_toFinset, List.mem_append]
            tauto
          rw [hsplit, Finset.card_sdiff hsub]
          congr 1
          rw [List.toFinset_card_of_nodup haccnodup, List.length_map]
        refine ih _ _ _ hnv' ?_
        rw [List.length_append, hcard]
        simp only [List.length_cons] at hb
        have hlen : acc.length ≤ (U.toFinset \ vis.toFinset).card := by
          calc acc.length = (acc.map (·.1)).length := (List.length_map _ _).symm
            _ = (acc.map (·.1)).toFinset.card := (List.toFinset_card_of_nodup haccnodup).symm
            _ ≤ _ := Finset.card_le_card hsub
        omega

lemma mhopLoop_sound (adj : String → List Edge) (m : ℤ) (S : List String) :
    ∀ (fuel : ℕ) (q : List (String × ℕ)) (vis : List String) (tr : List Edge),
    (∀ p ∈ q, (∃ s ∈ S, reachIn adj s p.2 p.1) ∧ (p.2 = 0 ∨ (p.2 : ℤ) ≤ m)) →
    (∀ x ∈ vis, ∃ s ∈ S, ∃ n : ℕ, reachIn adj s n x ∧ (n = 0 ∨ (n : ℤ) ≤ m)) →
    ∀ x ∈ (mhopLoop adj m fuel q vis tr).2.1,
      ∃ s ∈ S, ∃ n : ℕ, reachIn adj s n x ∧ (n = 0 ∨ (n : ℤ) ≤ m) := by
  intro fuel
  induction fuel with
  | zero => intro q vis tr _ hv x hx; exact hv x (by simpa [mhopLoop_zero] using hx)
  | succ n ih =>
    intro q vis tr hq hv x hx
    match q with
    | [] => exact hv x (by simpa [mhopLoop_nil] using hx)
    | (id, d) :: qrest =>
      rw [mhopLoop_cons] at hx
      by_cases hd : (d : ℤ) ≥ m
      · rw [if_pos hd] at hx
        exact ih qrest vis tr (fun p hp => hq p (List.mem_cons_of_mem _ hp)) hv x hx
      · rw [if_neg hd] at hx
        have hdm : (d : ℤ) < m := lt_of_not_ge hd
        obtain ⟨⟨s0, hs0, hr0⟩, _⟩ := hq (id, d) (List.mem_cons_self _ _)
        refine ih _ _ _ ?_ ?_ x hx
        · intro p hp
          rcases List.mem_append.mp hp with hp' | hp'
          · exact hq p (List.mem_cons_of_mem _ hp')
          · obtain ⟨⟨e, he, hto⟩, hd1, _⟩ := mhopScan_accepted d (adj id) vis p hp'
            refine ⟨⟨s0, hs0, ?_⟩, Or.inr ?_⟩
            · rw [hd1]
              exact Or.inr ⟨id, hr0, e, he, hto⟩
            · rw [hd1]
              push_cast
              omega
        · intro y hy
          rw [mhopScan_vis d (adj id) vis] at hy
          rcases List.mem_append.mp hy with hy' | hy'
          · exact hv y hy'
          · obtain ⟨p, hp, rfl⟩ := List.mem_map.mp hy'
            obtain ⟨⟨e, he, hto⟩, hd1, _⟩ := mhopScan_accepted d (adj id) vis p hp
            refine ⟨s0, hs0, d + 1, ?_, Or.inr (by push_cast; omega)⟩
            exact Or.inr ⟨id, hr0, e, he, hto⟩

/-- C5: `multi_hop_traversal` clamps the hop count into 1–6 and every
returned node is reachable from some start id within that many hops — in
particular a node reachable only at hop `maxHops + 1` or more is never
returned. -/
theorem C5_multi_hop_clamped_and_bounded (edges : List Edge)
    (edgeTypes startIds : List String) (mh : Option ℤ) (x : String)
    (hx : x ∈ (multiHopCalc edges edgeTypes startIds mh).1) :
    1 ≤ clampHops mh ∧ clampHops mh ≤ 6 ∧
    ∃ s ∈ startIds, ∃ n : ℕ,
      reachIn (byFromLookup (typedEdges edges edgeTypes)) s n x ∧
      (n : ℤ) ≤ clampHops mh := by
  have hclamp1 : 1 ≤ clampHops mh := le_max_left _ _
  refine ⟨hclamp1, ?_, ?_⟩
  · exact max_le (by norm_num) (min_le_left _ _)
  · have hsound := mhopLoop_sound (byFromLookup (typedEdges edges edgeTypes))
      (clampHops mh) startIds
      (startIds.length + (typedEdges edges edgeTypes).length)
      (startIds.map (fun id => (id, 0))) (jsSetList startIds) []
      (by
        intro p hp
        obtain ⟨s, hs, rfl⟩ := List.mem_map.mp hp
        exact ⟨⟨s, hs, rfl⟩, Or.inl rfl⟩)
      (by
        intro y hy
        exact ⟨y, mem_jsSetList.mp hy, 0, rfl, Or.inl rfl⟩)
      x hx
    obtain ⟨s, hs, n, hr, hn⟩ := hsound
    refine ⟨s, hs, n, hr, ?_⟩
    rcases hn with rfl | h
    · exact_mod_cast le_trans (by norm_num) hclamp1
    · exact h

def c5edges : List Edge := [⟨"a", "b", "LINKS_TO"⟩]

/-- C5 witness at a one-edge graph with default hops. -/
theorem C5_multi_hop_clamped_and_bounded_witness :
    "b" ∈ (multiHopCalc c5edges [] ["a"] none).1 ∧
    (1 ≤ clampHops none ∧ clampHops none ≤ 6 ∧
     ∃ s ∈ ["a"], ∃ n : ℕ,
       reachIn (byFromLookup (typedEdges c5edges [])) s n "b" ∧
       (n : ℤ) ≤ clampHops none) :=
  ⟨by with_unfolding_all decide,
   C5_multi_hop_clamped_and_bounded c5edges [] ["a"] none "b"
     (by with_unfolding_all decide)⟩

/-- `FLOWS_TO` edges only. -/
def flowEdges (edges : List Edge) : List Edge :=
  edges.filter (fun e => e.type.toUpper = "FLOWS_TO")

/-- `Math.max(1, Math.min(10, Number(data?.max_depth || 6)))`. -/
def clampDepth (md : Option ℤ) : ℤ :=
  max 1 (min 10 (match md with | none => 6 | some k => if k = 0 then 6 else k))

/-- The flow DFS: `rem` counts the remaining budget `maxDepth + 1 - depth`
(`rem = 0` is exactly the JS `depth > maxDepth` terminal check; depth moves
in steps of 1, and the clamp makes `maxDepth ≥ 1`).  A node with no outgoing
flow edge also terminates the path. -/
def flowDfs (adj : String → List Edge) : ℕ → String → List String → List (List String)
  | 0, _, path => [path]
  | rem + 1, node, path =>
    if adj node = [] then [path]
    else (adj node).flatMap (fun e => flowDfs adj rem e.to_ (path ++ [e.to_]))

/-- `flow_paths` result: DFS from each seed at depth 0 with path `[seed]`. -/
def flowPathsCalc (edges : List Edge) (seeds : List String) (md : Option ℤ) :
    List (List String) :=
  seeds.flatMap (fun s =>
    flowDfs (byFromLookup (flowEdges edges)) ((clampDepth md).toNat + 1) s [s])

/-- Consecutive entries connected by flow edges. -/
def isFlowPath (adj : String → List Edge) : List String → Prop
  | [] => True
  | [_] => True
  | a :: b :: rest => (∃ e ∈ adj a, e.to_ = b) ∧ isFlowPath adj (b :: rest)

lemma isFlowPath_concat (adj : String → List Edge) :
    ∀ (l : List String) (a b : String), isFlowPath adj l → l.getLast? = some a →
    (∃ e ∈ adj a, e.to_ = b) → isFlowPath adj (l ++ [b]) := by
  intro l
  induction l with
  | nil => intro a b _ hl; cases hl
  | cons x rest ih =>
    intro a b hp hl he
    match rest with
    | [] =>
      have hxa : x = a := by simpa using hl
      exact ⟨by rwa [hxa], trivial⟩
    | y :: rest' =>
      obtain ⟨hedge, htail⟩ := hp
      have hl' : (y :: rest').getLast? = some a :=
        (List.getLast?_cons_cons).symm.trans hl
      exact ⟨hedge, ih a b htail hl' he⟩

lemma flowDfs_sound (adj : String → List Edge) :
    ∀ (rem : ℕ) (node : String) (path : List String),
    path.getLast? = some node →
    ∀ p ∈ flowDfs adj rem node path,
      p.head? = path.head? ∧
      (isFlowPath adj path → isFlowPath adj p) ∧
      ∃ t, p.getLast? = some t ∧
        (adj t = [] ∨ p.length = path.length + rem) := by
  intro rem
  induction rem with
  | zero =>
    intro node path hlast p hp
    rw [show p = path from by simpa [flowDfs] using hp]
    exact ⟨rfl, fun h => h, node, hlast, Or.inr (by simp)⟩
  | succ n ih =>
    intro node path hlast p hp
    unfold flowDfs at hp
    by_cases hadj : adj node = []
    · rw [if_pos hadj] at hp
      rw [show p = path from by simpa using hp]
      exact ⟨rfl, fun h => h, node, hlast, Or.inl hadj⟩
    · rw [if_neg hadj] at hp
      obtain ⟨e, he, hp'⟩ := List.mem_flatMap.mp hp
      have hlast' : (path ++ [e.to_]).getLast? = some e.to_ := List.getLast?_concat _
      obtain ⟨hhead, hchain, t, htl, hterm⟩ := ih e.to_ (path ++ [e.to_]) hlast' p hp'
      have hne : path ≠ [] := by
        intro h
        rw [h] at hlast
        cases hlast
      refine ⟨?_, ?_, t, htl, ?_⟩
      · rw [hhead]
        match path, hne with
        | x :: path', _ => rfl
      · intro hfp
        exact hchain (isFlowPath_concat adj path node e.to_ hfp hlast ⟨e, he, rfl⟩)
      · rcases hterm with h | h
        · exact Or.inl h
        · refine Or.inr ?_
          rw [h]
          simp only [List.length_append, List.length_singleton]
          omega

/-- C10 counterexample: with clamp 1 the DFS emits the path n1→n2→n3, whose
terminal n3 still has an outgoing flow edge and sits at depth 2, one beyond
the clamped maximum depth — refuting "terminates exactly at a node with no
further outgoing flow edge or at the clamped maximum depth". -/
theorem C10_counterexample_path_exceeds_clamped_depth :
    flowPathsCalc [⟨"n1", "n2", "FLOWS_TO"⟩, ⟨"n2", "n3", "FLOWS_TO"⟩,
        ⟨"n3", "n4", "FLOWS_TO"⟩] ["n1"] (some 1)
      = [["n1", "n2", "n3"]] ∧
    clampDepth (some 1) = 1 ∧
    ¬ byFromLookup (flowEdges [⟨"n1", "n2", "FLOWS_TO"⟩, ⟨"n2", "n3", "FLOWS_TO"⟩,
        ⟨"n3", "n4", "FLOWS_TO"⟩]) "n3" = [] ∧
    ¬ ((["n1", "n2", "n3"] : List String).length : ℤ) - 1 = clampDepth (some 1) := by
  exact ⟨by with_unfolding_all decide, by with_unfolding_all decide,
    by with_unfolding_all decide, by with_unfolding_all decide⟩

/-- C10 (amended): the depth clamp is 1–10, every returned path starts at a
seed and follows only `FLOWS_TO` edges, and a path ends exactly at a node
with no outgoing flow edge or at depth `clamp + 1` (path length `clamp + 2`)
— one hop beyond the claimed maximum depth. -/
theorem C10_flow_paths_follow_edges_terminate_one_past_clamp
    (edges : List Edge) (seeds : List String) (md : Option ℤ)
    (p : List String) (hp : p ∈ flowPathsCalc edges seeds md) :
    1 ≤ clampDepth md ∧ clampDepth md ≤ 10 ∧
    ∃ s ∈ seeds, p.head? = some s ∧
    isFlowPath (byFromLookup (flowEdges edges)) p ∧
    ∃ t, p.getLast? = some t ∧
      (byFromLookup (flowEdges edges) t = [] ∨
       (p.length : ℤ) = clampDepth md + 2) := by
  have hclamp1 : 1 ≤ clampDepth md := le_max_left _ _
  refine ⟨hclamp1, max_le (by norm_num) (min_le_left _ _), ?_⟩
  obtain ⟨s, hs, hpd⟩ := List.mem_flatMap.mp hp
  obtain ⟨hhead, hchain, t, htl, hterm⟩ :=
    flowDfs_sound (byFromLookup (flowEdges edges)) ((clampDepth md).toNat + 1) s [s]
      rfl p hpd
  refine ⟨s, hs, by simpa using hhead, hchain trivial, t, htl, ?_⟩
  rcases hterm with h | h
  · exact Or.inl h
  · refine Or.inr ?_
    rw [h]
    have htn : ((clampDepth md).toNat : ℤ) = clampDepth md :=
      Int.toNat_of_nonneg (le_trans (by norm_num) hclamp1)
    simp only [List.length_singleton]
    push_cast
    rw [htn]
    ring

/-- C10 amended-theorem witness at the counterexample input. -/
theorem C10_flow_paths_follow_edges_terminate_one_past_clamp_witness :
    ["n1", "n2", "n3"] ∈ flowPathsCalc [⟨"n1", "n2", "FLOWS_TO"⟩,
        ⟨"n2", "n3", "FLOWS_TO"⟩, ⟨"n3", "n4", "FLOWS_TO"⟩] ["n1"] (some 1) ∧
    (1 ≤ clampDepth (some 1) ∧ clampDepth (some 1) ≤ 10 ∧
     ∃ s ∈ ["n1"], (["n1", "n2", "n3"] : List String).head? = some s ∧
     isFlowPath (byFromLookup (flowEdges [⟨"n1", "n2", "FLOWS_TO"⟩,
        ⟨"n2", "n3", "FLOWS_TO"⟩, ⟨"n3", "n4", "FLOWS_TO"⟩])) ["n1", "n2", "n3"] ∧
     ∃ t, (["n1", "n2", "n3"] : List String).getLast? = some t ∧
       (byFromLookup (flowEdges [⟨"n1", "n2", "FLOWS_TO"⟩, ⟨"n2", "n3", "FLOWS_TO"⟩,
          ⟨"n3", "n4", "FLOWS_TO"⟩]) t = [] ∨
        ((["n1", "n2", "n3"] : List String).length : ℤ) = clampDepth (some 1) + 2)) :=
  ⟨by with_unfolding_all decide,
   C10_flow_paths_follow_edges_terminate_one_past_clamp _ _ _ ["n1", "n2", "n3"]
     (by with_unfolding_all decide)⟩

/-! ### MCP session guard (src/unnamed/part_009)

`mcpSessions` is a `Map` from connection id to `{userId, items, cursor, …}`;
`ensureSession` rejects a missing session with 404 and a foreign one with
403.  `next` and `multi_hop_traversal` call it before touching the session;
`reset` deletes the session without calling it. -/

structure McpSession where
  userId : String
  boardId : String
  cursor : ℕ
  items : List String
  deriving Repr, DecidableEq

def sessGet (store : List (String × McpSession)) (cid : String) : Option McpSession :=
  jsMapFind store cid

def sessDelete (store : List (String × McpSession)) (cid : String) :
    List (String × McpSession) :=
  store.filter (fun p => ¬ p.1 = cid)

def sessSet (store : List (String × McpSession)) (cid : String) (s : McpSession) :
    List (String × McpSession) :=
  if (store.map (·.1)).contains cid
  then store.map (fun p => if p.1 = cid then (cid, s) else p)
  else store ++ [(cid, s)]

/-- `ensureSession`: 404 for a missing session, 403 for a foreign one. -/
def ensureSession (store : List (String × McpSession)) (userId cid : String) :
    Except ℕ McpSession :=
  match sessGet store cid with
  | none => Except.error 404
  | some s => if s.userId = userId then Except.ok s else Except.error 403

/-- `POST /api/mcp/reset`: deletes the session without `ensureSession`
(only a missing-id 400 check); the user id is not consulted. -/
def resetHandler (store : List (String × McpSession)) (_userId cid : String) :
    List (String × McpSession) × ℕ :=
  if cid = "" then (store, 400)
  else (sessDelete store cid, 200)

/-- `POST /api/mcp/next`: guarded by `ensureSession`; on success reads
`items[cursor]` and bumps the cursor. -/
def nextHandler (store : List (String × McpSession)) (userId cid : String) :
    List (String × McpSession) × ℕ × Option String :=
  match ensureSession store userId cid with
  | Except.error c => (store, c, none)
  | Except.ok s =>
    if s.items.length ≤ s.cursor then (store, 200, none)
    else (sessSet store cid { s with cursor := s.cursor + 1 }, 200, s.items.get? s.cursor)

/-- `POST /api/mcp/multi_hop_traversal`: guarded by `ensureSession`; on
success stores the board id on the session and runs the traversal. -/
def mhopHandler (store : List (String × McpSession)) (userId cid boardId : String)
    (edges : List Edge) (edgeTypes startIds : List String) (mh : Option ℤ) :
    List (String × McpSession) × ℕ × Option (List String × List Edge) :=
  match ensureSession store userId cid with
  | Except.error c => (store, c, none)
  | Except.ok s =>
    (sessSet store cid { s with boardId := boardId }, 200,
     some (multiHopCalc edges edgeTypes startIds mh))

def c8sess : McpSession := { userId := "alice", boardId := "b", cursor := 0, items := [] }

/-- C8 counterexample: a session owned by alice is deleted by bob's `reset`
call with a 200 response — no 403/404 rejection, and the session store is
mutated — refuting "every operation other than init (including reset)
rejects a foreign session without mutation". -/
theorem C8_counterexample_reset_deletes_foreign_session :
    ensureSession [("c1", c8sess)] "bob" "c1" = Except.error 403 ∧
    resetHandler [("c1", c8sess)] "bob" "c1" = ([], 200) := by
  exact ⟨by with_unfolding_all rfl, by with_unfolding_all decide⟩

/-- C8 (amended): operations that call `ensureSession` (`next`,
`multi_hop_traversal`) reject a missing (404) or foreign (403) session
without reading items or mutating the store; `reset` is the exception. -/
theorem C8_guarded_ops_reject_without_mutation
    (store : List (String × McpSession)) (userId cid : String)
    (herr : sessGet store cid = none ∨
      ∃ s, sessGet store cid = some s ∧ ¬ s.userId = userId) :
    ((nextHandler store userId cid).1 = store ∧
     ((nextHandler store userId cid).2.1 = 404 ∨ (nextHandler store userId cid).2.1 = 403) ∧
     (nextHandler store userId cid).2.2 = none) ∧
    (∀ (boardId : String) (edges : List Edge) (edgeTypes startIds : List String)
       (mh : Option ℤ),
     (mhopHandler store userId cid boardId edges edgeTypes startIds mh).1 = store ∧
     ((mhopHandler store userId cid boardId edges edgeTypes startIds mh).2.1 = 404 ∨
      (mhopHandler store userId cid boardId edges edgeTypes startIds mh).2.1 = 403) ∧
     (mhopHandler store userId cid boardId edges edgeTypes startIds mh).2.2 = none) := by
  have hens : ensureSession store userId cid = Except.error 404 ∨
      ensureSession store userId cid = Except.error 403 := by
    rcases herr with h | ⟨s, hs, hfor⟩
    · left
      unfold ensureSession
      rw [h]
    · right
      unfold ensureSession
      rw [hs]
      dsimp only
      rw [if_neg hfor]
  rcases hens with h | h
  · refine ⟨?_, ?_⟩
    · unfold nextHandler
      rw [h]
      exact ⟨rfl, Or.inl rfl, rfl⟩
    · intro boardId edges edgeTypes startIds mh
      unfold mhopHandler
      rw [h]
      exact ⟨rfl, Or.inl rfl, rfl⟩
  · refine ⟨?_, ?_⟩
    · unfold nextHandler
      rw [h]
      exact ⟨rfl, Or.inr rfl, rfl⟩
    · intro boardId edges edgeTypes startIds mh
      unfold mhopHandler
      rw [h]
      exact ⟨rfl, Or.inr rfl, rfl⟩

/-- C8 amended-theorem witness: bob against alice's session. -/
theorem C8_guarded_ops_reject_without_mutation_witness :
    (((nextHandler [("c1", c8sess)] "bob" "c1").1 = [("c1", c8sess)] ∧
      ((nextHandler [("c1", c8sess)] "bob" "c1").2.1 = 404 ∨
       (nextHandler [("c1", c8sess)] "bob" "c1").2.1 = 403) ∧
      (nextHandler [("c1", c8sess)] "bob" "c1").2.2 = none) ∧
     (∀ (boardId : String) (edges : List Edge) (edgeTypes startIds : List String)
        (mh : Option ℤ),
      (mhopHandler [("c1", c8sess)] "bob" "c1" boardId edges edgeTypes startIds mh).1
        = [("c1", c8sess)] ∧
      ((mhopHandler [("c1", c8sess)] "bob" "c1" boardId edges edgeTypes startIds mh).2.1 = 404 ∨
       (mhopHandler [("c1", c8sess)] "bob" "c1" boardId edges edgeTypes startIds mh).2.1 = 403) ∧
      (mhopHandler [("c1", c8sess)] "bob" "c1" boardId edges edgeTypes startIds mh).2.2
        = none)) :=
  C8_guarded_ops_reject_without_mutation [("c1", c8sess)] "bob" "c1"
    (Or.inr ⟨c8sess, by with_unfolding_all decide, by with_unfolding_all decide⟩)

def c7s1 : Element :=
  { externalId := "s1", id := "1", kind := "rectangle" }

def c7s2 : Element :=
  { externalId := "s2", id := "2", kind := "rectangle" }

def c7ar : Element :=
  { externalId := "a1", id := "3", kind := "arrow", startBindingId := "s1",
    endBindingId := "s2" }

/-- C7 amended-theorem witness: the relational cluster of two arrow-linked
rectangles contains no connector-kind element. -/
theorem C7_relational_clusters_exclude_connectors_witness :
    [c7s1, c7s2] ∈ relationalClustersCalc [c7s1, c7s2, c7ar] ∧
    c7s1 ∈ [c7s1, c7s2] ∧
    (¬ c7s1.kind = "arrow" ∧ ¬ c7s1.kind = "line") :=
  ⟨by with_unfolding_all decide, by with_unfolding_all decide,
   C7_relational_clusters_exclude_connectors [c7s1, c7s2, c7ar] [c7s1, c7s2]
     (by with_unfolding_all decide) c7s1 (by with_unfolding_all decide)⟩

end Treyspace
